import Mathlib

/-! Shallow embedding of the Kestrel IR graph engine: the IRGraph algebra of
kestrel/ir/graph.py, the IRGraphEvaluable construction, and the in-memory
evaluator of kestrel/cache/inmemory.py, together with proofs of the frozen
claims about them. -/

/-- Decidable equality for Except results, so concrete runs of the embedded
operations can be checked by decide. -/
instance {ε α : Type _} [DecidableEq ε] [DecidableEq α] :
    DecidableEq (Except ε α) := fun
  | .ok x, .ok y => decidable_of_iff (x = y) (by simp)
  | .error x, .error y => decidable_of_iff (x = y) (by simp)
  | .ok _, .error _ => .isFalse (by intro h; cases h)
  | .error _, .ok _ => .isFalse (by intro h; cases h)

/-- Node identifier: models the 128-bit UUID carried by every instruction.
Equality of instructions in the source is by this id. -/
abbrev NodeId := Nat

/-- Modelled from the spec: the instruction data model.  The file
kestrel/ir/instructions.py is not among the sources; spec sections 3.1 and 4.1
give the closed sum of node kinds, their attributes, and the content-equality
rules (DataSource by interface and datasource, Variable by name and version,
Return by sequence, Reference by name, other transforms by their semantic
parameters).  Equality of InstrData is exactly that content equality
(has_same_content_as); the node id lives outside, in Instruction. -/
inductive InstrData where
  | dataSource (interface : String) (datasource : String)
  | var (name : String) (version : Nat)
  | ret (sequence : Nat)
  | reference (name : String)
  | trans (operator : String)
deriving DecidableEq, Repr

/-- An IR node: stable identity plus kind-specific content. -/
structure Instruction where
  id : NodeId
  data : InstrData
deriving DecidableEq, Repr

/-- SourceInstruction category (DataSource is its only variant here). -/
def Instruction.isSource (x : Instruction) : Bool :=
  match x.data with
  | .dataSource _ _ => true
  | _ => false

/-- IntermediateInstruction category (Reference is the only variant). -/
def Instruction.isIntermediate (x : Instruction) : Bool :=
  match x.data with
  | .reference _ => true
  | _ => false

/-- TransformingInstruction category (Variable, Return, row-level transforms). -/
def Instruction.isTransforming (x : Instruction) : Bool :=
  match x.data with
  | .var _ _ => true
  | .ret _ => true
  | .trans _ => true
  | _ => false

/-- Is this node a Variable with the given name. -/
def Instruction.isVarNamed (nm : String) (x : Instruction) : Bool :=
  match x.data with
  | .var n _ => n == nm
  | _ => false

/-- Is this node a Reference with the given name. -/
def Instruction.isRefNamed (nm : String) (x : Instruction) : Bool :=
  match x.data with
  | .reference n => n == nm
  | _ => false

/-- The version attribute of a Variable node (0 for other kinds). -/
def Instruction.versionOf (x : Instruction) : Nat :=
  match x.data with
  | .var _ v => v
  | _ => 0

/-- The sequence attribute of a Return node (0 for other kinds). -/
def Instruction.seqOf (x : Instruction) : Nat :=
  match x.data with
  | .ret s => s
  | _ => 0

/-- The interface attribute of a SourceInstruction (empty for other kinds). -/
def Instruction.interfaceOf (x : Instruction) : String :=
  match x.data with
  | .dataSource i _ => i
  | _ => ""

/-- Is this node a Variable. -/
def Instruction.isVariable (x : Instruction) : Bool :=
  match x.data with
  | .var _ _ => true
  | _ => false

/-- Is this node a Return. -/
def Instruction.isReturn (x : Instruction) : Bool :=
  match x.data with
  | .ret _ => true
  | _ => false

/-- The name attribute of a Variable node, if any. -/
def Instruction.varName? (x : Instruction) : Option String :=
  match x.data with
  | .var n _ => some n
  | _ => none

/-- The name attribute of a Reference node, if any. -/
def Instruction.refName? (x : Instruction) : Option String :=
  match x.data with
  | .reference n => some n
  | _ => none

/-- The error taxonomy of kestrel/exceptions.py (the kinds the embedded
operations can raise; names follow the source, including its spelling of
InvalidSeralizedGraph). -/
inductive KErr where
  | instructionNotFound
  | invalidSeralizedGraph
  | variableNotFound (name : String)
  | referenceNotFound (name : String)
  | duplicatedVariable (name : String)
  | duplicatedReference (name : String)
  | duplicatedSingletonInstruction
  | multiInterfacesInGraph
  | inevaluableInstruction
deriving DecidableEq, Repr

/-- IRGraph: a networkx.DiGraph whose nodes are instructions.  Node membership
and edge endpoints are by node id (instruction equality in the source is by
id).  The node list order models networkx insertion order. -/
structure IRGraph where
  nodes : List Instruction
  edges : List (NodeId × NodeId)
deriving DecidableEq, Repr

def IRGraph.empty : IRGraph := ⟨[], []⟩

def IRGraph.nodeIds (g : IRGraph) : List NodeId := g.nodes.map (·.id)

/-- in_degree of the node with the given id. -/
def IRGraph.inDeg (g : IRGraph) (i : NodeId) : Nat :=
  (g.edges.filter (fun e => e.2 == i)).length

/-- out_degree of the node with the given id. -/
def IRGraph.outDeg (g : IRGraph) (i : NodeId) : Nat :=
  (g.edges.filter (fun e => e.1 == i)).length

/-- The element of maximal version among x :: l (IRGraph.get_variable sorts by
version and takes the last element; versions are distinct when this is
reached, so this is the unique maximum). -/
def maxVersionElt (x : Instruction) (l : List Instruction) : Instruction :=
  l.foldl (fun a b => if a.versionOf < b.versionOf then b else a) x

/-- IRGraph.get_variable: live variable of a name; VariableNotFound when the
name is absent, DuplicatedVariable when two entries share a version. -/
def IRGraph.get_variable (g : IRGraph) (nm : String) : Except KErr Instruction :=
  match g.nodes.filter (Instruction.isVarNamed nm) with
  | [] => .error (.variableNotFound nm)
  | x :: rest =>
    if ((x :: rest).map Instruction.versionOf).dedup.length
        < ((x :: rest).map Instruction.versionOf).length
    then .error (.duplicatedVariable nm)
    else .ok (maxVersionElt x rest)

/-- The distinct variable names of the graph, in first-appearance order
(the source iterates a set of names; only the induced name-to-variable table
matters downstream). -/
def IRGraph.varNames (g : IRGraph) : List String :=
  (g.nodes.filterMap Instruction.varName?).dedup

/-- IRGraph.get_variables: one live variable per distinct name. -/
def IRGraph.get_variables (g : IRGraph) : Except KErr (List Instruction) :=
  g.varNames.mapM g.get_variable

/-- The symbol table used by update: live variable name to version. -/
def IRGraph.varTable (g : IRGraph) : Except KErr (List (String × Nat)) :=
  (g.get_variables).map (List.map (fun v => (v.varName?.getD "", v.versionOf)))

/-- IRGraph.get_reference. -/
def IRGraph.get_reference (g : IRGraph) (nm : String) : Except KErr Instruction :=
  match g.nodes.filter (Instruction.isRefNamed nm) with
  | [] => .error (.referenceNotFound nm)
  | [x] => .ok x
  | _ => .error (.duplicatedReference nm)

/-- The distinct reference names of the graph, in first-appearance order. -/
def IRGraph.refNames (g : IRGraph) : List String :=
  (g.nodes.filterMap Instruction.refName?).dedup

/-- IRGraph.get_references. -/
def IRGraph.get_references (g : IRGraph) : Except KErr (List Instruction) :=
  g.refNames.mapM g.get_reference

/-- IRGraph.get_max_return_sequence: largest Return sequence, -1 if none. -/
def IRGraph.max_return_sequence (g : IRGraph) : Int :=
  g.nodes.foldl
    (fun m x => match x.data with | .ret s => max m (s : Int) | _ => m) (-1)

/-- IRGraph.get_sink_nodes: nodes with no successors. -/
def IRGraph.get_sink_nodes (g : IRGraph) : List Instruction :=
  g.nodes.filter (fun n => g.outDeg n.id == 0)

/-- networkx add_node: plain insertion (callers guard membership first). -/
def IRGraph.addNodeRaw (g : IRGraph) (node : Instruction) : IRGraph :=
  if node.id ∈ g.nodeIds then g else { g with nodes := g.nodes ++ [node] }

/-- networkx add_edge between already-present nodes (edge set semantics). -/
def IRGraph.addEdgeRaw (g : IRGraph) (u v : NodeId) : IRGraph :=
  if (u, v) ∈ g.edges then g else { g with edges := g.edges ++ [(u, v)] }

/-- IRGraph._add_singleton_instruction: a node with no predecessors and equal
content is a singleton; one match is returned, more than one is
DuplicatedSingletonInstruction, none means plain insertion. -/
def IRGraph.add_singleton_instruction (g : IRGraph) (node : Instruction) :
    Except KErr (IRGraph × Instruction) :=
  match g.nodes.filter (fun x => x.data == node.data && g.inDeg x.id == 0) with
  | [] => .ok ({ g with nodes := g.nodes ++ [node] }, node)
  | [x] => .ok (g, x)
  | _ => .error .duplicatedSingletonInstruction

/-- IRGraph._add_node: plain adding-node operation.  References deref (when
asked) against the live variable of the same name, falling back to the
singleton guard on VariableNotFound; SourceInstructions go through the
singleton guard; everything else is inserted directly.  A node already in the
graph (by id) is returned unchanged. -/
def IRGraph.add_node_plain (g : IRGraph) (node : Instruction) (deref : Bool) :
    Except KErr (IRGraph × Instruction) :=
  if node.id ∈ g.nodeIds then .ok (g, node)
  else if node.isIntermediate then
    -- Reference is the only IntermediateInstruction variant, so the
    -- NotImplementedError branch of the source is unreachable here.
    if deref then
      match g.get_variable (node.refName?.getD "") with
      | .ok v => .ok (g, v)
      | .error (.variableNotFound _) => g.add_singleton_instruction node
      | .error e => .error e
    else g.add_singleton_instruction node
  else if node.isSource then g.add_singleton_instruction node
  else .ok ({ g with nodes := g.nodes ++ [node] }, node)

/-- IRGraph.add_edge: add both endpoints through _add_node, then the edge. -/
def IRGraph.add_edge (g : IRGraph) (u v : Instruction) (deref : Bool) :
    Except KErr IRGraph := do
  let (g1, ux) ← g.add_node_plain u deref
  let (g2, vx) ← g1.add_node_plain v deref
  .ok (g2.addEdgeRaw ux.id vx.id)

/-- IRGraph._add_node_with_dependent_node: the dependent node must be present;
Variable versions and Return sequences are finalized here, then the node and
the edge from the dependent node are added. -/
def IRGraph.add_node_with_dependent_node (g : IRGraph)
    (node dep : Instruction) : Except KErr (IRGraph × Instruction) :=
  if dep.id ∉ g.nodeIds then .error .instructionNotFound
  else if node.id ∈ g.nodeIds then .ok (g, node)
  else do
    let n1 ←
      if node.isVariable then
        match g.get_variable (node.varName?.getD "") with
        | .ok ve =>
          Except.ok
            (⟨node.id, .var (node.varName?.getD "") (ve.versionOf + 1)⟩
              : Instruction)
        | .error (.variableNotFound _) =>
          Except.ok (⟨node.id, .var (node.varName?.getD "") 0⟩ : Instruction)
        | .error e => Except.error e
      else Except.ok node
    let n2 :=
      if n1.isReturn
      then (⟨n1.id, .ret (g.max_return_sequence + 1).toNat⟩ : Instruction)
      else n1
    let g' ← g.add_edge dep n2 false
    .ok (g', n2)

/-- IRGraph.add_node: the general adding operation, dispatching transforming
instructions to the dependent-node path. -/
def IRGraph.add_node (g : IRGraph) (node : Instruction)
    (dep : Option Instruction) (deref : Bool) :
    Except KErr (IRGraph × Instruction) :=
  if node.id ∈ g.nodeIds then .ok (g, node)
  else if node.isTransforming then
    match dep with
    | some d => g.add_node_with_dependent_node node d
    | none => .error .instructionNotFound
  else g.add_node_plain node deref

/-- The in-place mutation update() performs on its argument before merging:
Variable versions are shifted by the receiver's live version of the same name
plus one, Return sequences by the receiver's maximal sequence plus one. -/
def shiftNode (tbl : List (String × Nat)) (shiftR : Nat) (n : Instruction) :
    Instruction :=
  match n.data with
  | .var nm v =>
    match tbl.lookup nm with
    | some lv => ⟨n.id, .var nm (v + lv + 1)⟩
    | none => n
  | .ret s => ⟨n.id, .ret (s + shiftR)⟩
  | _ => n

/-- The argument graph after update()'s in-place version/sequence mutation. -/
def IRGraph.mutated (g h : IRGraph) : Except KErr IRGraph := do
  let tbl ← g.varTable
  .ok { h with nodes := h.nodes.map (shiftNode tbl (g.max_return_sequence + 1).toNat) }

/-- One step of update()'s node-addition loops: add the node through
_add_node (deref enabled, the default) and record the old-to-new mapping. -/
def o2nStep (acc : IRGraph × List (NodeId × Instruction)) (r : Instruction) :
    Except KErr (IRGraph × List (NodeId × Instruction)) := do
  let (g', x) ← acc.1.add_node_plain r true
  Except.ok (g', acc.2 ++ [(r.id, x)])

/-- One step of update()'s edge loop: rewrite both endpoints through the
old-to-new mapping and add the edge (deref disabled, the add_edge default). -/
def edgeStep (o2n : List (NodeId × Instruction)) (acc : IRGraph)
    (e : NodeId × NodeId) : Except KErr IRGraph :=
  match o2n.lookup e.1, o2n.lookup e.2 with
  | some u, some v => acc.add_edge u v false
  | _, _ => .error .instructionNotFound

/-- IRGraph.update: merge ng into the receiver.  The receiver's symbol table
is snapshotted, ng's variables and returns are shifted in place, ng's
references are added (and hence dereferenced) first, then all remaining
nodes, then all edges through the old-to-new mapping.  Returns the merged
receiver together with the mutated argument. -/
def IRGraph.update (g h : IRGraph) : Except KErr (IRGraph × IRGraph) := do
  let h' ← g.mutated h
  let refs ← h'.get_references
  let (g1, o2nR) ← refs.foldlM o2nStep (g, ([] : List (NodeId × Instruction)))
  let nonrefs := h'.nodes.filter (fun n => n.id ∉ refs.map (·.id))
  let (g2, o2n) ← nonrefs.foldlM o2nStep (g1, o2nR)
  let g3 ← h'.edges.foldlM (edgeStep o2n) g2
  .ok (g3, h')

/-- union(g, h) = compose(g, h): update g with h and return g. -/
def union (g h : IRGraph) : Except KErr IRGraph :=
  (g.update h).map Prod.fst

/-- IRGraph.copy: a fresh graph updated with the receiver (nodes shared). -/
def IRGraph.copy (g : IRGraph) : Except KErr IRGraph :=
  (IRGraph.empty.update g).map Prod.fst

/-- The D3 link-node serialization document: node records and id links.  A
node record is modelled as the instruction itself: the spec's record format
(section 6.1) carries the id, the kind tag and all content attributes, so
instruction_from_dict of the source is lossless on well-formed records. -/
structure GraphDoc where
  nodes : List Instruction
  links : List (NodeId × NodeId)
deriving DecidableEq, Repr

/-- IRGraph.to_dict. -/
def IRGraph.to_dict (g : IRGraph) : GraphDoc := ⟨g.nodes, g.edges⟩

/-- IRGraph.get_node_by_id. -/
def IRGraph.get_node_by_id (g : IRGraph) (i : NodeId) : Except KErr Instruction :=
  match g.nodes.find? (fun n => n.id == i) with
  | some x => .ok x
  | none => .error .instructionNotFound

/-- IRGraph._from_dict (the implicit constructor from a serialized graph):
nodes are loaded through _add_node with deref disabled, then each link is
resolved by id (a missing endpoint is InvalidSeralizedGraph) and added. -/
def loadNodeStep (g : IRGraph) (n : Instruction) : Except KErr IRGraph :=
  (g.add_node_plain n false).map Prod.fst

def loadEdgeStep (g : IRGraph) (e : NodeId × NodeId) : Except KErr IRGraph :=
  match g.get_node_by_id e.1, g.get_node_by_id e.2 with
  | .ok u, .ok v => g.add_edge u v false
  | _, _ => .error .invalidSeralizedGraph

def IRGraph.from_dict (doc : GraphDoc) : Except KErr IRGraph := do
  let g1 ← doc.nodes.foldlM loadNodeStep IRGraph.empty
  doc.links.foldlM loadEdgeStep g1

/-- Bounded reachability along edges: u reaches v in at most k hops.  With
k at least the number of nodes this coincides with reachability (any
reachable node is reachable by a simple path), which is what
networkx.ancestors and networkx.descendants compute. -/
def reachesIn (g : IRGraph) : Nat → NodeId → NodeId → Bool
  | 0, u, v => u == v
  | k + 1, u, v =>
    u == v || g.edges.any (fun e => e.1 == u && reachesIn g k e.2 v)

/-- Induced subgraph on the ids satisfying p (networkx subgraph). -/
def IRGraph.inducedIds (g : IRGraph) (p : NodeId → Bool) : IRGraph :=
  ⟨g.nodes.filter (fun n => p n.id), g.edges.filter (fun e => p e.1 && p e.2)⟩

/-- Membership in ancestors(target) together with target itself. -/
def IRGraph.depFilter (g : IRGraph) (target : NodeId) (i : NodeId) : Bool :=
  decide (i ∈ g.nodeIds) && reachesIn g g.nodes.length i target

/-- The subgraph induced by a node's dependent set (ancestors plus itself). -/
def IRGraph.dependentSubgraphRaw (g : IRGraph) (target : NodeId) : IRGraph :=
  g.inducedIds (g.depFilter target)

/-- IRGraph.duplicate_dependent_subgraph_of_node: induced dependent subgraph,
copied (the source's copy() is an update into a fresh graph). -/
def IRGraph.duplicate_dependent_subgraph_of_node (g : IRGraph)
    (node : Instruction) : Except KErr IRGraph :=
  (g.dependentSubgraphRaw node.id).copy

/-- IRGraph.find_cached_dependent_subgraph_of_node: take the dependent
subgraph, delete every incoming edge of a node whose id is cached, and
recompute the dependent subgraph to discard disconnected parts. -/
def IRGraph.find_cached_dependent_subgraph_of_node (g : IRGraph)
    (node : Instruction) (cache : List NodeId) : Except KErr IRGraph := do
  let g1 ← g.duplicate_dependent_subgraph_of_node node
  let pruned : IRGraph :=
    { g1 with
      edges := g1.edges.filter
        (fun e => !(decide (e.2 ∈ cache) && decide (e.2 ∈ g1.nodeIds))) }
  pruned.duplicate_dependent_subgraph_of_node node

/-- List union with set-membership semantics (Python set.update). -/
def listUnion (a b : List NodeId) : List NodeId :=
  a ++ b.filter (fun i => decide (i ∉ a))

/-- networkx.descendants: ids reachable from s, s itself excluded. -/
def IRGraph.descendantsIds (g : IRGraph) (s : NodeId) : List NodeId :=
  g.nodeIds.filter (fun i => reachesIn g g.nodes.length s i && i != s)

/-- networkx predecessors of the node with the given id, as ids. -/
def IRGraph.predIds (g : IRGraph) (m : NodeId) : List NodeId :=
  (g.edges.filter (fun e => e.2 == m)).map (·.1)

/-- Insert-or-extend an interface bucket (defaultdict(set) update). -/
def upsertBucket (l : List (String × List NodeId)) (k : String)
    (v : List NodeId) : List (String × List NodeId) :=
  if l.any (fun p => p.1 == k) then
    l.map (fun p => if p.1 == k then (p.1, listUnion p.2 v) else p)
  else l ++ [(k, v)]

/-- Modelled from the spec: the reserved interface identifier designating the
in-memory artifact cache backend (kestrel/config/internal.py is not among the
sources; spec sections 3.4 and 4.6 name it CACHE). -/
def CACHE_INTERFACE_IDENTIFIER : String := "cache"

/-- The interface-to-impacted-ids map built by
find_dependent_subgraphs_of_node: for every SourceInstruction s, its bucket
collects the descendants of s, the cached predecessors of those descendants,
and s itself. -/
def IRGraph.sourceBuckets (g : IRGraph) (cache : List NodeId) :
    List (String × List NodeId) :=
  (g.nodes.filter Instruction.isSource).foldl
    (fun a2ns s =>
      let ns := g.descendantsIds s.id
      let preds := ns.foldl (fun acc m => listUnion acc (g.predIds m)) []
      let cachedPreds := preds.filter (fun i => decide (i ∈ cache))
      upsertBucket a2ns s.interfaceOf
        (listUnion (listUnion ns cachedPreds) [s.id]))
    []

/-- Ids that occur in at least two buckets (union of pairwise
intersections over combinations of the keys). -/
def pairwiseShared : List (String × List NodeId) → List NodeId
  | [] => []
  | p :: rest =>
    rest.foldl (fun acc q => acc ++ p.2.filter (fun i => decide (i ∈ q.2))) []
      ++ pairwiseShared rest

/-- Evaluable IRGraph: only one interface, no IntermediateInstruction. -/
structure IRGraphEvaluable where
  graph : IRGraph
  interface : Option String
deriving DecidableEq, Repr

/-- IRGraphEvaluable._add_node: IntermediateInstructions are rejected, the
single interface attribute is enforced for SourceInstructions, then the
IRGraph._add_node path runs. -/
def IRGraphEvaluable.add_node_plain (eg : IRGraphEvaluable)
    (node : Instruction) (deref : Bool) :
    Except KErr (IRGraphEvaluable × Instruction) :=
  if node.isIntermediate then .error .inevaluableInstruction
  else do
    let eg1 ←
      if node.isSource then
        match eg.interface with
        | some j =>
          if node.interfaceOf ≠ j then Except.error .multiInterfacesInGraph
          else Except.ok eg
        | none => Except.ok { eg with interface := some node.interfaceOf }
      else Except.ok eg
    let (g', x) ← eg1.graph.add_node_plain node deref
    .ok ({ eg1 with graph := g' }, x)

/-- add_edge on an evaluable graph (dispatches to the overridden _add_node). -/
def IRGraphEvaluable.add_edge (eg : IRGraphEvaluable) (u v : Instruction)
    (deref : Bool) : Except KErr IRGraphEvaluable := do
  let (eg1, ux) ← eg.add_node_plain u deref
  let (eg2, vx) ← eg1.add_node_plain v deref
  .ok { eg2 with graph := eg2.graph.addEdgeRaw ux.id vx.id }

/-- One step of update()'s node-addition loops on an evaluable receiver. -/
def evalO2nStep (acc : IRGraphEvaluable × List (NodeId × Instruction))
    (r : Instruction) :
    Except KErr (IRGraphEvaluable × List (NodeId × Instruction)) := do
  let (eg', x) ← acc.1.add_node_plain r true
  Except.ok (eg', acc.2 ++ [(r.id, x)])

/-- One step of update()'s edge loop on an evaluable receiver. -/
def evalEdgeStep (o2n : List (NodeId × Instruction)) (acc : IRGraphEvaluable)
    (e : NodeId × NodeId) : Except KErr IRGraphEvaluable :=
  match o2n.lookup e.1, o2n.lookup e.2 with
  | some u, some v => acc.add_edge u v false
  | _, _ => .error .instructionNotFound

/-- IRGraph.update run with the receiver being an IRGraphEvaluable, so every
node addition goes through the overridden _add_node. -/
def IRGraphEvaluable.update (eg : IRGraphEvaluable) (h : IRGraph) :
    Except KErr (IRGraphEvaluable × IRGraph) := do
  let h' ← eg.graph.mutated h
  let refs ← h'.get_references
  let (eg1, o2nR) ← refs.foldlM evalO2nStep
    (eg, ([] : List (NodeId × Instruction)))
  let nonrefs := h'.nodes.filter (fun n => n.id ∉ refs.map (·.id))
  let (eg2, o2n) ← nonrefs.foldlM evalO2nStep (eg1, o2nR)
  let eg3 ← h'.edges.foldlM (evalEdgeStep o2n) eg2
  .ok (eg3, h')

/-- The IRGraphEvaluable constructor: update a fresh evaluable graph with the
input, then default the interface to the cache identifier when no
SourceInstruction set it. -/
def mkEvaluable (g : IRGraph) : Except KErr IRGraphEvaluable := do
  let (st, _) ← IRGraphEvaluable.update ⟨IRGraph.empty, none⟩ g
  .ok { st with interface := some (st.interface.getD CACHE_INTERFACE_IDENTIFIER) }

/-- IRGraph.find_dependent_subgraphs_of_node: prune by cache, bucket the
impacted nodes by source interface, put the rest in the cache bucket, drop
nodes shared between buckets, and build an IRGraphEvaluable per non-empty
bucket. -/
def IRGraph.find_dependent_subgraphs_of_node (g : IRGraph) (node : Instruction)
    (cache : List NodeId) : Except KErr (List IRGraphEvaluable) := do
  let g0 ← g.find_cached_dependent_subgraph_of_node node cache
  let a2ns := g0.sourceBuckets cache
  let allB := a2ns.foldl (fun acc p => listUnion acc p.2) []
  let rest := g0.nodeIds.filter (fun i => decide (i ∉ allB))
  let a2ns2 := upsertBucket a2ns CACHE_INTERFACE_IDENTIFIER rest
  let shared := pairwiseShared a2ns2
  let unshared := a2ns2.map (fun p => p.2.filter (fun i => decide (i ∉ shared)))
  (unshared.filter (fun ns => ns ≠ [])).mapM
    (fun ns => mkEvaluable (g0.inducedIds (fun i => decide (i ∈ ns))))

/-- Failure modes of the in-memory evaluator: StopIteration is the unhandled
Python exception raised by next() on a node without predecessors,
notImplementedError the explicit NotImplementedError branch; outOfFuel marks
exhaustion of the recursion bound (unreachable on DAGs of at most fuel
nodes and standing in for Python's unbounded recursion otherwise). -/
inductive EvalErr where
  | stopIteration
  | notImplementedError
  | outOfFuel
deriving DecidableEq, Repr

/-- The backend codegen pair consumed by the evaluator.  Modelled from the
spec: kestrel/interface/datasource/codegen/dataframe.py is not among the
sources; spec section 4.6 pins evaluate_source and evaluate_transform as
opaque artifact producers. -/
structure Backend (α : Type) where
  evalSource : Instruction → α
  evalTransform : Instruction → α → α

/-- The evaluator's artifact cache (self.cache, with the catalog coinciding
for the in-memory backend), instrumented with a count of backend codegen
calls so that claims about the number of backend calls can be stated. -/
structure EvalState (α : Type) where
  cache : List (NodeId × α)
  calls : Nat
deriving DecidableEq, Repr

/-- Python dict assignment on an association list. -/
def assocSet {α : Type} (m : List (NodeId × α)) (i : NodeId) (df : α) :
    List (NodeId × α) :=
  if m.any (fun p => p.1 == i) then
    m.map (fun p => if p.1 == i then (i, df) else p)
  else m ++ [(i, df)]

/-- self[instruction_id] = data on the evaluator state. -/
def cacheSet {α : Type} (st : EvalState α) (i : NodeId) (df : α) :
    EvalState α :=
  { st with cache := assocSet st.cache i df }

/-- next(graph.predecessors(instruction)): the first predecessor in edge
insertion order, none when the node has no predecessors. -/
def IRGraph.firstPred (g : IRGraph) (i : NodeId) : Option Instruction :=
  match g.edges.find? (fun e => e.2 == i) with
  | some e => g.nodes.find? (fun n => n.id == e.1)
  | none => none

/-- InMemoryCache._evaluate_instruction_in_graph: Return and Variable recurse
into their first predecessor (Variable also stores the artifact under its
id), SourceInstructions call the source codegen, other
TransformingInstructions recurse then call the transform codegen, and
anything else is NotImplementedError.  No branch consults the artifact cache
before recursing. -/
def evalInstr {α : Type} (B : Backend α) (g : IRGraph) :
    Nat → EvalState α → Instruction → Except EvalErr (α × EvalState α)
  | 0, _, _ => .error .outOfFuel
  | fuel + 1, st, ins =>
    match ins.data with
    | .ret _ =>
      match g.firstPred ins.id with
      | none => .error .stopIteration
      | some p => evalInstr B g fuel st p
    | .var _ _ =>
      match g.firstPred ins.id with
      | none => .error .stopIteration
      | some p => do
        let (df, st') ← evalInstr B g fuel st p
        .ok (df, cacheSet st' ins.id df)
    | .dataSource _ _ =>
      .ok (B.evalSource ins, { st with calls := st.calls + 1 })
    | .trans _ =>
      match g.firstPred ins.id with
      | none => .error .stopIteration
      | some p => do
        let (df, st') ← evalInstr B g fuel st p
        .ok (B.evalTransform ins df, { st' with calls := st'.calls + 1 })
    | .reference _ => .error .notImplementedError

/-- InMemoryCache.evaluate_graph: evaluate each target (all sink nodes when
none are given), store each result under the target's id, and return the
mapping of ids to artifacts. -/
def evaluate_graph {α : Type} (B : Backend α) (eg : IRGraphEvaluable)
    (targets : List Instruction) (st : EvalState α) :
    Except EvalErr (List (NodeId × α) × EvalState α) :=
  let ts := if targets.isEmpty then eg.graph.get_sink_nodes else targets
  ts.foldlM
    (fun (acc : List (NodeId × α) × EvalState α) ins => do
      let (df, st1) ← evalInstr B eg.graph eg.graph.nodes.length acc.2 ins
      let st2 := cacheSet st1 ins.id df
      .ok (assocSet acc.1 ins.id df, st2))
    ([], st)

/-- Variables of a given name, in node order. -/
def IRGraph.varList (g : IRGraph) (nm : String) : List Instruction :=
  g.nodes.filter (Instruction.isVarNamed nm)

/-- Versions present for a given variable name, in node order. -/
def IRGraph.varVersions (g : IRGraph) (nm : String) : List Nat :=
  (g.varList nm).map Instruction.versionOf

/-- Node ids are pairwise distinct (spec invariant 2). -/
def IRGraph.nodupIds (g : IRGraph) : Prop := g.nodeIds.Nodup

/-- Every edge endpoint is a node of the graph (networkx guarantees this for
graphs built through its API). -/
def IRGraph.edgesClosed (g : IRGraph) : Prop :=
  ∀ e ∈ g.edges, e.1 ∈ g.nodeIds ∧ e.2 ∈ g.nodeIds

/-- No two distinct SourceInstruction or Reference nodes share content
(spec invariant 3, strengthened to all in-degrees: content-equal singleton
kinds are merged by construction). -/
def contentDistinctSingletonsL (l : List Instruction) : Prop :=
  l.Pairwise (fun x y => (x.isSource || x.isIntermediate) = true → x.data ≠ y.data)

/-- Graph form of contentDistinctSingletonsL. -/
def IRGraph.contentDistinctSingletons (g : IRGraph) : Prop :=
  contentDistinctSingletonsL g.nodes

instance (g : IRGraph) : Decidable g.nodupIds :=
  inferInstanceAs (Decidable g.nodeIds.Nodup)

instance (g : IRGraph) : Decidable g.edgesClosed :=
  inferInstanceAs
    (Decidable (∀ e ∈ g.edges, e.1 ∈ g.nodeIds ∧ e.2 ∈ g.nodeIds))

instance (l : List Instruction) : Decidable (contentDistinctSingletonsL l) :=
  inferInstanceAs (Decidable (l.Pairwise _))

instance (g : IRGraph) : Decidable g.contentDistinctSingletons :=
  inferInstanceAs (Decidable (contentDistinctSingletonsL g.nodes))

/-- Concrete pipeline used to run the in-memory evaluator: a DataSource
feeding a Variable feeding a Return. -/
def wPipeline : IRGraph :=
  ⟨[⟨1, .dataSource "ifA" "d1"⟩, ⟨2, .var "x" 0⟩, ⟨3, .ret 0⟩], [(1, 2), (2, 3)]⟩

/-- The evaluable graph wrapping wPipeline. -/
def wPipelineEval : IRGraphEvaluable := ⟨wPipeline, some "ifA"⟩

/-- A concrete backend over Nat artifacts: every source materializes to 5. -/
def wBackend : Backend Nat := ⟨fun _ => 5, fun _ df => df + 1⟩

/-- A lone Variable node with no predecessors (a cached boundary variable as
it appears in a CACHE-interface subgraph). -/
def wLoneVar : Instruction := ⟨1, .var "x" 0⟩

/-- Graph holding only the lone variable. -/
def wLoneVarGraph : IRGraph := ⟨[wLoneVar], []⟩

/-- An evaluator state whose artifact cache already holds an artifact for the
lone variable. -/
def wLoneVarState : EvalState Nat := ⟨[(1, 42)], 0⟩

/-- A graph holding a single Reference named x (no Variable of that name). -/
def wRefGraph : IRGraph := ⟨[⟨1, .reference "x"⟩], []⟩

/-- A graph holding a single Variable x version 0. -/
def wVarGraph : IRGraph := ⟨[⟨2, .var "x" 0⟩], []⟩

/-- A fresh Reference node named x. -/
def wFreshRef : Instruction := ⟨9, .reference "x"⟩

/-- Receiver for the update-mutation witness: one Variable x and one Return. -/
def wMutG : IRGraph := ⟨[⟨1, .var "x" 0⟩, ⟨2, .ret 0⟩], []⟩

/-- Argument for the update-mutation witness: its Variable x and Return are
shifted in place by the merge. -/
def wMutH : IRGraph := ⟨[⟨3, .var "x" 0⟩, ⟨4, .ret 0⟩], []⟩

/-- One step of a source-level session adding a fresh Variable of a fixed
name via add_node with a dependent node: the id of the new node and the
dependent instruction. -/
def varChainStep (nm : String) (g : IRGraph) (p : NodeId × Instruction) :
    Except KErr IRGraph :=
  (g.add_node ⟨p.1, .var nm 0⟩ (some p.2) true).map Prod.fst

/-- Adding k Variables of the same name in sequence, each via add_node with
a predecessor. -/
def addVarChain (g0 : IRGraph) (nm : String)
    (steps : List (NodeId × Instruction)) : Except KErr IRGraph :=
  steps.foldlM (varChainStep nm) g0

/-- A seed transform node serving as the predecessor of chain additions. -/
def wSeed : Instruction := ⟨100, .trans "seed"⟩

/-- Starting graph for the variable-chain witness. -/
def wChainG : IRGraph := ⟨[wSeed], []⟩

/-- Three chain additions of Variable x with fresh ids. -/
def wChainSteps : List (NodeId × Instruction) :=
  [(11, wSeed), (12, wSeed), (13, wSeed)]

/-- A graph violating the version invariant: two Variables x both version 0. -/
def wDupVarG : IRGraph := ⟨[⟨1, .var "x" 0⟩, ⟨2, .var "x" 0⟩], []⟩

/-- One step of a session adding a DataSource of fixed content via add_node,
collecting the returned nodes. -/
def dsChainStep (c : InstrData) (acc : IRGraph × List Instruction)
    (i : NodeId) : Except KErr (IRGraph × List Instruction) := do
  let (g', x) ← acc.1.add_node ⟨i, c⟩ none true
  Except.ok (g', acc.2 ++ [x])

/-- Adding a sequence of DataSources with equal content and fresh ids. -/
def addDataSourceChain (g0 : IRGraph) (c : InstrData) (ids : List NodeId) :
    Except KErr (IRGraph × List Instruction) :=
  ids.foldlM (dsChainStep c) (g0, [])

/-- A graph violating the singleton invariant: two zero-in-degree
DataSources with equal content. -/
def wTwoDS : IRGraph :=
  ⟨[⟨31, .dataSource "A" "t1"⟩, ⟨32, .dataSource "A" "t1"⟩], []⟩

/-- A graph exercising serialization: a DataSource feeding a shadowed
Variable x version 0 and its live version 1, plus a Reference x that
coexists with the variables (loading must not dereference it and must not
reassign versions). -/
def wSerG : IRGraph :=
  ⟨[⟨1, .dataSource "A" "t"⟩, ⟨2, .var "x" 0⟩, ⟨3, .var "x" 1⟩,
    ⟨4, .reference "x"⟩], [(1, 2), (1, 3)]⟩

/-- A serialized document whose single link names an id absent from the
node records. -/
def wBadDoc : GraphDoc := ⟨[⟨1, .var "x" 0⟩], [(1, 99)]⟩

/-- Modelled from the spec (the segmenter section of the spec, to be compared
with the code-side pipeline): within the dependent subgraph of the target,
delete every incoming edge of a node whose id is cached, and keep exactly
the nodes that still reach the target in the cut graph. -/
def specCutReach (g : IRGraph) (n : NodeId) (C : List NodeId) (i : NodeId) :
    Bool :=
  let d := g.dependentSubgraphRaw n
  let cut : IRGraph := ⟨d.nodes, d.edges.filter (fun e => decide (e.2 ∉ C))⟩
  cut.depFilter n i

/-- Segmenter witness graph: DataSource feeding Variable x feeding a
transform feeding Variable y; the transform will be cached. -/
def wSegG : IRGraph :=
  ⟨[⟨1, .dataSource "ifA" "t"⟩, ⟨2, .var "x" 0⟩, ⟨3, .trans "f"⟩,
    ⟨4, .var "y" 0⟩], [(1, 2), (2, 3), (3, 4)]⟩

/-- The target node of the segmenter witness. -/
def wSegN : Instruction := ⟨4, .var "y" 0⟩

/-- The Return sequences of the graph, in node order. -/
def IRGraph.retSeqs (g : IRGraph) : List Nat :=
  (g.nodes.filter Instruction.isReturn).map Instruction.seqOf

/-- The version shift update() applies to Variables of a given name: live
version plus one when the name is live in the receiver, zero otherwise. -/
def shiftAmt (tbl : List (String × Nat)) (nm : String) : Nat :=
  match tbl.lookup nm with
  | some lv => lv + 1
  | none => 0

/-- The content-level effect of update()'s in-place mutation (used to state
the amended union commutativity): Variable versions shift by the receiver's
per-name amount and Return sequences by R; all other contents are kept. -/
def specShiftData (tbl : List (String × Nat)) (R : Nat) :
    InstrData → InstrData
  | .var nm v => .var nm (v + shiftAmt tbl nm)
  | .ret s => .ret (s + R)
  | d => d

/-- SSA shape (spec invariant 4): for every name, the versions present are
exactly 0..k-1 for k the number of variables of that name. -/
def ssaG (g : IRGraph) : Prop :=
  ∀ nm ∈ g.varNames, (g.varVersions nm).Perm
    (List.range (g.varVersions nm).length)

/-- Contiguous return sequences (spec invariant 5): the sequences present
are exactly 0..r-1 for r the number of Return nodes. -/
def retContig (g : IRGraph) : Prop :=
  g.retSeqs.Perm (List.range g.retSeqs.length)

instance (g : IRGraph) : Decidable (ssaG g) :=
  inferInstanceAs (Decidable (∀ nm ∈ g.varNames, _))

instance (g : IRGraph) : Decidable (retContig g) :=
  inferInstanceAs (Decidable (List.Perm _ _))

/-- First side of the union-commutativity witness: a DataSource, a Variable
x and a Return. -/
def wC8g : IRGraph :=
  ⟨[⟨1, .dataSource "A" "t"⟩, ⟨2, .var "x" 0⟩, ⟨3, .ret 0⟩],
   [(1, 2), (2, 3)]⟩

/-- Second side of the union-commutativity witness: a transform feeding a
Variable x (so its version shifts on merge), another Return, and a
DataSource equal in content to the first side's (merged by the singleton
guard in one order, kept in the other). -/
def wC8h : IRGraph :=
  ⟨[⟨6, .trans "f"⟩, ⟨4, .var "x" 0⟩, ⟨5, .ret 0⟩,
    ⟨7, .dataSource "A" "t"⟩], [(6, 4)]⟩

/-- Two DataSources under different interfaces (for the
MultiInterfacesInGraph witness). -/
def wMultiG : IRGraph :=
  ⟨[⟨1, .dataSource "A" "t"⟩, ⟨2, .dataSource "B" "t"⟩], []⟩

section BasicLemmas

theorem foldlM_ok_pres {β γ : Type _} {f : γ → β → Except KErr γ} {P : γ → Prop} :
    ∀ (l : List β) (acc out : γ), l.foldlM f acc = .ok out → P acc →
    (∀ acc' b acc'', b ∈ l → P acc' → f acc' b = .ok acc'' → P acc'') →
    P out := by
  intro l
  induction l with
  | nil =>
    intro acc out h hP _
    have h2 : Except.ok (ε := KErr) acc = Except.ok out := h
    cases h2
    exact hP
  | cons b t ih =>
    intro acc out h hP hstep
    rw [List.foldlM_cons] at h
    cases hb : f acc b with
    | error e =>
      rw [hb] at h
      exact Except.noConfusion h
    | ok acc1 =>
      rw [hb] at h
      exact ih acc1 out h (hstep acc b acc1 (by simp) hP hb)
        (fun a' b' a'' hm => hstep a' b' a'' (by simp [hm]))

theorem vmax_left (x b : Instruction) :
    x.versionOf ≤ (if x.versionOf < b.versionOf then b else x).versionOf := by
  split
  · omega
  · exact le_refl _

theorem vmax_right (x b : Instruction) :
    b.versionOf ≤ (if x.versionOf < b.versionOf then b else x).versionOf := by
  split
  · exact le_refl _
  · omega

theorem maxVersionElt_mem (x : Instruction) (l : List Instruction) :
    maxVersionElt x l ∈ x :: l := by
  induction l generalizing x with
  | nil => simp [maxVersionElt]
  | cons b t ih =>
    have step : maxVersionElt x (b :: t)
        = maxVersionElt (if x.versionOf < b.versionOf then b else x) t := rfl
    rw [step]
    have h := ih (if x.versionOf < b.versionOf then b else x)
    have hv : (if x.versionOf < b.versionOf then b else x) = x
        ∨ (if x.versionOf < b.versionOf then b else x) = b := by
      split <;> simp
    rcases List.mem_cons.1 h with h | h
    · rcases hv with hv | hv
      · rw [h, hv]; exact List.mem_cons_self _ _
      · rw [h, hv]; exact List.mem_cons_of_mem _ (List.mem_cons_self _ _)
    · exact List.mem_cons_of_mem _ (List.mem_cons_of_mem _ h)

theorem maxVersionElt_ge (x : Instruction) (l : List Instruction) :
    ∀ y ∈ x :: l, y.versionOf ≤ (maxVersionElt x l).versionOf := by
  induction l generalizing x with
  | nil => intro y hy; simp at hy; simp [maxVersionElt, hy]
  | cons b t ih =>
    intro y hy
    have step : maxVersionElt x (b :: t)
        = maxVersionElt (if x.versionOf < b.versionOf then b else x) t := rfl
    rw [step]
    have htop := ih (if x.versionOf < b.versionOf then b else x)
      (if x.versionOf < b.versionOf then b else x) (List.mem_cons_self _ _)
    rcases List.mem_cons.1 hy with hy | hy
    · subst hy
      exact le_trans (vmax_left y b) htop
    · rcases List.mem_cons.1 hy with hy | hy
      · subst hy
        exact le_trans (vmax_right x y) htop
      · exact ih _ y (List.mem_cons_of_mem _ hy)

end BasicLemmas

section GetVariableLemmas

theorem dedup_length_lt_iff (l : List Nat) :
    l.dedup.length < l.length ↔ ¬ l.Nodup := by
  constructor
  · intro h hn
    rw [List.dedup_eq_self.mpr hn] at h
    omega
  · intro hn
    rcases Nat.lt_or_ge l.dedup.length l.length with h | h
    · exact h
    · exfalso
      have hs := List.dedup_sublist l
      have hle := hs.length_le
      have heq : l.dedup = l := hs.eq_of_length (le_antisymm hle h)
      exact hn (heq ▸ List.nodup_dedup l)

theorem except_bind_ok {α β : Type _} {ε : Type _} (a : α)
    (k : α → Except ε β) : (Except.ok a >>= k) = k a := rfl

theorem except_bind_error {α β : Type _} {ε : Type _} (e : ε)
    (k : α → Except ε β) : ((Except.error e : Except ε α) >>= k) = .error e :=
  rfl

theorem map_not_nodup {α β : Type _} (f : α → β) :
    ∀ (l : List α) (x y : α), x ∈ l → y ∈ l → x ≠ y → f x = f y →
    ¬ (l.map f).Nodup := by
  intro l
  induction l with
  | nil => intro x y hx; simp at hx
  | cons a t ih =>
    intro x y hx hy hne hf hnod
    rw [List.map_cons, List.nodup_cons] at hnod
    by_cases hxa : x = a
    · have hyt : y ∈ t := by
        rcases List.mem_cons.1 hy with h1 | h1
        · exact absurd (hxa.trans h1.symm) hne
        · exact h1
      exact hnod.1 (by rw [← hxa, hf]; exact List.mem_map_of_mem f hyt)
    · have hxt : x ∈ t := by
        rcases List.mem_cons.1 hx with h1 | h1
        · exact absurd h1 hxa
        · exact h1
      by_cases hya : y = a
      · exact hnod.1 (by rw [← hya, ← hf]; exact List.mem_map_of_mem f hxt)
      · have hyt : y ∈ t := by
          rcases List.mem_cons.1 hy with h1 | h1
          · exact absurd h1 hya
          · exact h1
        exact ih x y hxt hyt hne hf hnod.2

theorem get_variable_eq_nil (g : IRGraph) (nm : String)
    (hf : g.nodes.filter (Instruction.isVarNamed nm) = []) :
    g.get_variable nm = .error (.variableNotFound nm) := by
  unfold IRGraph.get_variable
  rw [hf]

theorem get_variable_eq_cons (g : IRGraph) (nm : String) (a : Instruction)
    (rest : List Instruction)
    (hf : g.nodes.filter (Instruction.isVarNamed nm) = a :: rest) :
    g.get_variable nm =
      if ((a :: rest).map Instruction.versionOf).dedup.length
          < ((a :: rest).map Instruction.versionOf).length
      then .error (.duplicatedVariable nm)
      else .ok (maxVersionElt a rest) := by
  unfold IRGraph.get_variable
  rw [hf]

theorem get_variable_ok_spec (g : IRGraph) (nm : String) (v : Instruction)
    (h : g.get_variable nm = .ok v) :
    v ∈ g.varList nm ∧ ∀ y ∈ g.varList nm, y.versionOf ≤ v.versionOf := by
  cases hf : g.nodes.filter (Instruction.isVarNamed nm) with
  | nil =>
    rw [get_variable_eq_nil g nm hf] at h
    exact Except.noConfusion h
  | cons x rest =>
    rw [get_variable_eq_cons g nm x rest hf] at h
    rw [IRGraph.varList, hf]
    split at h
    · exact Except.noConfusion h
    · cases h
      exact ⟨maxVersionElt_mem x rest, maxVersionElt_ge x rest⟩

theorem get_variable_error_of_dup (g : IRGraph) (nm : String)
    (x y : Instruction) (hx : x ∈ g.nodes) (hy : y ∈ g.nodes)
    (hxn : x.isVarNamed nm = true) (hyn : y.isVarNamed nm = true)
    (hne : x ≠ y) (hv : x.versionOf = y.versionOf) :
    g.get_variable nm = .error (.duplicatedVariable nm) := by
  have hxf : x ∈ g.nodes.filter (Instruction.isVarNamed nm) :=
    List.mem_filter.2 ⟨hx, hxn⟩
  have hyf : y ∈ g.nodes.filter (Instruction.isVarNamed nm) :=
    List.mem_filter.2 ⟨hy, hyn⟩
  have hnd := map_not_nodup Instruction.versionOf
    (g.nodes.filter (Instruction.isVarNamed nm)) x y hxf hyf hne hv
  cases hf : g.nodes.filter (Instruction.isVarNamed nm) with
  | nil => rw [hf] at hxf; simp at hxf
  | cons a rest =>
    rw [hf] at hnd
    rw [get_variable_eq_cons g nm a rest hf,
      if_pos ((dedup_length_lt_iff _).2 hnd)]

theorem get_variable_ok_of_nodup (g : IRGraph) (nm : String)
    (hne : g.nodes.filter (Instruction.isVarNamed nm) ≠ [])
    (hnd : (g.varVersions nm).Nodup) :
    ∃ v, g.get_variable nm = .ok v := by
  cases hf : g.nodes.filter (Instruction.isVarNamed nm) with
  | nil => exact absurd hf hne
  | cons a rest =>
    rw [IRGraph.varVersions, IRGraph.varList, hf] at hnd
    rw [get_variable_eq_cons g nm a rest hf,
      if_neg (by rw [dedup_length_lt_iff]; exact fun hc => hc hnd)]
    exact ⟨_, rfl⟩

end GetVariableLemmas

section AddNodeLemmas

theorem add_singleton_eq_nil (g : IRGraph) (n : Instruction)
    (hf : g.nodes.filter (fun x => x.data == n.data && g.inDeg x.id == 0) = []) :
    g.add_singleton_instruction n = .ok (⟨g.nodes ++ [n], g.edges⟩, n) := by
  unfold IRGraph.add_singleton_instruction
  rw [hf]

theorem add_singleton_eq_one (g : IRGraph) (n z : Instruction)
    (hf : g.nodes.filter (fun x => x.data == n.data && g.inDeg x.id == 0) = [z]) :
    g.add_singleton_instruction n = .ok (g, z) := by
  unfold IRGraph.add_singleton_instruction
  rw [hf]

theorem add_singleton_eq_many (g : IRGraph) (n z1 z2 : Instruction)
    (t : List Instruction)
    (hf : g.nodes.filter (fun x => x.data == n.data && g.inDeg x.id == 0)
      = z1 :: z2 :: t) :
    g.add_singleton_instruction n = .error .duplicatedSingletonInstruction := by
  unfold IRGraph.add_singleton_instruction
  rw [hf]

theorem add_singleton_spec (g : IRGraph) (n : Instruction)
    (g' : IRGraph) (x : Instruction)
    (h : g.add_singleton_instruction n = .ok (g', x)) :
    (g' = g ∧ x ∈ g.nodes) ∨ (g' = ⟨g.nodes ++ [n], g.edges⟩ ∧ x = n) := by
  cases hf : g.nodes.filter
      (fun y => y.data == n.data && g.inDeg y.id == 0) with
  | nil =>
    rw [add_singleton_eq_nil g n hf] at h
    cases h
    right
    exact ⟨rfl, rfl⟩
  | cons z rest =>
    cases rest with
    | nil =>
      rw [add_singleton_eq_one g n z hf] at h
      cases h
      left
      refine ⟨rfl, ?_⟩
      have hsub : ∀ w ∈ g.nodes.filter
          (fun y => y.data == n.data && g.inDeg y.id == 0), w ∈ g.nodes :=
        fun w hw => (List.mem_filter.1 hw).1
      apply hsub
      rw [hf]
      exact List.mem_cons_self _ _
    | cons z2 rest2 =>
      rw [add_singleton_eq_many g n z z2 rest2 hf] at h
      exact Except.noConfusion h

theorem add_node_plain_spec (g : IRGraph) (n : Instruction) (d : Bool)
    (g' : IRGraph) (x : Instruction)
    (h : g.add_node_plain n d = .ok (g', x)) :
    ((g' = g ∧ (x = n ∨ x ∈ g.nodes)) ∨
      (g' = ⟨g.nodes ++ [n], g.edges⟩ ∧ x = n)) ∧ x.id ∈ g'.nodeIds := by
  unfold IRGraph.add_node_plain at h
  by_cases hm : n.id ∈ g.nodeIds
  · rw [if_pos hm] at h
    cases h
    exact ⟨Or.inl ⟨rfl, Or.inl rfl⟩, hm⟩
  · rw [if_neg hm] at h
    have mem_ids : ∀ y : Instruction, y ∈ g.nodes → y.id ∈ g.nodeIds :=
      fun y hy => List.mem_map_of_mem Instruction.id hy
    have singleton_case :
        g.add_singleton_instruction n = .ok (g', x) →
        ((g' = g ∧ (x = n ∨ x ∈ g.nodes)) ∨
          (g' = ⟨g.nodes ++ [n], g.edges⟩ ∧ x = n)) ∧ x.id ∈ g'.nodeIds := by
      intro hs
      rcases add_singleton_spec g n g' x hs with ⟨hg, hx⟩ | ⟨hg, hx⟩
      · exact ⟨Or.inl ⟨hg, Or.inr hx⟩, hg ▸ mem_ids x hx⟩
      · subst hg; subst hx
        refine ⟨Or.inr ⟨rfl, rfl⟩, ?_⟩
        show x.id ∈ (g.nodes ++ [x]).map Instruction.id
        simp
    have plain_case :
        (Except.ok ({ g with nodes := g.nodes ++ [n] }, n)
            : Except KErr (IRGraph × Instruction)) = .ok (g', x) →
        ((g' = g ∧ (x = n ∨ x ∈ g.nodes)) ∨
          (g' = ⟨g.nodes ++ [n], g.edges⟩ ∧ x = n)) ∧ x.id ∈ g'.nodeIds := by
      intro hp
      cases hp
      refine ⟨Or.inr ⟨rfl, rfl⟩, ?_⟩
      simp [IRGraph.nodeIds]
    by_cases hi : n.isIntermediate = true
    · rw [if_pos hi] at h
      by_cases hd2 : d = true
      · rw [if_pos hd2] at h
        cases hv : g.get_variable (n.refName?.getD "") with
        | ok v =>
          rw [hv] at h
          cases h
          have hvm := (get_variable_ok_spec g _ _ hv).1
          have hxm := (List.mem_filter.1 hvm).1
          exact ⟨Or.inl ⟨rfl, Or.inr hxm⟩, mem_ids _ hxm⟩
        | error e =>
          rw [hv] at h
          cases e <;> first
            | exact Except.noConfusion h
            | exact singleton_case h
      · rw [if_neg hd2] at h
        exact singleton_case h
    · rw [if_neg hi] at h
      by_cases hs : n.isSource = true
      · rw [if_pos hs] at h
        exact singleton_case h
      · rw [if_neg hs] at h
        exact plain_case h

theorem add_node_plain_nodes_mono (g : IRGraph) (n : Instruction) (d : Bool)
    (g' : IRGraph) (x : Instruction)
    (h : g.add_node_plain n d = .ok (g', x)) :
    ∀ y ∈ g.nodes, y ∈ g'.nodes := by
  rcases (add_node_plain_spec g n d g' x h).1 with ⟨hg, _⟩ | ⟨hg, _⟩ <;>
    subst hg <;> intro y hy
  · exact hy
  · exact List.mem_append_left _ hy

theorem add_node_plain_edges_eq (g : IRGraph) (n : Instruction) (d : Bool)
    (g' : IRGraph) (x : Instruction)
    (h : g.add_node_plain n d = .ok (g', x)) :
    g'.edges = g.edges := by
  rcases (add_node_plain_spec g n d g' x h).1 with ⟨hg, _⟩ | ⟨hg, _⟩ <;>
    subst hg <;> rfl

theorem add_node_plain_ids_sub (g : IRGraph) (n : Instruction) (d : Bool)
    (g' : IRGraph) (x : Instruction)
    (h : g.add_node_plain n d = .ok (g', x)) :
    ∀ i ∈ g'.nodeIds, i ∈ g.nodeIds ∨ i = n.id := by
  rcases (add_node_plain_spec g n d g' x h).1 with ⟨hg, _⟩ | ⟨hg, _⟩ <;>
    subst hg <;> intro i hi
  · exact Or.inl hi
  · rcases List.mem_map.1 hi with ⟨y, hy, rfl⟩
    rcases List.mem_append.1 hy with hy | hy
    · exact Or.inl (List.mem_map_of_mem Instruction.id hy)
    · simp at hy
      subst hy
      exact Or.inr rfl

theorem add_node_plain_mem_of_id (g : IRGraph) (n : Instruction) (d : Bool)
    (hm : n.id ∈ g.nodeIds) :
    g.add_node_plain n d = .ok (g, n) := by
  unfold IRGraph.add_node_plain
  rw [if_pos hm]

theorem add_edge_of_mem (g : IRGraph) (u v : Instruction) (d : Bool)
    (hu : u.id ∈ g.nodeIds) (hv : v.id ∈ g.nodeIds) :
    g.add_edge u v d = .ok (g.addEdgeRaw u.id v.id) := by
  unfold IRGraph.add_edge
  simp only [add_node_plain_mem_of_id g u d hu,
    add_node_plain_mem_of_id g v d hv, except_bind_ok]

theorem addEdgeRaw_nodes (g : IRGraph) (u v : NodeId) :
    (g.addEdgeRaw u v).nodes = g.nodes := by
  unfold IRGraph.addEdgeRaw
  split <;> rfl

theorem addEdgeRaw_edges_mono (g : IRGraph) (u v : NodeId) :
    ∀ e ∈ g.edges, e ∈ (g.addEdgeRaw u v).edges := by
  unfold IRGraph.addEdgeRaw
  split
  · exact fun e he => he
  · exact fun e he => List.mem_append_left _ he

theorem addEdgeRaw_edges_sub (g : IRGraph) (u v : NodeId) :
    ∀ e ∈ (g.addEdgeRaw u v).edges, e ∈ g.edges ∨ e = (u, v) := by
  unfold IRGraph.addEdgeRaw
  split
  · exact fun e he => Or.inl he
  · intro e he
    rcases List.mem_append.1 he with he | he
    · exact Or.inl he
    · simp at he
      exact Or.inr he

theorem add_edge_spec (g : IRGraph) (u v : Instruction) (d : Bool)
    (g' : IRGraph) (h : g.add_edge u v d = .ok g') :
    (∀ y ∈ g.nodes, y ∈ g'.nodes) ∧ (∀ e ∈ g.edges, e ∈ g'.edges) := by
  unfold IRGraph.add_edge at h
  cases h1 : g.add_node_plain u d with
  | error e => rw [h1] at h; exact Except.noConfusion h
  | ok p1 =>
    obtain ⟨g1, ux⟩ := p1
    rw [h1] at h
    have h' : (g1.add_node_plain v d >>=
        fun p2 => Except.ok (p2.1.addEdgeRaw ux.id p2.2.id)) = .ok g' := h
    cases h2 : g1.add_node_plain v d with
    | error e => rw [h2] at h'; exact Except.noConfusion h'
    | ok p2 =>
      obtain ⟨g2, vx⟩ := p2
      rw [h2] at h'
      have h'' : Except.ok (g2.addEdgeRaw ux.id vx.id) = .ok g' := h'
      cases h''
      constructor
      · intro y hy
        have hy1 := add_node_plain_nodes_mono g u d g1 ux h1 y hy
        have hy2 := add_node_plain_nodes_mono g1 v d g2 vx h2 y hy1
        rw [addEdgeRaw_nodes]
        exact hy2
      · intro e he
        have he1 : e ∈ g1.edges := by
          rw [add_node_plain_edges_eq g u d g1 ux h1]; exact he
        have he2 : e ∈ g2.edges := by
          rw [add_node_plain_edges_eq g1 v d g2 vx h2]; exact he1
        exact addEdgeRaw_edges_mono g2 ux.id vx.id e he2

end AddNodeLemmas

section ClaimC10andC3

/-- C10: the in-memory evaluator's predecessor requirement.  For every
instruction that is a Return, Variable, or other non-source
TransformingInstruction, _evaluate_instruction_in_graph unconditionally takes
next(graph.predecessors(instruction)); when the node has no predecessors the
evaluation fails with the unhandled StopIteration from next(), not with a
Kestrel error and without any artifact-cache lookup (the state, including a
cache that may already hold the node's id, is irrelevant to the outcome). -/
theorem claim_C10 {α : Type} (B : Backend α) (g : IRGraph) (fuel : Nat)
    (st : EvalState α) (ins : Instruction)
    (ht : ins.isTransforming = true) (hs : ins.isSource = false)
    (hp : g.firstPred ins.id = none) :
    evalInstr B g (fuel + 1) st ins = .error .stopIteration := by
  cases hd : ins.data with
  | var nm ver => simp only [evalInstr, hd, hp]
  | ret s => simp only [evalInstr, hd, hp]
  | trans op => simp only [evalInstr, hd, hp]
  | dataSource i ds => simp [Instruction.isSource, hd] at hs
  | reference nm => simp [Instruction.isTransforming, hd] at ht

/-- Witness for C10: a cached boundary Variable (its id is present in the
evaluator's artifact cache) with zero predecessors makes the evaluator fail
with StopIteration instead of looking the artifact up. -/
theorem claim_C10_witness :
    wLoneVar.isTransforming = true ∧ wLoneVar.isSource = false ∧
    wLoneVarGraph.firstPred wLoneVar.id = none ∧
    (1, 42) ∈ wLoneVarState.cache ∧
    evalInstr wBackend wLoneVarGraph 4 wLoneVarState wLoneVar
      = .error .stopIteration :=
  ⟨by decide, by decide, by decide, by decide,
    claim_C10 wBackend wLoneVarGraph 3 wLoneVarState wLoneVar
      (by decide) (by decide) (by decide)⟩

/-- C3 (claim refuted by the code): the in-memory evaluator does not memoize.
Three concrete runs of InMemoryCache.evaluate_graph on the pipeline
DataSource -> Variable -> Return: the first run performs one backend source
call; re-running with the artifact cache already holding the artifacts of
both the Variable and the Return target performs a second backend call
(calls goes from 1 to 2) instead of the zero calls the claim requires; and a
run whose cache is pre-seeded with artifact 99 for the Variable ignores that
entry, recurses into the predecessors, returns the recomputed artifact 5,
and overwrites the cache entry, instead of returning the cached artifact. -/
theorem claim_C3 :
    evaluate_graph wBackend wPipelineEval [⟨3, .ret 0⟩] ⟨[], 0⟩
      = .ok ([(3, 5)], ⟨[(2, 5), (3, 5)], 1⟩) ∧
    evaluate_graph wBackend wPipelineEval [⟨3, .ret 0⟩] ⟨[(2, 5), (3, 5)], 1⟩
      = .ok ([(3, 5)], ⟨[(2, 5), (3, 5)], 2⟩) ∧
    evaluate_graph wBackend wPipelineEval [⟨3, .ret 0⟩] ⟨[(2, 99)], 0⟩
      = .ok ([(3, 5)], ⟨[(2, 5), (3, 5)], 1⟩) := by
  exact ⟨rfl, rfl, rfl⟩

end ClaimC10andC3

section UpdateLemmas

theorem mapM_ok_mem {α β : Type _} (f : α → Except KErr β) :
    ∀ (l : List α) (out : List β), l.mapM f = .ok out →
    ∀ y ∈ out, ∃ a ∈ l, f a = .ok y := by
  intro l
  induction l with
  | nil =>
    intro out h y hy
    have h2 : (Except.ok [] : Except KErr (List β)) = .ok out := h
    cases h2
    simp at hy
  | cons a t ih =>
    intro out h y hy
    rw [List.mapM_cons] at h
    cases ha : f a with
    | error e => rw [ha] at h; exact Except.noConfusion h
    | ok b =>
      rw [ha] at h
      have h2 : (t.mapM f >>= fun bs => pure (b :: bs)) = .ok out := h
      cases ht : t.mapM f with
      | error e => rw [ht] at h2; exact Except.noConfusion h2
      | ok bs =>
        rw [ht] at h2
        have h3 : (Except.ok (b :: bs) : Except KErr (List β)) = .ok out := h2
        cases h3
        rcases List.mem_cons.1 hy with rfl | hy
        · exact ⟨a, List.mem_cons_self _ _, ha⟩
        · rcases ih bs ht y hy with ⟨a', ha', hfa⟩
          exact ⟨a', List.mem_cons_of_mem _ ha', hfa⟩

theorem get_reference_eq_nil (g : IRGraph) (nm : String)
    (hf : g.nodes.filter (Instruction.isRefNamed nm) = []) :
    g.get_reference nm = .error (.referenceNotFound nm) := by
  unfold IRGraph.get_reference
  rw [hf]

theorem get_reference_eq_one (g : IRGraph) (nm : String) (z : Instruction)
    (hf : g.nodes.filter (Instruction.isRefNamed nm) = [z]) :
    g.get_reference nm = .ok z := by
  unfold IRGraph.get_reference
  rw [hf]

theorem get_reference_eq_many (g : IRGraph) (nm : String) (z1 z2 : Instruction)
    (t : List Instruction)
    (hf : g.nodes.filter (Instruction.isRefNamed nm) = z1 :: z2 :: t) :
    g.get_reference nm = .error (.duplicatedReference nm) := by
  unfold IRGraph.get_reference
  rw [hf]

theorem get_reference_ok_spec (g : IRGraph) (nm : String) (r : Instruction)
    (h : g.get_reference nm = .ok r) :
    r ∈ g.nodes ∧ r.isRefNamed nm = true := by
  cases hf : g.nodes.filter (Instruction.isRefNamed nm) with
  | nil =>
    rw [get_reference_eq_nil g nm hf] at h
    exact Except.noConfusion h
  | cons z rest =>
    cases rest with
    | nil =>
      rw [get_reference_eq_one g nm z hf] at h
      cases h
      have hz : ∀ w ∈ g.nodes.filter (Instruction.isRefNamed nm),
          w ∈ g.nodes ∧ w.isRefNamed nm = true :=
        fun w hw => ⟨(List.mem_filter.1 hw).1, (List.mem_filter.1 hw).2⟩
      apply hz
      rw [hf]
      exact List.mem_cons_self _ _
    | cons z2 rest2 =>
      rw [get_reference_eq_many g nm z z2 rest2 hf] at h
      exact Except.noConfusion h

theorem get_references_spec (g : IRGraph) (refs : List Instruction)
    (h : g.get_references = .ok refs) :
    ∀ r ∈ refs, r ∈ g.nodes ∧ r.isIntermediate = true := by
  intro r hr
  rcases mapM_ok_mem g.get_reference g.refNames refs h r hr with ⟨nm, _, hok⟩
  rcases get_reference_ok_spec g nm r hok with ⟨hmem, hnamed⟩
  refine ⟨hmem, ?_⟩
  cases hd : r.data with
  | reference n => unfold Instruction.isIntermediate; rw [hd]
  | dataSource i ds =>
    unfold Instruction.isRefNamed at hnamed; rw [hd] at hnamed
    simp at hnamed
  | var n v =>
    unfold Instruction.isRefNamed at hnamed; rw [hd] at hnamed
    simp at hnamed
  | ret s =>
    unfold Instruction.isRefNamed at hnamed; rw [hd] at hnamed
    simp at hnamed
  | trans op =>
    unfold Instruction.isRefNamed at hnamed; rw [hd] at hnamed
    simp at hnamed

theorem add_node_plain_insert (g : IRGraph) (n : Instruction) (d : Bool)
    (hm : n.id ∉ g.nodeIds) (hi : n.isIntermediate = false)
    (hs : n.isSource = false) :
    g.add_node_plain n d = .ok (⟨g.nodes ++ [n], g.edges⟩, n) := by
  unfold IRGraph.add_node_plain
  rw [if_neg hm, if_neg (by simp [hi]), if_neg (by simp [hs])]

end UpdateLemmas

section UpdateFoldLemmas

theorem o2nStep_spec (acc : IRGraph × List (NodeId × Instruction))
    (r : Instruction) (out : IRGraph × List (NodeId × Instruction))
    (h : o2nStep acc r = .ok out) :
    ∃ x, acc.1.add_node_plain r true = .ok (out.1, x) ∧
      out.2 = acc.2 ++ [(r.id, x)] := by
  unfold o2nStep at h
  cases ha : acc.1.add_node_plain r true with
  | error e => rw [ha] at h; exact Except.noConfusion h
  | ok p =>
    obtain ⟨gx, x⟩ := p
    rw [ha] at h
    have h2 : (Except.ok (gx, acc.2 ++ [(r.id, x)])
        : Except KErr (IRGraph × List (NodeId × Instruction))) = .ok out := h
    cases h2
    exact ⟨x, rfl, rfl⟩

theorem o2nFold_nodes_mono (l : List Instruction)
    (acc out : IRGraph × List (NodeId × Instruction))
    (h : l.foldlM o2nStep acc = .ok out) :
    ∀ y ∈ acc.1.nodes, y ∈ out.1.nodes := by
  intro y hy
  refine foldlM_ok_pres (P := fun st => y ∈ st.1.nodes) l acc out h hy ?_
  intro a b a' _ hP hstep
  rcases o2nStep_spec a b a' hstep with ⟨x, ha, _⟩
  exact add_node_plain_nodes_mono a.1 b true a'.1 x ha y hP

theorem o2nFold_edges_eq (l : List Instruction)
    (acc out : IRGraph × List (NodeId × Instruction))
    (h : l.foldlM o2nStep acc = .ok out) :
    out.1.edges = acc.1.edges := by
  refine foldlM_ok_pres (P := fun st => st.1.edges = acc.1.edges) l acc out h
    rfl ?_
  intro a b a' _ hP hstep
  rcases o2nStep_spec a b a' hstep with ⟨x, ha, _⟩
  rw [add_node_plain_edges_eq a.1 b true a'.1 x ha, hP]

theorem o2nFold_ids_sub (l : List Instruction)
    (acc out : IRGraph × List (NodeId × Instruction))
    (h : l.foldlM o2nStep acc = .ok out) :
    ∀ i ∈ out.1.nodeIds, i ∈ acc.1.nodeIds ∨ i ∈ l.map (·.id) := by
  refine foldlM_ok_pres
    (P := fun st => ∀ i ∈ st.1.nodeIds, i ∈ acc.1.nodeIds ∨ i ∈ l.map (·.id))
    l acc out h (fun i hi => Or.inl hi) ?_
  intro a b a' hb hP hstep
  rcases o2nStep_spec a b a' hstep with ⟨x, ha, _⟩
  intro i hi
  rcases add_node_plain_ids_sub a.1 b true a'.1 x ha i hi with hia | hib
  · exact hP i hia
  · exact Or.inr (hib ▸ List.mem_map_of_mem (·.id) hb)

theorem o2nFold_inserts (l : List Instruction) :
    ∀ (acc out : IRGraph × List (NodeId × Instruction)),
    l.foldlM o2nStep acc = .ok out →
    (l.map (·.id)).Nodup →
    ∀ x ∈ l, x.isIntermediate = false → x.isSource = false →
    x.id ∉ acc.1.nodeIds → x ∈ out.1.nodes := by
  induction l with
  | nil => intro acc out _ _ x hx; simp at hx
  | cons b t ih =>
    intro acc out h hnd x hx hi hs hfresh
    rw [List.foldlM_cons] at h
    cases hb : o2nStep acc b with
    | error e => rw [hb] at h; exact Except.noConfusion h
    | ok acc1 =>
      rw [hb] at h
      rw [List.map_cons, List.nodup_cons] at hnd
      rcases List.mem_cons.1 hx with rfl | hx
      · rcases o2nStep_spec acc x acc1 hb with ⟨y, ha, _⟩
        rw [add_node_plain_insert acc.1 x true hfresh hi hs] at ha
        injection ha with hp
        have ha2 : acc1.1 = (⟨acc.1.nodes ++ [x], acc.1.edges⟩ : IRGraph) :=
          (congrArg Prod.fst hp).symm
        have hx1 : x ∈ acc1.1.nodes := by
          rw [ha2]
          simp
        exact o2nFold_nodes_mono t acc1 out h x hx1
      · refine ih acc1 out h hnd.2 x hx hi hs ?_
        intro hc
        rcases o2nStep_spec acc b acc1 hb with ⟨y, ha, _⟩
        rcases add_node_plain_ids_sub acc.1 b true acc1.1 y ha x.id hc with
          hia | hib
        · exact hfresh hia
        · exact hnd.1 (hib ▸ List.mem_map_of_mem (·.id) hx)

theorem edgeStep_spec (o2n : List (NodeId × Instruction)) (acc : IRGraph)
    (e : NodeId × NodeId) (out : IRGraph)
    (h : edgeStep o2n acc e = .ok out) :
    (∀ y ∈ acc.nodes, y ∈ out.nodes) ∧ (∀ ed ∈ acc.edges, ed ∈ out.edges) := by
  unfold edgeStep at h
  cases hu : o2n.lookup e.1 with
  | none => rw [hu] at h; exact Except.noConfusion h
  | some u =>
    cases hv : o2n.lookup e.2 with
    | none => rw [hu, hv] at h; exact Except.noConfusion h
    | some v =>
      rw [hu, hv] at h
      exact add_edge_spec acc u v false out h

theorem edgeFold_mono (l : List (NodeId × NodeId))
    (o2n : List (NodeId × Instruction)) (acc out : IRGraph)
    (h : l.foldlM (edgeStep o2n) acc = .ok out) :
    (∀ y ∈ acc.nodes, y ∈ out.nodes) ∧ (∀ ed ∈ acc.edges, ed ∈ out.edges) := by
  constructor
  · intro y hy
    refine foldlM_ok_pres (P := fun st => y ∈ st.nodes) l acc out h hy ?_
    intro a b a' _ hP hstep
    exact (edgeStep_spec o2n a b a' hstep).1 y hP
  · intro ed hed
    refine foldlM_ok_pres (P := fun st => ed ∈ st.edges) l acc out h hed ?_
    intro a b a' _ hP hstep
    exact (edgeStep_spec o2n a b a' hstep).2 ed hP

theorem update_destruct (g h g' h' : IRGraph)
    (hu : g.update h = .ok (g', h')) :
    g.mutated h = .ok h' ∧
    ∃ refs g1 o2nR g2 o2n,
      h'.get_references = .ok refs ∧
      refs.foldlM o2nStep (g, ([] : List (NodeId × Instruction)))
        = .ok (g1, o2nR) ∧
      (h'.nodes.filter (fun n => n.id ∉ refs.map (·.id))).foldlM o2nStep
        (g1, o2nR) = .ok (g2, o2n) ∧
      h'.edges.foldlM (edgeStep o2n) g2 = .ok g' := by
  unfold IRGraph.update at hu
  cases hm : g.mutated h with
  | error e => rw [hm] at hu; exact Except.noConfusion hu
  | ok hh =>
    simp only [hm, except_bind_ok] at hu
    cases hr : hh.get_references with
    | error e => rw [hr] at hu; exact Except.noConfusion hu
    | ok refs =>
      simp only [hr, except_bind_ok] at hu
      cases hf1 : refs.foldlM o2nStep
          (g, ([] : List (NodeId × Instruction))) with
      | error e => rw [hf1] at hu; exact Except.noConfusion hu
      | ok p1 =>
        obtain ⟨g1, o2nR⟩ := p1
        simp only [hf1, except_bind_ok] at hu
        cases hf2 : (hh.nodes.filter
            (fun n => n.id ∉ refs.map (·.id))).foldlM o2nStep (g1, o2nR) with
        | error e => rw [hf2] at hu; exact Except.noConfusion hu
        | ok p2 =>
          obtain ⟨g2, o2n⟩ := p2
          simp only [hf2, except_bind_ok] at hu
          cases hf3 : hh.edges.foldlM (edgeStep o2n) g2 with
          | error e => rw [hf3] at hu; exact Except.noConfusion hu
          | ok g3 =>
            simp only [hf3, except_bind_ok] at hu
            have h2 : (Except.ok (g3, hh)
                : Except KErr (IRGraph × IRGraph)) = .ok (g', h') := hu
            cases h2
            refine ⟨?_, refs, g1, o2nR, g2, o2n, ?_, ?_, ?_, ?_⟩ <;>
              first
                | exact rfl
                | exact hm
                | exact hr
                | exact hf1
                | exact hf2
                | exact hf3

theorem update_nodes_mono (g h g' h' : IRGraph)
    (hu : g.update h = .ok (g', h')) :
    ∀ y ∈ g.nodes, y ∈ g'.nodes := by
  rcases update_destruct g h g' h' hu with
    ⟨hm, refs, g1, o2nR, g2, o2n, hr, hf1, hf2, hf3⟩
  intro y hy
  have h1 := o2nFold_nodes_mono refs (g, []) (g1, o2nR) hf1 y hy
  have h2 := o2nFold_nodes_mono _ (g1, o2nR) (g2, o2n) hf2 y h1
  exact (edgeFold_mono h'.edges o2n g2 g' hf3).1 y h2

theorem mem_id_unique (l : List Instruction)
    (hnd : (l.map (·.id)).Nodup) :
    ∀ a ∈ l, ∀ b ∈ l, a.id = b.id → a = b := by
  intro a ha b hb hab
  by_contra hne
  exact map_not_nodup (·.id) l a b ha hb hne hab hnd

theorem mutated_destruct (g h h' : IRGraph)
    (hm : g.mutated h = .ok h') :
    ∃ tbl, g.varTable = .ok tbl ∧
      h' = ⟨h.nodes.map
        (shiftNode tbl (g.max_return_sequence + 1).toNat), h.edges⟩ := by
  unfold IRGraph.mutated at hm
  cases ht : g.varTable with
  | error e => rw [ht] at hm; exact Except.noConfusion hm
  | ok tbl =>
    rw [ht] at hm
    have h2 : (Except.ok
        (⟨h.nodes.map (shiftNode tbl (g.max_return_sequence + 1).toNat),
          h.edges⟩ : IRGraph) : Except KErr IRGraph) = .ok h' := hm
    cases h2
    exact ⟨tbl, rfl, rfl⟩

theorem shiftNode_id (tbl : List (String × Nat)) (s : Nat) (n : Instruction) :
    (shiftNode tbl s n).id = n.id := by
  obtain ⟨i, d⟩ := n
  cases d with
  | var nm v => cases htl : tbl.lookup nm <;> simp [shiftNode, htl]
  | ret sq => simp [shiftNode]
  | dataSource ifc ds => simp [shiftNode]
  | reference nm => simp [shiftNode]
  | trans op => simp [shiftNode]

theorem update_inserts (g h g' h' : IRGraph)
    (hu : g.update h = .ok (g', h'))
    (hnd : h.nodupIds) :
    ∀ x ∈ h'.nodes, x.isIntermediate = false → x.isSource = false →
    x.id ∉ g.nodeIds → x ∈ g'.nodes := by
  rcases update_destruct g h g' h' hu with
    ⟨hm, refs, g1, o2nR, g2, o2n, hr, hf1, hf2, hf3⟩
  rcases mutated_destruct g h h' hm with ⟨tbl, _, hh'⟩
  have hids : h'.nodeIds = h.nodeIds := by
    rw [hh']
    show (h.nodes.map
      (shiftNode tbl (g.max_return_sequence + 1).toNat)).map (·.id)
      = h.nodes.map (·.id)
    rw [List.map_map]
    exact List.map_congr_left (fun a _ => shiftNode_id tbl _ a)
  have hnd' : (h'.nodes.map (·.id)).Nodup := by
    show h'.nodeIds.Nodup
    rw [hids]
    exact hnd
  intro x hx hi hs hfresh
  -- x is not one of the references
  have hxnonref : x ∈ h'.nodes.filter (fun n => n.id ∉ refs.map (·.id)) := by
    refine List.mem_filter.2 ⟨hx, ?_⟩
    simp only [decide_eq_true_eq]
    intro hc
    rcases List.mem_map.1 hc with ⟨r, hrmem, hrid⟩
    have hrnode := (get_references_spec h' refs hr r hrmem).1
    have hrint := (get_references_spec h' refs hr r hrmem).2
    have : r = x := mem_id_unique h'.nodes hnd' r hrnode x hx hrid
    rw [this] at hrint
    rw [hrint] at hi
    exact Bool.noConfusion hi
  -- x's id is still fresh after the reference loop
  have hfresh1 : x.id ∉ g1.nodeIds := by
    intro hc
    rcases o2nFold_ids_sub refs (g, []) (g1, o2nR) hf1 x.id hc with hia | hib
    · exact hfresh hia
    · rcases List.mem_map.1 hib with ⟨r, hrmem, hrid⟩
      have hrnode := (get_references_spec h' refs hr r hrmem).1
      have hrint := (get_references_spec h' refs hr r hrmem).2
      have : r = x := mem_id_unique h'.nodes hnd' r hrnode x hx hrid
      rw [this] at hrint
      rw [hrint] at hi
      exact Bool.noConfusion hi
  -- the non-reference loop inserts x, the edge loop keeps it
  have hnd2 : ((h'.nodes.filter
      (fun n => n.id ∉ refs.map (·.id))).map (·.id)).Nodup := by
    have hsub := List.filter_sublist
      (l := h'.nodes) (p := fun n => n.id ∉ refs.map (·.id))
    exact (hsub.map (·.id)).nodup hnd'
  have hx2 := o2nFold_inserts _ (g1, o2nR) (g2, o2n) hf2 hnd2 x hxnonref
    hi hs hfresh1
  exact (edgeFold_mono h'.edges o2n g2 g' hf3).1 x hx2

end UpdateFoldLemmas

section ClaimC1andC9

theorem lookup_some_mem {β : Type _} (l : List (String × β)) (k : String)
    (b : β) : l.lookup k = some b → (k, b) ∈ l := by
  induction l with
  | nil => intro h; exact Option.noConfusion h
  | cons p t ih =>
    obtain ⟨k', b'⟩ := p
    intro h
    rw [List.lookup_cons] at h
    split at h
    · cases h
      rename_i heq
      have hk : k = k' := by simpa using heq
      rw [hk]
      exact List.mem_cons_self _ _
    · exact List.mem_cons_of_mem _ (ih h)

theorem varTable_destruct (g : IRGraph) (tbl : List (String × Nat))
    (ht : g.varTable = .ok tbl) :
    ∃ vs, g.get_variables = .ok vs ∧
      tbl = vs.map (fun v => (v.varName?.getD "", v.versionOf)) := by
  unfold IRGraph.varTable at ht
  cases hv : g.get_variables with
  | error e => rw [hv] at ht; exact Except.noConfusion ht
  | ok vs =>
    rw [hv] at ht
    have h2 : (Except.ok (vs.map (fun v => (v.varName?.getD "", v.versionOf)))
        : Except KErr (List (String × Nat))) = .ok tbl := ht
    cases h2
    exact ⟨vs, rfl, rfl⟩

theorem varTable_lookup_none (g : IRGraph) (tbl : List (String × Nat))
    (nm : String) (ht : g.varTable = .ok tbl)
    (hempty : g.nodes.filter (Instruction.isVarNamed nm) = []) :
    tbl.lookup nm = none := by
  rcases varTable_destruct g tbl ht with ⟨vs, hvs, htbl⟩
  cases hl : tbl.lookup nm with
  | none => rfl
  | some lv =>
    exfalso
    have hmem := lookup_some_mem tbl nm lv hl
    rw [htbl] at hmem
    rcases List.mem_map.1 hmem with ⟨w, hw, hwp⟩
    rcases mapM_ok_mem g.get_variable g.varNames vs hvs w hw with
      ⟨nm', _, hok⟩
    have hwf := (get_variable_ok_spec g nm' w hok).1
    rw [IRGraph.varList] at hwf
    have hwn : w.isVarNamed nm' = true := (List.mem_filter.1 hwf).2
    have hwmem : w ∈ g.nodes := (List.mem_filter.1 hwf).1
    -- w is a variable named nm' and its table key is nm, so nm' = nm
    have hkey : w.varName?.getD "" = nm := congrArg Prod.fst hwp
    obtain ⟨wi, wd⟩ := w
    cases wd with
    | var wn wv =>
      have hched : wn = nm' := by
        simpa [Instruction.isVarNamed] using hwn
      have hkey2 : wn = nm := by
        simpa [Instruction.varName?] using hkey
      have : (⟨wi, .var wn wv⟩ : Instruction)
          ∈ g.nodes.filter (Instruction.isVarNamed nm) := by
        refine List.mem_filter.2 ⟨hwmem, ?_⟩
        simp [Instruction.isVarNamed, hkey2]
      rw [hempty] at this
      simp at this
    | dataSource i d => simp [Instruction.isVarNamed] at hwn
    | ret s => simp [Instruction.isVarNamed] at hwn
    | reference n => simp [Instruction.isVarNamed] at hwn
    | trans o => simp [Instruction.isVarNamed] at hwn

/-- C9: union mutates its argument.  On a successful update(g, h) the
returned argument graph is h with every node rewritten in place by
shiftNode: every Variable whose name has a live entry in g's symbol table
has its version incremented by that live version plus one, every Return has
its sequence incremented by g's maximal return sequence plus one (ids are
preserved, so the objects are mutated, not replaced); and the mutated node
objects themselves are inserted into the receiver, so g and h share them
after the merge (shown for the plainly-inserted kinds: nodes that are
neither References, which may dereference or deduplicate, nor
SourceInstructions, which may deduplicate). -/
theorem claim_C9 (g h g' h' : IRGraph) (hu : g.update h = .ok (g', h')) :
    ∃ tbl, g.varTable = .ok tbl ∧
      h' = ⟨h.nodes.map (shiftNode tbl (g.max_return_sequence + 1).toNat),
        h.edges⟩ ∧
      (∀ x ∈ h.nodes, ∀ nm ver lv, x.data = .var nm ver →
        tbl.lookup nm = some lv →
        (⟨x.id, .var nm (ver + lv + 1)⟩ : Instruction) ∈ h'.nodes) ∧
      (∀ x ∈ h.nodes, ∀ s, x.data = .ret s →
        (⟨x.id, .ret (s + (g.max_return_sequence + 1).toNat)⟩ : Instruction)
          ∈ h'.nodes) ∧
      (h.nodupIds → ∀ x ∈ h'.nodes, x.isIntermediate = false →
        x.isSource = false → x.id ∉ g.nodeIds → x ∈ g'.nodes) := by
  rcases update_destruct g h g' h' hu with ⟨hm, _⟩
  rcases mutated_destruct g h h' hm with ⟨tbl, ht, hh'⟩
  refine ⟨tbl, ht, hh', ?_, ?_, ?_⟩
  · intro x hx nm ver lv hxd hlv
    rw [hh']
    show _ ∈ h.nodes.map (shiftNode tbl (g.max_return_sequence + 1).toNat)
    have : shiftNode tbl (g.max_return_sequence + 1).toNat x
        = ⟨x.id, .var nm (ver + lv + 1)⟩ := by
      obtain ⟨xi, xd⟩ := x
      cases hxd
      simp [shiftNode, hlv]
    rw [← this]
    exact List.mem_map_of_mem _ hx
  · intro x hx s hxd
    rw [hh']
    show _ ∈ h.nodes.map (shiftNode tbl (g.max_return_sequence + 1).toNat)
    have : shiftNode tbl (g.max_return_sequence + 1).toNat x
        = ⟨x.id, .ret (s + (g.max_return_sequence + 1).toNat)⟩ := by
      obtain ⟨xi, xd⟩ := x
      cases hxd
      simp [shiftNode]
    rw [← this]
    exact List.mem_map_of_mem _ hx
  · intro hnd x hx hi hs hfresh
    exact update_inserts g h g' h' hu hnd x hx hi hs hfresh

/-- Witness for C9 at a concrete merge: both graphs hold a Variable x
version 0 and a Return sequence 0; update shifts the argument's variable to
version 1 and its return to sequence 1 in place and inserts the mutated
nodes into the receiver. -/
theorem claim_C9_witness :
    wMutG.update wMutH = .ok
      (⟨[⟨1, .var "x" 0⟩, ⟨2, .ret 0⟩, ⟨3, .var "x" 1⟩, ⟨4, .ret 1⟩], []⟩,
        ⟨[⟨3, .var "x" 1⟩, ⟨4, .ret 1⟩], []⟩) ∧
    ∃ tbl, wMutG.varTable = .ok tbl ∧
      (⟨[⟨3, .var "x" 1⟩, ⟨4, .ret 1⟩], []⟩ : IRGraph)
        = ⟨wMutH.nodes.map
            (shiftNode tbl (wMutG.max_return_sequence + 1).toNat),
          wMutH.edges⟩ ∧
      (∀ x ∈ wMutH.nodes, ∀ nm ver lv, x.data = .var nm ver →
        tbl.lookup nm = some lv →
        (⟨x.id, .var nm (ver + lv + 1)⟩ : Instruction)
          ∈ (⟨[⟨3, .var "x" 1⟩, ⟨4, .ret 1⟩], []⟩ : IRGraph).nodes) ∧
      (∀ x ∈ wMutH.nodes, ∀ s, x.data = .ret s →
        (⟨x.id, .ret (s + (wMutG.max_return_sequence + 1).toNat)⟩
          : Instruction)
          ∈ (⟨[⟨3, .var "x" 1⟩, ⟨4, .ret 1⟩], []⟩ : IRGraph).nodes) ∧
      (wMutH.nodupIds →
        ∀ x ∈ (⟨[⟨3, .var "x" 1⟩, ⟨4, .ret 1⟩], []⟩ : IRGraph).nodes,
        x.isIntermediate = false → x.isSource = false →
        x.id ∉ wMutG.nodeIds →
        x ∈ (⟨[⟨1, .var "x" 0⟩, ⟨2, .ret 0⟩, ⟨3, .var "x" 1⟩, ⟨4, .ret 1⟩],
          []⟩ : IRGraph).nodes) :=
  ⟨by decide,
    claim_C9 wMutG wMutH
      ⟨[⟨1, .var "x" 0⟩, ⟨2, .ret 0⟩, ⟨3, .var "x" 1⟩, ⟨4, .ret 1⟩], []⟩
      ⟨[⟨3, .var "x" 1⟩, ⟨4, .ret 1⟩], []⟩ (by decide)⟩

end ClaimC1andC9

section ClaimC1

/-- C1: the deref law for adding references.  (1) Adding a Reference named x
with deref enabled to a graph whose symbol table resolves x returns the live
variable and leaves the graph unchanged (no node inserted).  (2) Adding it
when no Variable named x exists (and no content-equal zero-in-degree
singleton is present) inserts the reference itself as a singleton node.
(3) update only ever adds nodes to the receiver, so a later union cannot
retroactively remove a reference already in the receiver.  (4) In the
concrete deref-law scenario - the receiver holds a Reference x and no
Variable x, and the merged graph brings in Variable("x", 0) - the merged
result keeps the reference and also contains the variable, because h's
references are dereferenced against g's pre-merge symbol table before any of
h's variables are added. -/
theorem claim_C1 :
    (∀ (g : IRGraph) (r : Instruction) (nm : String) (v : Instruction),
      r.data = .reference nm → r.id ∉ g.nodeIds → g.get_variable nm = .ok v →
      g.add_node r none true = .ok (g, v)) ∧
    (∀ (g : IRGraph) (r : Instruction) (nm : String),
      r.data = .reference nm → r.id ∉ g.nodeIds →
      g.nodes.filter (Instruction.isVarNamed nm) = [] →
      g.nodes.filter (fun x => x.data == r.data && g.inDeg x.id == 0) = [] →
      g.add_node r none true = .ok (⟨g.nodes ++ [r], g.edges⟩, r)) ∧
    (∀ (g h g' h' : IRGraph), g.update h = .ok (g', h') →
      ∀ x ∈ g.nodes, x ∈ g'.nodes) ∧
    (∀ (g h g' h' : IRGraph) (r v : Instruction) (nm : String),
      g.update h = .ok (g', h') → h.nodupIds →
      r ∈ g.nodes → r.data = .reference nm →
      v ∈ h.nodes → v.data = .var nm 0 →
      g.nodes.filter (Instruction.isVarNamed nm) = [] →
      v.id ∉ g.nodeIds →
      r ∈ g'.nodes ∧ v ∈ g'.nodes) := by
  refine ⟨?_, ?_, ?_, ?_⟩
  · intro g r nm v hd hm hv
    unfold IRGraph.add_node
    rw [if_neg hm,
      if_neg (show ¬ r.isTransforming = true by
        simp [Instruction.isTransforming, hd])]
    unfold IRGraph.add_node_plain
    rw [if_neg hm,
      if_pos (show r.isIntermediate = true by
        simp [Instruction.isIntermediate, hd]),
      if_pos rfl]
    have hrn : r.refName?.getD "" = nm := by simp [Instruction.refName?, hd]
    rw [hrn, hv]
  · intro g r nm hd hm hvars hsing
    unfold IRGraph.add_node
    rw [if_neg hm,
      if_neg (show ¬ r.isTransforming = true by
        simp [Instruction.isTransforming, hd])]
    unfold IRGraph.add_node_plain
    rw [if_neg hm,
      if_pos (show r.isIntermediate = true by
        simp [Instruction.isIntermediate, hd]),
      if_pos rfl]
    have hrn : r.refName?.getD "" = nm := by simp [Instruction.refName?, hd]
    rw [hrn, get_variable_eq_nil g nm hvars, add_singleton_eq_nil g r hsing]
  · exact update_nodes_mono
  · intro g h g' h' r v nm hu hnd hr hd hv hvd hempty hfresh
    have hrm := update_nodes_mono g h g' h' hu r hr
    rcases update_destruct g h g' h' hu with ⟨hm, _⟩
    rcases mutated_destruct g h h' hm with ⟨tbl, ht, hh'⟩
    have hlook := varTable_lookup_none g tbl nm ht hempty
    have hsv : shiftNode tbl (g.max_return_sequence + 1).toNat v = v := by
      obtain ⟨vi, vd⟩ := v
      cases hvd
      simp [shiftNode, hlook]
    have hv' : v ∈ h'.nodes := by
      rw [hh']
      show v ∈ h.nodes.map (shiftNode tbl (g.max_return_sequence + 1).toNat)
      rw [← hsv]
      exact List.mem_map_of_mem _ hv
    have hvi : v.isIntermediate = false := by
      obtain ⟨vi, vd⟩ := v
      cases hvd
      simp [Instruction.isIntermediate]
    have hvs : v.isSource = false := by
      obtain ⟨vi, vd⟩ := v
      cases hvd
      simp [Instruction.isSource]
    exact ⟨hrm, update_inserts g h g' h' hu hnd v hv' hvi hvs hfresh⟩

/-- Witness for C1 at concrete graphs: dereferencing against a present
Variable x returns it without inserting; adding the same reference to the
empty graph inserts it; and merging Variable("x", 0) into the graph holding
only Reference("x") keeps the reference alongside the new variable. -/
theorem claim_C1_witness :
    wVarGraph.add_node wFreshRef none true
      = .ok (wVarGraph, ⟨2, .var "x" 0⟩) ∧
    IRGraph.empty.add_node wFreshRef none true
      = .ok (⟨IRGraph.empty.nodes ++ [wFreshRef], IRGraph.empty.edges⟩,
          wFreshRef) ∧
    (∀ x ∈ wRefGraph.nodes,
      x ∈ (⟨[⟨1, .reference "x"⟩, ⟨2, .var "x" 0⟩], []⟩ : IRGraph).nodes) ∧
    ((⟨1, .reference "x"⟩ : Instruction)
        ∈ (⟨[⟨1, .reference "x"⟩, ⟨2, .var "x" 0⟩], []⟩ : IRGraph).nodes ∧
      (⟨2, .var "x" 0⟩ : Instruction)
        ∈ (⟨[⟨1, .reference "x"⟩, ⟨2, .var "x" 0⟩], []⟩ : IRGraph).nodes) :=
  ⟨claim_C1.1 wVarGraph wFreshRef "x" ⟨2, .var "x" 0⟩ (by decide) (by decide)
      (by decide),
    claim_C1.2.1 IRGraph.empty wFreshRef "x" (by decide) (by decide)
      (by decide) (by decide),
    claim_C1.2.2.1 wRefGraph wVarGraph
      ⟨[⟨1, .reference "x"⟩, ⟨2, .var "x" 0⟩], []⟩ wVarGraph (by decide),
    claim_C1.2.2.2 wRefGraph wVarGraph
      ⟨[⟨1, .reference "x"⟩, ⟨2, .var "x" 0⟩], []⟩ wVarGraph
      ⟨1, .reference "x"⟩ ⟨2, .var "x" 0⟩ "x" (by decide) (by decide)
      (by decide) (by decide) (by decide) (by decide) (by decide)
      (by decide)⟩

end ClaimC1

section ClaimC2

theorem get_variable_of_range (g : IRGraph) (nm : String) (k : Nat)
    (hk : 0 < k) (hv : g.varVersions nm = List.range k) :
    ∃ x, g.get_variable nm = .ok x ∧ x.versionOf = k - 1 ∧
      x.isVarNamed nm = true := by
  have hne : g.nodes.filter (Instruction.isVarNamed nm) ≠ [] := by
    intro hc
    rw [IRGraph.varVersions, IRGraph.varList, hc] at hv
    simp at hv
    omega
  have hnd : (g.varVersions nm).Nodup := by
    rw [hv]
    exact List.nodup_range k
  obtain ⟨x, hx⟩ := get_variable_ok_of_nodup g nm hne hnd
  rcases get_variable_ok_spec g nm x hx with ⟨hmem, hmax⟩
  have hxn : x.isVarNamed nm = true := by
    rw [IRGraph.varList] at hmem
    exact (List.mem_filter.1 hmem).2
  have hxin : x.versionOf ∈ g.varVersions nm :=
    List.mem_map_of_mem Instruction.versionOf hmem
  rw [hv, List.mem_range] at hxin
  have hk1 : k - 1 ∈ g.varVersions nm := by
    rw [hv, List.mem_range]
    omega
  rcases List.mem_map.1 hk1 with ⟨y, hy, hyv⟩
  have hle := hmax y hy
  exact ⟨x, hx, by omega, hxn⟩

theorem add_edge_insert_right (g : IRGraph) (u v : Instruction) (d : Bool)
    (hu : u.id ∈ g.nodeIds) (hv : v.id ∉ g.nodeIds)
    (hvi : v.isIntermediate = false) (hvs : v.isSource = false) :
    g.add_edge u v d
      = .ok ((⟨g.nodes ++ [v], g.edges⟩ : IRGraph).addEdgeRaw u.id v.id) := by
  unfold IRGraph.add_edge
  simp only [add_node_plain_mem_of_id g u d hu, except_bind_ok,
    add_node_plain_insert g v d hv hvi hvs]

theorem add_node_var_step_err (g : IRGraph) (i : NodeId) (d : Instruction)
    (nm : String) (hfresh : i ∉ g.nodeIds) (hdep : d.id ∉ g.nodeIds) :
    g.add_node ⟨i, .var nm 0⟩ (some d) true = .error .instructionNotFound := by
  unfold IRGraph.add_node
  rw [if_neg hfresh,
    if_pos (show (⟨i, InstrData.var nm 0⟩ : Instruction).isTransforming = true
      from rfl)]
  show g.add_node_with_dependent_node ⟨i, .var nm 0⟩ d
    = .error .instructionNotFound
  unfold IRGraph.add_node_with_dependent_node
  rw [if_pos hdep]

theorem add_node_var_step (g : IRGraph) (i : NodeId) (d : Instruction)
    (nm : String) (j : Nat) (hfresh : i ∉ g.nodeIds)
    (hdep : d.id ∈ g.nodeIds)
    (hvar : (j = 0 ∧ g.nodes.filter (Instruction.isVarNamed nm) = []) ∨
      (∃ ve, g.get_variable nm = .ok ve ∧ ve.versionOf + 1 = j)) :
    g.add_node ⟨i, .var nm 0⟩ (some d) true
      = .ok ((⟨g.nodes ++ [⟨i, .var nm j⟩], g.edges⟩ : IRGraph).addEdgeRaw
          d.id i, ⟨i, .var nm j⟩) := by
  unfold IRGraph.add_node
  rw [if_neg hfresh,
    if_pos (show (⟨i, InstrData.var nm 0⟩ : Instruction).isTransforming = true
      from rfl)]
  show g.add_node_with_dependent_node ⟨i, .var nm 0⟩ d = _
  unfold IRGraph.add_node_with_dependent_node
  rw [if_neg (not_not_intro hdep), if_neg hfresh,
    if_pos (show (⟨i, InstrData.var nm 0⟩ : Instruction).isVariable = true
      from rfl),
    show (⟨i, InstrData.var nm 0⟩ : Instruction).varName?.getD "" = nm
      from rfl]
  rcases hvar with ⟨hj, hfe⟩ | ⟨ve, hve, hj⟩
  · subst hj
    rw [get_variable_eq_nil g nm hfe]
    simp only [except_bind_ok]
    rw [if_neg (show ¬ ((⟨i, InstrData.var nm 0⟩ : Instruction).isReturn
        = true) by simp [Instruction.isReturn])]
    rw [add_edge_insert_right g d ⟨i, .var nm 0⟩ false hdep hfresh
      (by simp [Instruction.isIntermediate]) (by simp [Instruction.isSource])]
    simp only [except_bind_ok]
  · rw [hve]
    simp only [except_bind_ok]
    rw [if_neg (show ¬ ((⟨i, InstrData.var nm (ve.versionOf + 1)⟩
        : Instruction).isReturn = true) by simp [Instruction.isReturn])]
    rw [add_edge_insert_right g d ⟨i, .var nm (ve.versionOf + 1)⟩ false hdep
      hfresh (by simp [Instruction.isIntermediate])
      (by simp [Instruction.isSource])]
    simp only [except_bind_ok]
    rw [hj]

theorem varChainStep_spec (nm : String) (g : IRGraph) (p : NodeId × Instruction)
    (g' : IRGraph) (h : varChainStep nm g p = .ok g') (j : Nat)
    (hvv : g.varVersions nm = List.range j) (hfresh : p.1 ∉ g.nodeIds) :
    g'.nodes = g.nodes ++ [⟨p.1, .var nm j⟩] := by
  unfold varChainStep at h
  by_cases hdep : p.2.id ∈ g.nodeIds
  · have hvar : (j = 0 ∧ g.nodes.filter (Instruction.isVarNamed nm) = []) ∨
        (∃ ve, g.get_variable nm = .ok ve ∧ ve.versionOf + 1 = j) := by
      cases j with
      | zero =>
        left
        refine ⟨rfl, ?_⟩
        rw [IRGraph.varVersions, IRGraph.varList] at hvv
        have hm : (g.nodes.filter (Instruction.isVarNamed nm)).map
            Instruction.versionOf = [] := by simpa using hvv
        exact List.map_eq_nil_iff.1 hm
      | succ jm =>
        right
        obtain ⟨ve, hve, hver, _⟩ :=
          get_variable_of_range g nm (jm + 1) (Nat.succ_pos jm) hvv
        exact ⟨ve, hve, by omega⟩
    rw [add_node_var_step g p.1 p.2 nm j hfresh hdep hvar] at h
    have h2 : (Except.ok ((⟨g.nodes ++ [⟨p.1, .var nm j⟩], g.edges⟩
        : IRGraph).addEdgeRaw p.2.id p.1) : Except KErr IRGraph)
        = .ok g' := h
    cases h2
    rw [addEdgeRaw_nodes]
  · rw [add_node_var_step_err g p.1 p.2 nm hfresh hdep] at h
    exact Except.noConfusion h

theorem varChain_spec (nm : String) :
    ∀ (steps : List (NodeId × Instruction)) (g : IRGraph) (j : Nat)
      (gk : IRGraph),
    addVarChain g nm steps = .ok gk →
    g.varVersions nm = List.range j →
    (steps.map Prod.fst).Nodup →
    (∀ i ∈ steps.map Prod.fst, i ∉ g.nodeIds) →
    gk.varVersions nm = List.range (j + steps.length) := by
  intro steps
  induction steps with
  | nil =>
    intro g j gk h hvv _ _
    have h2 : (Except.ok g : Except KErr IRGraph) = .ok gk := h
    cases h2
    simpa using hvv
  | cons p t ih =>
    intro g j gk h hvv hnd hfresh
    unfold addVarChain at h
    rw [List.foldlM_cons] at h
    cases hs : varChainStep nm g p with
    | error e => rw [hs] at h; exact Except.noConfusion h
    | ok g1 =>
      rw [hs] at h
      have hfp : p.1 ∉ g.nodeIds := hfresh p.1 (by simp)
      have hn1 := varChainStep_spec nm g p g1 hs j hvv hfp
      have hvv1 : g1.varVersions nm = List.range (j + 1) := by
        rw [IRGraph.varVersions, IRGraph.varList, hn1, List.filter_append]
        rw [show (([⟨p.1, .var nm j⟩] : List Instruction).filter
            (Instruction.isVarNamed nm)) = [⟨p.1, .var nm j⟩] by
          simp [Instruction.isVarNamed]]
        rw [List.map_append]
        rw [IRGraph.varVersions, IRGraph.varList] at hvv
        rw [hvv]
        rw [show (([⟨p.1, .var nm j⟩] : List Instruction).map
            Instruction.versionOf) = [j] by simp [Instruction.versionOf]]
        rw [List.range_succ]
      have hids1 : g1.nodeIds = g.nodeIds ++ [p.1] := by
        rw [IRGraph.nodeIds, hn1, List.map_append]
        rfl
      rw [List.map_cons, List.nodup_cons] at hnd
      have hres := ih g1 (j + 1) gk h hvv1 hnd.2 ?_
      · rw [hres,
          show (j + 1) + t.length = j + (p :: t).length by
            simp only [List.length_cons]; omega]
      · intro i hi
        rw [hids1]
        intro hc
        rcases List.mem_append.1 hc with hc | hc
        · exact hfresh i (List.mem_cons_of_mem _ hi) hc
        · simp at hc
          subst hc
          exact hnd.1 hi

/-- C2: the variable SSA law.  Adding k Variables of the same name via
add_node with a predecessor already in the graph, starting from a graph
without that name, leaves exactly the versions 0 to k-1 for that name, and
get_variable returns the node with version k-1.  get_variable raises
VariableNotFound when no variable of the name exists, and DuplicatedVariable
when two distinct variables of the name share a version. -/
theorem claim_C2 :
    (∀ (g0 : IRGraph) (nm : String) (steps : List (NodeId × Instruction))
      (gk : IRGraph),
      addVarChain g0 nm steps = .ok gk →
      g0.varVersions nm = [] →
      (steps.map Prod.fst).Nodup →
      (∀ i ∈ steps.map Prod.fst, i ∉ g0.nodeIds) →
      gk.varVersions nm = List.range steps.length ∧
      (0 < steps.length → ∃ x, gk.get_variable nm = .ok x ∧
        x.versionOf = steps.length - 1 ∧ x.isVarNamed nm = true)) ∧
    (∀ (g : IRGraph) (nm : String),
      g.nodes.filter (Instruction.isVarNamed nm) = [] →
      g.get_variable nm = .error (.variableNotFound nm)) ∧
    (∀ (g : IRGraph) (nm : String) (x y : Instruction),
      x ∈ g.nodes → y ∈ g.nodes → x ≠ y →
      x.isVarNamed nm = true → y.isVarNamed nm = true →
      x.versionOf = y.versionOf →
      g.get_variable nm = .error (.duplicatedVariable nm)) := by
  refine ⟨?_, get_variable_eq_nil,
    fun g nm x y hx hy hne hxn hyn hv =>
      get_variable_error_of_dup g nm x y hx hy hxn hyn hne hv⟩
  intro g0 nm steps gk h hvv hnd hfresh
  have hrange := varChain_spec nm steps g0 0 gk h (by simpa using hvv) hnd
    hfresh
  rw [Nat.zero_add] at hrange
  exact ⟨hrange, fun hk => get_variable_of_range gk nm steps.length hk hrange⟩

/-- Witness for C2: three additions of Variable x over a seed transform give
versions 0, 1, 2; get_variable returns the version-2 node; the empty graph
raises VariableNotFound; a graph with two version-0 variables x raises
DuplicatedVariable. -/
theorem claim_C2_witness :
    (addVarChain wChainG "x" wChainSteps
        = .ok ⟨[wSeed, ⟨11, .var "x" 0⟩, ⟨12, .var "x" 1⟩, ⟨13, .var "x" 2⟩],
          [(100, 11), (100, 12), (100, 13)]⟩) ∧
    ((⟨[wSeed, ⟨11, .var "x" 0⟩, ⟨12, .var "x" 1⟩, ⟨13, .var "x" 2⟩],
        [(100, 11), (100, 12), (100, 13)]⟩ : IRGraph).varVersions "x"
        = List.range wChainSteps.length ∧
      (0 < wChainSteps.length →
        ∃ x, (⟨[wSeed, ⟨11, .var "x" 0⟩, ⟨12, .var "x" 1⟩, ⟨13, .var "x" 2⟩],
          [(100, 11), (100, 12), (100, 13)]⟩ : IRGraph).get_variable "x"
            = .ok x ∧
          x.versionOf = wChainSteps.length - 1 ∧ x.isVarNamed "x" = true)) ∧
    IRGraph.empty.get_variable "x" = .error (.variableNotFound "x") ∧
    wDupVarG.get_variable "x" = .error (.duplicatedVariable "x") :=
  ⟨by decide,
    claim_C2.1 wChainG "x" wChainSteps
      ⟨[wSeed, ⟨11, .var "x" 0⟩, ⟨12, .var "x" 1⟩, ⟨13, .var "x" 2⟩],
        [(100, 11), (100, 12), (100, 13)]⟩
      (by decide) (by decide) (by decide) (by decide),
    claim_C2.2.1 IRGraph.empty "x" (by decide),
    claim_C2.2.2 wDupVarG "x" ⟨1, .var "x" 0⟩ ⟨2, .var "x" 0⟩ (by decide)
      (by decide) (by decide) (by decide) (by decide) (by decide)⟩

end ClaimC2

section ClaimC4

theorem filter_and_nil (l : List Instruction) (p q : Instruction → Bool)
    (h : l.filter p = []) : l.filter (fun x => p x && q x) = [] := by
  rw [List.filter_eq_nil_iff] at h ⊢
  intro a ha
  simp only [Bool.and_eq_true, not_and]
  intro hp
  exact absurd hp (h a ha)

theorem add_node_ds_first (g : IRGraph) (i : NodeId) (ifc ds : String)
    (hfresh : i ∉ g.nodeIds)
    (hnone : g.nodes.filter
      (fun x => x.data == InstrData.dataSource ifc ds) = []) :
    g.add_node ⟨i, .dataSource ifc ds⟩ none true
      = .ok (⟨g.nodes ++ [⟨i, .dataSource ifc ds⟩], g.edges⟩,
          ⟨i, .dataSource ifc ds⟩) := by
  unfold IRGraph.add_node
  rw [if_neg hfresh,
    if_neg (show ¬ ((⟨i, InstrData.dataSource ifc ds⟩
      : Instruction).isTransforming = true) by
      simp [Instruction.isTransforming])]
  unfold IRGraph.add_node_plain
  rw [if_neg hfresh,
    if_neg (show ¬ ((⟨i, InstrData.dataSource ifc ds⟩
      : Instruction).isIntermediate = true) by
      simp [Instruction.isIntermediate]),
    if_pos (show (⟨i, InstrData.dataSource ifc ds⟩
      : Instruction).isSource = true from rfl)]
  exact add_singleton_eq_nil g ⟨i, .dataSource ifc ds⟩
    (filter_and_nil g.nodes _ _ hnone)

theorem add_node_ds_dup (g : IRGraph) (i : NodeId) (ifc ds : String)
    (first : Instruction) (hfresh : i ∉ g.nodeIds)
    (hfilter : g.nodes.filter
      (fun x => x.data == InstrData.dataSource ifc ds && g.inDeg x.id == 0)
      = [first]) :
    g.add_node ⟨i, .dataSource ifc ds⟩ none true = .ok (g, first) := by
  unfold IRGraph.add_node
  rw [if_neg hfresh,
    if_neg (show ¬ ((⟨i, InstrData.dataSource ifc ds⟩
      : Instruction).isTransforming = true) by
      simp [Instruction.isTransforming])]
  unfold IRGraph.add_node_plain
  rw [if_neg hfresh,
    if_neg (show ¬ ((⟨i, InstrData.dataSource ifc ds⟩
      : Instruction).isIntermediate = true) by
      simp [Instruction.isIntermediate]),
    if_pos (show (⟨i, InstrData.dataSource ifc ds⟩
      : Instruction).isSource = true from rfl)]
  exact add_singleton_eq_one g ⟨i, .dataSource ifc ds⟩ first hfilter

theorem dsChain_spec (ifc ds : String) :
    ∀ (ids : List NodeId) (g1 : IRGraph) (first : Instruction)
      (outs outsk : List Instruction) (gk : IRGraph),
    ids.foldlM (dsChainStep (.dataSource ifc ds)) (g1, outs) = .ok (gk, outsk) →
    g1.nodes.filter
      (fun x => x.data == InstrData.dataSource ifc ds && g1.inDeg x.id == 0)
      = [first] →
    (∀ i ∈ ids, i ∉ g1.nodeIds) →
    gk = g1 ∧ outsk = outs ++ List.replicate ids.length first := by
  intro ids
  induction ids with
  | nil =>
    intro g1 first outs outsk gk h _ _
    have h2 : (Except.ok (g1, outs)
        : Except KErr (IRGraph × List Instruction)) = .ok (gk, outsk) := h
    cases h2
    exact ⟨rfl, by simp⟩
  | cons i t ih =>
    intro g1 first outs outsk gk h hfilter hfresh
    rw [List.foldlM_cons] at h
    have hstep : dsChainStep (.dataSource ifc ds) (g1, outs) i
        = .ok (g1, outs ++ [first]) := by
      unfold dsChainStep
      rw [add_node_ds_dup g1 i ifc ds first (hfresh i (by simp)) hfilter]
      rfl
    rw [hstep] at h
    rcases ih g1 first (outs ++ [first]) outsk gk h hfilter
      (fun i' hi' => hfresh i' (List.mem_cons_of_mem _ hi')) with ⟨hg, ho⟩
    refine ⟨hg, ?_⟩
    rw [ho, List.append_assoc]
    rw [show ([first] : List Instruction) ++ List.replicate t.length first
      = List.replicate (t.length + 1) first by
        rw [List.replicate_succ]
        rfl]
    rfl

/-- C4: the singleton law for DataSources.  Starting from a graph with no
node of the given (interface, datasource) content, a sequence of add
operations inserting fresh DataSource nodes of that content inserts exactly
the first one - the graph afterwards contains exactly one node of that
content, the edge set is untouched, and every add in the sequence returned
that one node.  And when more than one zero-in-degree node with equal
content already exists, add fails with DuplicatedSingletonInstruction. -/
theorem claim_C4 :
    (∀ (g0 : IRGraph) (ifc ds : String) (i0 : NodeId) (rest : List NodeId)
      (gk : IRGraph) (outs : List Instruction),
      addDataSourceChain g0 (.dataSource ifc ds) (i0 :: rest)
        = .ok (gk, outs) →
      g0.nodes.filter (fun x => x.data == InstrData.dataSource ifc ds) = [] →
      (i0 :: rest).Nodup →
      (∀ i ∈ i0 :: rest, i ∉ g0.nodeIds) →
      (∀ i ∈ i0 :: rest, g0.inDeg i = 0) →
      gk = ⟨g0.nodes ++ [⟨i0, .dataSource ifc ds⟩], g0.edges⟩ ∧
      outs = List.replicate (i0 :: rest).length
        ⟨i0, .dataSource ifc ds⟩ ∧
      gk.nodes.filter (fun x => x.data == InstrData.dataSource ifc ds)
        = [⟨i0, .dataSource ifc ds⟩]) ∧
    (∀ (g : IRGraph) (node x y : Instruction),
      node.isSource = true → node.id ∉ g.nodeIds →
      x ∈ g.nodes → y ∈ g.nodes → x ≠ y →
      x.data = node.data → y.data = node.data →
      g.inDeg x.id = 0 → g.inDeg y.id = 0 →
      g.add_node node none true = .error .duplicatedSingletonInstruction) := by
  constructor
  · intro g0 ifc ds i0 rest gk outs h hnone hnd hfresh hdeg
    unfold addDataSourceChain at h
    rw [List.foldlM_cons] at h
    have hstep : dsChainStep (.dataSource ifc ds) (g0, []) i0
        = .ok (⟨g0.nodes ++ [⟨i0, .dataSource ifc ds⟩], g0.edges⟩,
            [⟨i0, .dataSource ifc ds⟩]) := by
      unfold dsChainStep
      rw [add_node_ds_first g0 i0 ifc ds (hfresh i0 (by simp)) hnone]
      rfl
    rw [hstep] at h
    set g1 : IRGraph := ⟨g0.nodes ++ [⟨i0, .dataSource ifc ds⟩], g0.edges⟩
      with hg1
    have hfilter : g1.nodes.filter
        (fun x => x.data == InstrData.dataSource ifc ds && g1.inDeg x.id == 0)
        = [⟨i0, .dataSource ifc ds⟩] := by
      show (g0.nodes ++ [(⟨i0, .dataSource ifc ds⟩ : Instruction)]).filter
        (fun x => x.data == InstrData.dataSource ifc ds && g1.inDeg x.id == 0)
        = _
      rw [List.filter_append]
      rw [filter_and_nil g0.nodes _ _ hnone]
      have hdeg1 : g1.inDeg i0 = 0 := hdeg i0 (by simp)
      simp [hdeg1]
    have hfresh1 : ∀ i ∈ rest, i ∉ g1.nodeIds := by
      intro i hi hc
      have : g1.nodeIds = g0.nodeIds ++ [i0] := by
        show (g0.nodes ++ [(⟨i0, .dataSource ifc ds⟩ : Instruction)]).map
          (·.id) = g0.nodes.map (·.id) ++ [i0]
        rw [List.map_append]
        rfl
      rw [this] at hc
      rcases List.mem_append.1 hc with hc | hc
      · exact hfresh i (List.mem_cons_of_mem _ hi) hc
      · simp at hc
        subst hc
        rw [List.nodup_cons] at hnd
        exact hnd.1 hi
    rcases dsChain_spec ifc ds rest g1 ⟨i0, .dataSource ifc ds⟩
      [⟨i0, .dataSource ifc ds⟩] outs gk h hfilter hfresh1 with ⟨hg, ho⟩
    refine ⟨hg, ?_, ?_⟩
    · rw [ho, List.length_cons,
        show ([⟨i0, .dataSource ifc ds⟩] : List Instruction)
            ++ List.replicate rest.length ⟨i0, .dataSource ifc ds⟩
          = List.replicate (rest.length + 1) ⟨i0, .dataSource ifc ds⟩ by
          rw [List.replicate_succ]
          rfl]
    · rw [hg]
      show (g0.nodes ++ [(⟨i0, .dataSource ifc ds⟩ : Instruction)]).filter
        (fun x => x.data == InstrData.dataSource ifc ds) = _
      rw [List.filter_append, hnone]
      simp
  · intro g node x y hsrc hm hx hy hne hxd hyd hxdeg hydeg
    have hxf : x ∈ g.nodes.filter
        (fun z => z.data == node.data && g.inDeg z.id == 0) := by
      refine List.mem_filter.2 ⟨hx, ?_⟩
      simp [hxd, hxdeg]
    have hyf : y ∈ g.nodes.filter
        (fun z => z.data == node.data && g.inDeg z.id == 0) := by
      refine List.mem_filter.2 ⟨hy, ?_⟩
      simp [hyd, hydeg]
    have hplain : g.add_node node none true = g.add_node_plain node true := by
      unfold IRGraph.add_node
      rw [if_neg hm, if_neg (show ¬ (node.isTransforming = true) by
        obtain ⟨ni, nd⟩ := node
        cases nd <;> simp_all [Instruction.isSource, Instruction.isTransforming])]
    rw [hplain]
    unfold IRGraph.add_node_plain
    rw [if_neg hm,
      if_neg (show ¬ (node.isIntermediate = true) by
        obtain ⟨ni, nd⟩ := node
        cases nd <;> simp_all [Instruction.isSource, Instruction.isIntermediate]),
      if_pos hsrc]
    cases hf : g.nodes.filter
        (fun z => z.data == node.data && g.inDeg z.id == 0) with
    | nil => rw [hf] at hxf; simp at hxf
    | cons z rest =>
      cases rest with
      | nil =>
        rw [hf] at hxf hyf
        simp at hxf hyf
        exact absurd (hxf.trans hyf.symm) hne
      | cons z2 rest2 => exact add_singleton_eq_many g node z z2 rest2 hf

end ClaimC4

/-- Witness for C4: three adds of DataSource("A","t1") with fresh ids into
the empty graph insert exactly one node and all return it; a graph that
already holds two zero-in-degree nodes of that content rejects a third add
with DuplicatedSingletonInstruction. -/
theorem claim_C4_witness :
    ((⟨[⟨21, .dataSource "A" "t1"⟩], []⟩ : IRGraph)
        = ⟨IRGraph.empty.nodes ++ [⟨21, .dataSource "A" "t1"⟩],
            IRGraph.empty.edges⟩ ∧
      List.replicate ([21, 22, 23] : List NodeId).length
          (⟨21, .dataSource "A" "t1"⟩ : Instruction)
        = List.replicate ([21, 22, 23] : List NodeId).length
            ⟨21, .dataSource "A" "t1"⟩ ∧
      (⟨IRGraph.empty.nodes ++ [⟨21, .dataSource "A" "t1"⟩],
          IRGraph.empty.edges⟩ : IRGraph).nodes.filter
          (fun x => x.data == InstrData.dataSource "A" "t1")
        = [⟨21, .dataSource "A" "t1"⟩]) ∧
    wTwoDS.add_node ⟨33, .dataSource "A" "t1"⟩ none true
      = .error .duplicatedSingletonInstruction :=
  ⟨by
    have h := claim_C4.1 IRGraph.empty "A" "t1" 21 [22, 23]
      ⟨IRGraph.empty.nodes ++ [⟨21, .dataSource "A" "t1"⟩],
        IRGraph.empty.edges⟩
      (List.replicate ([21, 22, 23] : List NodeId).length
        ⟨21, .dataSource "A" "t1"⟩)
      (by decide) (by decide) (by decide) (by decide) (by decide)
    exact ⟨h.1.symm, rfl, h.2.2⟩,
    claim_C4.2 wTwoDS ⟨33, .dataSource "A" "t1"⟩ ⟨31, .dataSource "A" "t1"⟩
      ⟨32, .dataSource "A" "t1"⟩ (by decide) (by decide) (by decide)
      (by decide) (by decide) (by decide) (by decide) (by decide)
      (by decide)⟩

section ClaimC5

theorem kind_of_data_eq (x y : Instruction) (h : x.data = y.data) :
    x.isSource = y.isSource ∧ x.isIntermediate = y.isIntermediate := by
  obtain ⟨xi, xd⟩ := x
  obtain ⟨yi, yd⟩ := y
  cases (show xd = yd from h)
  exact ⟨rfl, rfl⟩

theorem add_node_plain_false_insert (g : IRGraph) (r : Instruction)
    (hm : r.id ∉ g.nodeIds)
    (hnone : (r.isSource || r.isIntermediate) = true →
      g.nodes.filter (fun x => x.data == r.data) = []) :
    g.add_node_plain r false = .ok (⟨g.nodes ++ [r], g.edges⟩, r) := by
  by_cases hi : r.isIntermediate = true
  · unfold IRGraph.add_node_plain
    rw [if_neg hm, if_pos hi, if_neg (show ¬ (false = true) by simp)]
    exact add_singleton_eq_nil g r
      (filter_and_nil g.nodes _ _ (hnone (by simp [hi])))
  · by_cases hs : r.isSource = true
    · unfold IRGraph.add_node_plain
      rw [if_neg hm, if_neg hi, if_pos hs]
      exact add_singleton_eq_nil g r
        (filter_and_nil g.nodes _ _ (hnone (by simp [hs])))
    · exact add_node_plain_insert g r false hm
        (Bool.not_eq_true _ ▸ Bool.of_not_eq_true hi)
        (Bool.of_not_eq_true hs)

theorem from_dict_load_nodes :
    ∀ (recs : List Instruction) (acc : IRGraph),
    (∀ r ∈ recs, r.id ∉ acc.nodeIds) → (recs.map (·.id)).Nodup →
    contentDistinctSingletonsL (acc.nodes ++ recs) →
    recs.foldlM loadNodeStep acc = .ok ⟨acc.nodes ++ recs, acc.edges⟩ := by
  intro recs
  induction recs with
  | nil =>
    intro acc _ _ _
    show (Except.ok acc : Except KErr IRGraph) = _
    rw [show acc.nodes ++ [] = acc.nodes from by simp]
  | cons r rest ih =>
    intro acc hfresh hnd hdist
    rw [List.foldlM_cons]
    have hnone : (r.isSource || r.isIntermediate) = true →
        acc.nodes.filter (fun x => x.data == r.data) = [] := by
      intro hkind
      rw [List.filter_eq_nil_iff]
      intro x hx
      rcases (List.pairwise_append.1 hdist) with ⟨_, _, hcross⟩
      have hr := hcross x hx r (List.mem_cons_self _ _)
      simp only [beq_iff_eq]
      intro hdata
      have hk := kind_of_data_eq x r hdata
      have hxkind : (x.isSource || x.isIntermediate) = true := by
        rw [hk.1, hk.2]
        exact hkind
      exact hr hxkind hdata
    have hstep : loadNodeStep acc r = .ok ⟨acc.nodes ++ [r], acc.edges⟩ := by
      unfold loadNodeStep
      rw [add_node_plain_false_insert acc r (hfresh r (by simp)) hnone]
      rfl
    rw [hstep, except_bind_ok]
    rw [List.map_cons, List.nodup_cons] at hnd
    have hres := ih ⟨acc.nodes ++ [r], acc.edges⟩ ?_ hnd.2 ?_
    · rw [hres]
      rw [show (acc.nodes ++ [r]) ++ rest = acc.nodes ++ (r :: rest) by
        rw [List.append_assoc]
        rfl]
    · intro r' hr' hc
      have : (⟨acc.nodes ++ [r], acc.edges⟩ : IRGraph).nodeIds
          = acc.nodeIds ++ [r.id] := by
        show (acc.nodes ++ [r]).map (·.id) = acc.nodes.map (·.id) ++ [r.id]
        rw [List.map_append]
        rfl
      rw [this] at hc
      rcases List.mem_append.1 hc with hc | hc
      · exact hfresh r' (List.mem_cons_of_mem _ hr') hc
      · simp at hc
        exact hnd.1 (hc ▸ List.mem_map_of_mem (·.id) hr')
    · show contentDistinctSingletonsL ((acc.nodes ++ [r]) ++ rest)
      rw [show (acc.nodes ++ [r]) ++ rest = acc.nodes ++ (r :: rest) by
        rw [List.append_assoc]
        rfl]
      exact hdist

theorem get_node_by_id_ok (g : IRGraph) (i : NodeId) (h : i ∈ g.nodeIds) :
    ∃ u, g.get_node_by_id i = .ok u ∧ u.id = i ∧ u ∈ g.nodes := by
  unfold IRGraph.get_node_by_id
  cases hf : g.nodes.find? (fun n => n.id == i) with
  | none =>
    exfalso
    rcases List.mem_map.1 h with ⟨u, hu, hui⟩
    have := List.find?_eq_none.1 hf u hu
    simp [hui] at this
  | some u =>
    refine ⟨u, rfl, ?_, List.mem_of_find?_eq_some hf⟩
    have := List.find?_some hf
    simpa using this

theorem get_node_by_id_err (g : IRGraph) (i : NodeId) (h : i ∉ g.nodeIds) :
    g.get_node_by_id i = .error .instructionNotFound := by
  unfold IRGraph.get_node_by_id
  rw [List.find?_eq_none.2 ?_]
  intro u hu
  simp only [beq_eq_false_iff_ne, ne_eq, beq_iff_eq]
  intro hc
  exact h (hc ▸ List.mem_map_of_mem (·.id) hu)

theorem addEdgeRaw_self_mem (g : IRGraph) (u v : NodeId) :
    (u, v) ∈ (g.addEdgeRaw u v).edges := by
  unfold IRGraph.addEdgeRaw
  split
  · assumption
  · simp

theorem load_edges_ok :
    ∀ (links : List (NodeId × NodeId)) (g : IRGraph),
    (∀ l ∈ links, l.1 ∈ g.nodeIds ∧ l.2 ∈ g.nodeIds) →
    ∃ g2, links.foldlM loadEdgeStep g = .ok g2 ∧ g2.nodes = g.nodes ∧
      (∀ e, e ∈ g2.edges ↔ e ∈ g.edges ∨ e ∈ links) := by
  intro links
  induction links with
  | nil =>
    intro g _
    exact ⟨g, rfl, rfl, fun e => by simp⟩
  | cons l rest ih =>
    intro g hcl
    rw [List.foldlM_cons]
    obtain ⟨u, hu, hui, humem⟩ := get_node_by_id_ok g l.1 (hcl l (by simp)).1
    obtain ⟨v, hv, hvi, hvmem⟩ := get_node_by_id_ok g l.2 (hcl l (by simp)).2
    have hstep : loadEdgeStep g l = .ok (g.addEdgeRaw u.id v.id) := by
      unfold loadEdgeStep
      rw [hu, hv]
      exact add_edge_of_mem g u v false (hui ▸ (hcl l (by simp)).1)
        (hvi ▸ (hcl l (by simp)).2)
    rw [hstep]
    have hids : (g.addEdgeRaw u.id v.id).nodeIds = g.nodeIds := by
      show (g.addEdgeRaw u.id v.id).nodes.map (·.id) = _
      rw [addEdgeRaw_nodes]
      rfl
    obtain ⟨g2, hg2, hnodes, hedges⟩ := ih (g.addEdgeRaw u.id v.id)
      (fun l' hl' => by
        rw [hids]
        exact hcl l' (List.mem_cons_of_mem _ hl'))
    refine ⟨g2, hg2, by rw [hnodes, addEdgeRaw_nodes], ?_⟩
    intro e
    rw [hedges e]
    constructor
    · intro hc
      rcases hc with hc | hc
      · rcases addEdgeRaw_edges_sub g u.id v.id e hc with hc | hc
        · exact Or.inl hc
        · right
          rw [hc, hui, hvi]
          exact List.mem_cons_self _ _
      · exact Or.inr (List.mem_cons_of_mem _ hc)
    · intro hc
      rcases hc with hc | hc
      · exact Or.inl (addEdgeRaw_edges_mono g u.id v.id e hc)
      · rcases List.mem_cons.1 hc with he | hc
        · left
          have hself := addEdgeRaw_self_mem g u.id v.id
          have hl : l = (u.id, v.id) := by rw [hui, hvi]
          rw [he, hl]
          exact hself
        · exact Or.inr hc

theorem load_edges_err :
    ∀ (links : List (NodeId × NodeId)) (g : IRGraph),
    (∃ l ∈ links, l.1 ∉ g.nodeIds ∨ l.2 ∉ g.nodeIds) →
    links.foldlM loadEdgeStep g = .error .invalidSeralizedGraph := by
  intro links
  induction links with
  | nil =>
    intro g hbad
    rcases hbad with ⟨l, hl, _⟩
    simp at hl
  | cons l0 rest ih =>
    intro g hbad
    rw [List.foldlM_cons]
    by_cases hgood : l0.1 ∈ g.nodeIds ∧ l0.2 ∈ g.nodeIds
    · obtain ⟨u, hu, hui, _⟩ := get_node_by_id_ok g l0.1 hgood.1
      obtain ⟨v, hv, hvi, _⟩ := get_node_by_id_ok g l0.2 hgood.2
      have hstep : loadEdgeStep g l0 = .ok (g.addEdgeRaw u.id v.id) := by
        unfold loadEdgeStep
        rw [hu, hv]
        exact add_edge_of_mem g u v false (hui ▸ hgood.1) (hvi ▸ hgood.2)
      rw [hstep, except_bind_ok]
      have hids : (g.addEdgeRaw u.id v.id).nodeIds = g.nodeIds := by
        show (g.addEdgeRaw u.id v.id).nodes.map (·.id) = _
        rw [addEdgeRaw_nodes]
        rfl
      refine ih (g.addEdgeRaw u.id v.id) ?_
      rcases hbad with ⟨l, hl, hlbad⟩
      rcases List.mem_cons.1 hl with rfl | hl
      · exact absurd hgood (by
          rcases hlbad with hc | hc
          · exact fun hg => hc hg.1
          · exact fun hg => hc hg.2)
      · exact ⟨l, hl, by rw [hids]; exact hlbad⟩
    · have hstep : loadEdgeStep g l0 = .error .invalidSeralizedGraph := by
        unfold loadEdgeStep
        by_cases h1 : l0.1 ∈ g.nodeIds
        · rw [get_node_by_id_err g l0.2 (fun hc => hgood ⟨h1, hc⟩)]
          obtain ⟨u, hu, _, _⟩ := get_node_by_id_ok g l0.1 h1
          rw [hu]
        · rw [get_node_by_id_err g l0.1 h1]
      rw [hstep, except_bind_error]

/-- C5: serialization round trip and failure.  For a graph with distinct
node ids, no two content-equal singleton-kind nodes, and edges between its
own nodes, from_dict of to_dict reproduces the node list exactly as
authored - including shadowed variables and references that coexist with
same-named variables, since loading uses _add_node with deref disabled and
no version reassignment - and the link set up to set equality; reserializing
therefore yields the same nodes and links.  Deserialization of any document
whose links mention an id absent from the loaded node records fails with
InvalidSeralizedGraph (the source's spelling of InvalidSerializedGraph). -/
theorem claim_C5 :
    (∀ g : IRGraph, g.nodupIds → g.contentDistinctSingletons →
      g.edgesClosed →
      ∃ g2, IRGraph.from_dict g.to_dict = .ok g2 ∧
        g2.nodes = g.nodes ∧
        (∀ e, e ∈ g2.edges ↔ e ∈ g.edges) ∧
        g2.to_dict.nodes = g.to_dict.nodes ∧
        (∀ l, l ∈ g2.to_dict.links ↔ l ∈ g.to_dict.links)) ∧
    (∀ doc : GraphDoc, (doc.nodes.map (·.id)).Nodup →
      contentDistinctSingletonsL doc.nodes →
      (∃ l ∈ doc.links,
        l.1 ∉ doc.nodes.map (·.id) ∨ l.2 ∉ doc.nodes.map (·.id)) →
      IRGraph.from_dict doc = .error .invalidSeralizedGraph) := by
  constructor
  · intro g hnd hdist hcl
    unfold IRGraph.from_dict
    have hload := from_dict_load_nodes g.to_dict.nodes IRGraph.empty
      (fun r _ hc => by simp [IRGraph.empty, IRGraph.nodeIds] at hc)
      hnd hdist
    rw [hload]
    simp only [except_bind_ok]
    obtain ⟨g2, hg2, hnodes, hedges⟩ := load_edges_ok g.to_dict.links
      ⟨IRGraph.empty.nodes ++ g.to_dict.nodes, IRGraph.empty.edges⟩
      (fun l hl => by
        have := hcl l hl
        exact this)
    refine ⟨g2, hg2, ?_, ?_, ?_, ?_⟩
    · rw [hnodes]
      rfl
    · intro e
      rw [hedges e]
      constructor
      · intro hc
        rcases hc with hc | hc
        · simp [IRGraph.empty] at hc
        · exact hc
      · exact fun hc => Or.inr hc
    · show g2.nodes = g.nodes
      rw [hnodes]
      rfl
    · intro l
      show l ∈ g2.edges ↔ l ∈ g.edges
      rw [hedges l]
      constructor
      · intro hc
        rcases hc with hc | hc
        · simp [IRGraph.empty] at hc
        · exact hc
      · exact fun hc => Or.inr hc
  · intro doc hnd hdist hbad
    unfold IRGraph.from_dict
    have hload := from_dict_load_nodes doc.nodes IRGraph.empty
      (fun r _ hc => by simp [IRGraph.empty, IRGraph.nodeIds] at hc)
      hnd hdist
    rw [hload]
    simp only [except_bind_ok]
    refine load_edges_err doc.links _ ?_
    rcases hbad with ⟨l, hl, hlbad⟩
    refine ⟨l, hl, ?_⟩
    have hids : (⟨IRGraph.empty.nodes ++ doc.nodes, IRGraph.empty.edges⟩
        : IRGraph).nodeIds = doc.nodes.map (·.id) := rfl
    rw [hids]
    exact hlbad

end ClaimC5

theorem claim_C5_witness :
    (∃ g2, IRGraph.from_dict wSerG.to_dict = .ok g2 ∧
      g2.nodes = wSerG.nodes ∧
      (∀ e, e ∈ g2.edges ↔ e ∈ wSerG.edges) ∧
      g2.to_dict.nodes = wSerG.to_dict.nodes ∧
      (∀ l, l ∈ g2.to_dict.links ↔ l ∈ wSerG.to_dict.links)) ∧
    IRGraph.from_dict wBadDoc = .error .invalidSeralizedGraph :=
  ⟨claim_C5.1 wSerG (by decide) (by decide) (by decide),
   claim_C5.2 wBadDoc (by decide) (by decide)
     ⟨(1, 99), by decide, Or.inr (by decide)⟩⟩

section ClaimC6

theorem shiftNode_nil_zero (n : Instruction) : shiftNode [] 0 n = n := by
  obtain ⟨i, d⟩ := n
  cases d <;> rfl

theorem map_shiftNode_nil :
    ∀ l : List Instruction, l.map (shiftNode [] 0) = l := by
  intro l
  induction l with
  | nil => rfl
  | cons a t ih => rw [List.map_cons, shiftNode_nil_zero, ih]

theorem mutated_empty (h : IRGraph) : IRGraph.empty.mutated h = .ok h := by
  unfold IRGraph.mutated
  rw [show IRGraph.empty.varTable = Except.ok [] from rfl, except_bind_ok]
  rw [show ((IRGraph.empty.max_return_sequence + 1).toNat) = 0 from rfl]
  rw [map_shiftNode_nil]

theorem isRefNamed_data (x : Instruction) (nm : String)
    (h : x.isRefNamed nm = true) : x.data = .reference nm := by
  obtain ⟨i, d⟩ := x
  cases d with
  | reference n =>
    simp only [Instruction.isRefNamed, beq_iff_eq] at h
    rw [show (⟨i, InstrData.reference n⟩ : Instruction).data
      = InstrData.reference n from rfl, h]
  | dataSource a b => simp [Instruction.isRefNamed] at h
  | var a b => simp [Instruction.isRefNamed] at h
  | ret a => simp [Instruction.isRefNamed] at h
  | trans a => simp [Instruction.isRefNamed] at h

theorem refNameD_of_data (x : Instruction) (nm : String)
    (h : x.data = .reference nm) : x.refName?.getD "" = nm := by
  unfold Instruction.refName?
  rw [h]
  rfl

theorem intermediate_of_data (x : Instruction) (nm : String)
    (h : x.data = .reference nm) : x.isIntermediate = true := by
  unfold Instruction.isIntermediate
  rw [h]

theorem not_var_of_ref (x : Instruction)
    (h : x.isIntermediate = true) : x.isVariable = false := by
  obtain ⟨i, d⟩ := x
  cases d <;> first
    | rfl
    | simp [Instruction.isIntermediate] at h

theorem get_reference_ok_filter (g : IRGraph) (nm : String) (r : Instruction)
    (h : g.get_reference nm = .ok r) :
    g.nodes.filter (Instruction.isRefNamed nm) = [r] := by
  cases hf : g.nodes.filter (Instruction.isRefNamed nm) with
  | nil =>
    rw [get_reference_eq_nil g nm hf] at h
    exact Except.noConfusion h
  | cons z rest =>
    cases rest with
    | nil =>
      rw [get_reference_eq_one g nm z hf] at h
      cases h
      rfl
    | cons z2 t =>
      rw [get_reference_eq_many g nm z z2 t hf] at h
      exact Except.noConfusion h

theorem mapM_ok_forall {α β : Type _} (F : α → Except KErr β) :
    ∀ (l : List α) (out : List β), l.mapM F = .ok out →
    ∀ a ∈ l, ∃ y ∈ out, F a = .ok y := by
  intro l
  induction l with
  | nil =>
    intro out _ a ha
    simp at ha
  | cons a t ih =>
    intro out h b hb
    rw [List.mapM_cons] at h
    cases ha : F a with
    | error e => rw [ha] at h; exact Except.noConfusion h
    | ok y =>
      rw [ha] at h
      have h2 : (t.mapM F >>= fun bs => pure (y :: bs)) = .ok out := h
      cases ht : t.mapM F with
      | error e => rw [ht] at h2; exact Except.noConfusion h2
      | ok bs =>
        rw [ht] at h2
        have h3 : (Except.ok (y :: bs) : Except KErr (List β)) = .ok out := h2
        cases h3
        rcases List.mem_cons.1 hb with rfl | hb
        · exact ⟨y, List.mem_cons_self _ _, ha⟩
        · rcases ih bs ht b hb with ⟨y', hy', hFy⟩
          exact ⟨y', List.mem_cons_of_mem _ hy', hFy⟩

theorem mapM_get_reference_names (g : IRGraph) :
    ∀ (names : List String) (refs : List Instruction),
    names.mapM g.get_reference = .ok refs →
    refs.map (fun r => r.refName?.getD "") = names := by
  intro names
  induction names with
  | nil =>
    intro refs h
    have h2 : (Except.ok [] : Except KErr (List Instruction)) = .ok refs := h
    cases h2
    rfl
  | cons nm t ih =>
    intro refs h
    rw [List.mapM_cons] at h
    cases ha : g.get_reference nm with
    | error e => rw [ha] at h; exact Except.noConfusion h
    | ok r =>
      rw [ha] at h
      have h2 : (t.mapM g.get_reference >>= fun bs => pure (r :: bs))
          = .ok refs := h
      cases ht : t.mapM g.get_reference with
      | error e => rw [ht] at h2; exact Except.noConfusion h2
      | ok bs =>
        rw [ht] at h2
        have h3 : (Except.ok (r :: bs) : Except KErr (List Instruction))
            = .ok refs := h2
        cases h3
        rw [List.map_cons, ih bs ht,
          refNameD_of_data r nm
            (isRefNamed_data r nm (get_reference_ok_spec g nm r ha).2)]

theorem nodup_ids_of_sub (l : List Instruction) (g : IRGraph)
    (hnd : g.nodupIds) (hl : l.Nodup) (hsub : ∀ x ∈ l, x ∈ g.nodes) :
    (l.map (·.id)).Nodup := by
  refine List.Nodup.map_on ?_ hl
  intro x hx y hy hxy
  exact mem_id_unique g.nodes hnd x (hsub x hx) y (hsub y hy) hxy

theorem novar_filter (l : List Instruction) (nm : String)
    (h : ∀ n ∈ l, n.isVariable = false) :
    l.filter (Instruction.isVarNamed nm) = [] := by
  rw [List.filter_eq_nil_iff]
  intro x hx hc
  have hv : x.isVariable = true := by
    obtain ⟨i, d⟩ := x
    cases d <;> first
      | rfl
      | simp [Instruction.isVarNamed] at hc
  rw [h x hx] at hv
  exact Bool.noConfusion hv

theorem add_node_plain_any_insert (g : IRGraph) (r : Instruction) (d : Bool)
    (hm : r.id ∉ g.nodeIds)
    (hnone : (r.isSource || r.isIntermediate) = true →
      g.nodes.filter (fun x => x.data == r.data) = [])
    (hnovar : r.isIntermediate = true → ∀ n ∈ g.nodes, n.isVariable = false) :
    g.add_node_plain r d = .ok (⟨g.nodes ++ [r], g.edges⟩, r) := by
  by_cases hi : r.isIntermediate = true
  · unfold IRGraph.add_node_plain
    rw [if_neg hm, if_pos hi]
    have hsing := add_singleton_eq_nil g r
      (filter_and_nil g.nodes _ _ (hnone (by simp [hi])))
    cases d with
    | false => rw [if_neg (show ¬ (false = true) by simp)]; exact hsing
    | true =>
      rw [if_pos rfl,
        get_variable_eq_nil g (r.refName?.getD "")
          (novar_filter _ _ (hnovar hi))]
      exact hsing
  · by_cases hs : r.isSource = true
    · unfold IRGraph.add_node_plain
      rw [if_neg hm, if_neg hi, if_pos hs]
      exact add_singleton_eq_nil g r
        (filter_and_nil g.nodes _ _ (hnone (by simp [hs])))
    · exact add_node_plain_insert g r d hm
        (Bool.of_not_eq_true hi) (Bool.of_not_eq_true hs)

theorem lookup_idMap_sound (l : List Instruction) (i : NodeId)
    (u : Instruction)
    (h : (l.map (fun r => (r.id, r))).lookup i = some u) :
    u ∈ l ∧ u.id = i := by
  induction l with
  | nil => exact Option.noConfusion h
  | cons a t ih =>
    rw [List.map_cons, List.lookup_cons] at h
    by_cases hia : i = a.id
    · rw [show (i == a.id) = true from beq_iff_eq.2 hia] at h
      cases h
      exact ⟨List.mem_cons_self _ _, hia.symm⟩
    · rw [show (i == a.id) = false from beq_eq_false_iff_ne.2 hia] at h
      rcases ih h with ⟨hu, hui⟩
      exact ⟨List.mem_cons_of_mem _ hu, hui⟩

theorem lookup_idMap_mem (l : List Instruction) (i : NodeId)
    (h : i ∈ l.map (·.id)) :
    ∃ u ∈ l, (l.map (fun r => (r.id, r))).lookup i = some u ∧ u.id = i := by
  induction l with
  | nil => simp at h
  | cons a t ih =>
    rw [List.map_cons, List.lookup_cons]
    by_cases hia : i = a.id
    · refine ⟨a, List.mem_cons_self _ _, ?_, hia.symm⟩
      rw [show (i == a.id) = true from beq_iff_eq.2 hia]
    · rw [List.map_cons, List.mem_cons] at h
      rcases h with h | h
      · exact absurd h hia
      · rcases ih h with ⟨u, hu, hlk, hui⟩
        refine ⟨u, List.mem_cons_of_mem _ hu, ?_, hui⟩
        rw [show (i == a.id) = false from beq_eq_false_iff_ne.2 hia]
        exact hlk

end ClaimC6

theorem contentDistinct_head_none (pre : List Instruction) (r : Instruction)
    (rest : List Instruction)
    (hdist : contentDistinctSingletonsL (pre ++ r :: rest)) :
    (r.isSource || r.isIntermediate) = true →
    pre.filter (fun x => x.data == r.data) = [] := by
  intro hkind
  rw [List.filter_eq_nil_iff]
  intro x hx
  rcases (List.pairwise_append.1 hdist) with ⟨_, _, hcross⟩
  have hr := hcross x hx r (List.mem_cons_self _ _)
  simp only [beq_iff_eq]
  intro hdata
  have hk := kind_of_data_eq x r hdata
  have hxkind : (x.isSource || x.isIntermediate) = true := by
    rw [hk.1, hk.2]
    exact hkind
  exact hr hxkind hdata

theorem insertFoldExact :
    ∀ (l : List Instruction) (acc : IRGraph × List (NodeId × Instruction)),
    (∀ r ∈ l, r.id ∉ acc.1.nodeIds) →
    (l.map (·.id)).Nodup →
    contentDistinctSingletonsL (acc.1.nodes ++ l) →
    (∀ x ∈ l, x.isIntermediate = true →
      ∀ n ∈ acc.1.nodes ++ l, n.isVariable = false) →
    l.foldlM o2nStep acc
      = .ok (⟨acc.1.nodes ++ l, acc.1.edges⟩,
          acc.2 ++ l.map (fun r => (r.id, r))) := by
  intro l
  induction l with
  | nil =>
    intro acc _ _ _ _
    show (Except.ok acc : Except KErr _) = _
    rw [show acc.1.nodes ++ ([] : List Instruction) = acc.1.nodes from
        by simp,
      show acc.2 ++ List.map (fun r => (r.id, r)) ([] : List Instruction)
          = acc.2 from by simp]
  | cons r rest ih =>
    intro acc hfresh hnd hdist hvar
    rw [List.foldlM_cons]
    have hstep : o2nStep acc r
        = .ok ((⟨acc.1.nodes ++ [r], acc.1.edges⟩ : IRGraph),
            acc.2 ++ [(r.id, r)]) := by
      unfold o2nStep
      rw [add_node_plain_any_insert acc.1 r true (hfresh r (by simp))
        (contentDistinct_head_none acc.1.nodes r rest hdist)
        (fun hi => fun n hn =>
          hvar r (List.mem_cons_self _ _) hi n (List.mem_append_left _ hn)),
        except_bind_ok]
    rw [hstep, except_bind_ok]
    rw [List.map_cons, List.nodup_cons] at hnd
    have hres := ih ((⟨acc.1.nodes ++ [r], acc.1.edges⟩ : IRGraph),
        acc.2 ++ [(r.id, r)]) ?_ hnd.2 ?_ ?_
    · rw [hres]
      rw [show (acc.1.nodes ++ [r]) ++ rest = acc.1.nodes ++ (r :: rest) by
        rw [List.append_assoc]
        rfl]
      rw [show (acc.2 ++ [(r.id, r)]) ++ rest.map (fun r => (r.id, r))
          = acc.2 ++ (r :: rest).map (fun r => (r.id, r)) by
        rw [List.append_assoc, List.map_cons]
        rfl]
    · intro r' hr' hc
      have hc2 : r'.id ∈ acc.1.nodeIds ++ [r.id] := by
        have : ((⟨acc.1.nodes ++ [r], acc.1.edges⟩ : IRGraph)).nodeIds
            = acc.1.nodeIds ++ [r.id] := by
          show (acc.1.nodes ++ [r]).map (·.id)
              = acc.1.nodes.map (·.id) ++ [r.id]
          rw [List.map_append]
          rfl
        rw [← this]
        exact hc
      rcases List.mem_append.1 hc2 with hc2 | hc2
      · exact hfresh r' (List.mem_cons_of_mem _ hr') hc2
      · simp at hc2
        exact hnd.1 (hc2 ▸ List.mem_map_of_mem (·.id) hr')
    · show contentDistinctSingletonsL ((acc.1.nodes ++ [r]) ++ rest)
      rw [show (acc.1.nodes ++ [r]) ++ rest = acc.1.nodes ++ (r :: rest) by
        rw [List.append_assoc]
        rfl]
      exact hdist
    · intro x hx hxi n hn
      refine hvar x (List.mem_cons_of_mem _ hx) hxi n ?_
      have : (acc.1.nodes ++ [r]) ++ rest = acc.1.nodes ++ (r :: rest) := by
        rw [List.append_assoc]
        rfl
      rw [← this]
      exact hn

theorem edgeFoldExactAux :
    ∀ (es : List (NodeId × NodeId)) (l0 : List Instruction)
      (acc out : IRGraph),
    (∀ x ∈ l0, x.id ∈ acc.nodeIds) →
    es.foldlM (edgeStep (l0.map (fun r => (r.id, r)))) acc = .ok out →
    out.nodes = acc.nodes ∧
      (∀ e, e ∈ out.edges ↔ e ∈ acc.edges ∨ e ∈ es) := by
  intro es
  induction es with
  | nil =>
    intro l0 acc out _ h
    have h2 : (Except.ok acc : Except KErr IRGraph) = .ok out := h
    cases h2
    exact ⟨rfl, fun e => by simp⟩
  | cons e rest ih =>
    intro l0 acc out hmem h
    rw [List.foldlM_cons] at h
    cases hstep : edgeStep (l0.map (fun r => (r.id, r))) acc e with
    | error err =>
      rw [hstep, except_bind_error] at h
      exact Except.noConfusion h
    | ok acc2 =>
      rw [hstep, except_bind_ok] at h
      unfold edgeStep at hstep
      cases hu : (l0.map (fun r => (r.id, r))).lookup e.1 with
      | none => rw [hu] at hstep; exact Except.noConfusion hstep
      | some u =>
        cases hv : (l0.map (fun r => (r.id, r))).lookup e.2 with
        | none => rw [hu, hv] at hstep; exact Except.noConfusion hstep
        | some v =>
          rw [hu, hv] at hstep
          have hstep2 : acc.add_edge u v false = Except.ok acc2 := hstep
          rw [add_edge_of_mem acc u v false
              (hmem u (lookup_idMap_sound l0 e.1 u hu).1)
              (hmem v (lookup_idMap_sound l0 e.2 v hv).1)] at hstep2
          cases hstep2
          have hids : (acc.addEdgeRaw u.id v.id).nodeIds = acc.nodeIds := by
            show (acc.addEdgeRaw u.id v.id).nodes.map (·.id) = _
            rw [addEdgeRaw_nodes]
            rfl
          rcases ih l0 (acc.addEdgeRaw u.id v.id) out
            (fun x hx => hids ▸ hmem x hx) h with ⟨hn, he⟩
          refine ⟨by rw [hn, addEdgeRaw_nodes], ?_⟩
          intro e'
          rw [he e']
      
          have huid : u.id = e.1 := (lookup_idMap_sound l0 e.1 u hu).2
          have hvid : v.id = e.2 := (lookup_idMap_sound l0 e.2 v hv).2
          constructor
          · intro hc
            rcases hc with hc | hc
            · rcases addEdgeRaw_edges_sub acc u.id v.id e' hc with hc | hc
              · exact Or.inl hc
              · right
                rw [hc, huid, hvid]
                exact List.mem_cons_self _ _
            · exact Or.inr (List.mem_cons_of_mem _ hc)
          · intro hc
            rcases hc with hc | hc
            · exact Or.inl (addEdgeRaw_edges_mono acc u.id v.id e' hc)
            · rcases List.mem_cons.1 hc with hee | hc
              · left
                have hself := addEdgeRaw_self_mem acc u.id v.id
                have hl : e' = (u.id, v.id) := by rw [huid, hvid, hee]
                rw [hl]
                exact hself
              · exact Or.inr hc

theorem evalAdd_present (eg : IRGraphEvaluable) (u : Instruction) (d : Bool)
    (eg1 : IRGraphEvaluable) (x : Instruction)
    (h : eg.add_node_plain u d = .ok (eg1, x))
    (hm : u.id ∈ eg.graph.nodeIds) :
    eg1.graph = eg.graph ∧ x = u := by
  unfold IRGraphEvaluable.add_node_plain at h
  by_cases hi : u.isIntermediate = true
  · rw [if_pos hi] at h
    exact Except.noConfusion h
  · rw [if_neg hi] at h
    by_cases hs : u.isSource = true
    · rw [if_pos hs] at h
      cases hif : eg.interface with
      | none =>
        simp only [hif, except_bind_ok] at h
        rw [add_node_plain_mem_of_id _ u d hm] at h
        simp only [except_bind_ok] at h
        cases h
        exact ⟨rfl, rfl⟩
      | some j =>
        simp only [hif] at h
        by_cases hj : u.interfaceOf ≠ j
        · rw [if_pos hj, except_bind_error] at h
          exact Except.noConfusion h
        · rw [if_neg hj] at h
          simp only [except_bind_ok] at h
          rw [add_node_plain_mem_of_id _ u d hm] at h
          simp only [except_bind_ok] at h
          cases h
          exact ⟨rfl, rfl⟩
    · rw [if_neg hs] at h
      simp only [except_bind_ok] at h
      rw [add_node_plain_mem_of_id _ u d hm] at h
      simp only [except_bind_ok] at h
      cases h
      exact ⟨rfl, rfl⟩

theorem evalAdd_insert (eg : IRGraphEvaluable) (r : Instruction)
    (eg1 : IRGraphEvaluable) (x : Instruction)
    (h : eg.add_node_plain r true = .ok (eg1, x))
    (hm : r.id ∉ eg.graph.nodeIds)
    (hnone : (r.isSource || r.isIntermediate) = true →
      eg.graph.nodes.filter (fun x => x.data == r.data) = []) :
    eg1.graph.nodes = eg.graph.nodes ++ [r] ∧
    eg1.graph.edges = eg.graph.edges ∧ x = r := by
  unfold IRGraphEvaluable.add_node_plain at h
  by_cases hi : r.isIntermediate = true
  · rw [if_pos hi] at h
    exact Except.noConfusion h
  · rw [if_neg hi] at h
    have hins : ∀ eg1 : IRGraphEvaluable, eg1.graph = eg.graph →
        eg1.graph.add_node_plain r true
          = .ok (⟨eg.graph.nodes ++ [r], eg.graph.edges⟩, r) := by
      intro eg1 hg
      rw [hg]
      exact add_node_plain_any_insert eg.graph r true hm hnone
        (fun hi' => absurd hi' hi)
    by_cases hs : r.isSource = true
    · rw [if_pos hs] at h
      cases hif : eg.interface with
      | none =>
        simp only [hif, except_bind_ok] at h
        rw [hins { eg with interface := some r.interfaceOf } rfl] at h
        simp only [except_bind_ok] at h
        cases h
        exact ⟨rfl, rfl, rfl⟩
      | some j =>
        simp only [hif] at h
        by_cases hj : r.interfaceOf ≠ j
        · rw [if_pos hj, except_bind_error] at h
          exact Except.noConfusion h
        · rw [if_neg hj] at h
          simp only [except_bind_ok] at h
          rw [hins eg rfl] at h
          simp only [except_bind_ok] at h
          cases h
          exact ⟨rfl, rfl, rfl⟩
    · rw [if_neg hs] at h
      simp only [except_bind_ok] at h
      rw [hins eg rfl] at h
      simp only [except_bind_ok] at h
      cases h
      exact ⟨rfl, rfl, rfl⟩

theorem evalInsertFoldExact :
    ∀ (l : List Instruction)
      (acc out : IRGraphEvaluable × List (NodeId × Instruction)),
    l.foldlM evalO2nStep acc = .ok out →
    (∀ r ∈ l, r.id ∉ acc.1.graph.nodeIds) →
    (l.map (·.id)).Nodup →
    contentDistinctSingletonsL (acc.1.graph.nodes ++ l) →
    out.1.graph.nodes = acc.1.graph.nodes ++ l ∧
    out.1.graph.edges = acc.1.graph.edges ∧
    out.2 = acc.2 ++ l.map (fun r => (r.id, r)) := by
  intro l
  induction l with
  | nil =>
    intro acc out h _ _ _
    have h2 : (Except.ok acc : Except KErr _) = .ok out := h
    cases h2
    exact ⟨by simp, rfl, by simp⟩
  | cons r rest ih =>
    intro acc out h hfresh hnd hdist
    rw [List.foldlM_cons] at h
    cases hstep : evalO2nStep acc r with
    | error err =>
      rw [hstep, except_bind_error] at h
      exact Except.noConfusion h
    | ok acc1 =>
      rw [hstep, except_bind_ok] at h
      unfold evalO2nStep at hstep
      cases hadd : acc.1.add_node_plain r true with
      | error err =>
        rw [hadd, except_bind_error] at hstep
        exact Except.noConfusion hstep
      | ok p =>
        obtain ⟨eg', x⟩ := p
        rw [hadd, except_bind_ok] at hstep
        have h2 : (Except.ok (eg', acc.2 ++ [(r.id, x)])
            : Except KErr _) = .ok acc1 := hstep
        cases h2
        rcases evalAdd_insert acc.1 r eg' x hadd
          (hfresh r (List.mem_cons_self _ _))
          (contentDistinct_head_none acc.1.graph.nodes r rest hdist) with
          ⟨hgn, hge, hx⟩
        rw [hx] at h
        rw [List.map_cons, List.nodup_cons] at hnd
        have hfr2 : ∀ r' ∈ rest, r'.id ∉ eg'.graph.nodeIds := by
          intro r' hr' hc
          have hq : eg'.graph.nodeIds = acc.1.graph.nodeIds ++ [r.id] := by
            show eg'.graph.nodes.map (·.id) = _
            rw [hgn, List.map_append]
            rfl
          rw [hq] at hc
          rcases List.mem_append.1 hc with hc2 | hc2
          · exact hfresh r' (List.mem_cons_of_mem _ hr') hc2
          · simp at hc2
            exact hnd.1 (hc2 ▸ List.mem_map_of_mem (·.id) hr')
        have hdist2 : contentDistinctSingletonsL (eg'.graph.nodes ++ rest) := by
          rw [hgn, List.append_assoc]
          exact hdist
        rcases ih (eg', acc.2 ++ [(r.id, r)]) out h hfr2 hnd.2 hdist2 with
          ⟨hn, he, ho⟩
        refine ⟨?_, ?_, ?_⟩
        · rw [hn, hgn, List.append_assoc]
          rfl
        · rw [he, hge]
        · rw [ho, List.map_cons, List.append_assoc]
          rfl

theorem evalAddEdge_present (eg : IRGraphEvaluable) (u v : Instruction)
    (out : IRGraphEvaluable) (h : eg.add_edge u v false = .ok out)
    (hu : u.id ∈ eg.graph.nodeIds) (hv : v.id ∈ eg.graph.nodeIds) :
    out.graph = eg.graph.addEdgeRaw u.id v.id := by
  unfold IRGraphEvaluable.add_edge at h
  cases h1 : eg.add_node_plain u false with
  | error err =>
    rw [h1, except_bind_error] at h
    exact Except.noConfusion h
  | ok p1 =>
    obtain ⟨eg1, ux⟩ := p1
    rcases evalAdd_present eg u false eg1 ux h1 hu with ⟨hg1, hux⟩
    rw [h1] at h
    simp only [except_bind_ok] at h
    cases h2 : eg1.add_node_plain v false with
    | error err =>
      rw [h2] at h
      simp only [except_bind_error] at h
      exact Except.noConfusion h
    | ok p2 =>
      obtain ⟨eg2, vx⟩ := p2
      rcases evalAdd_present eg1 v false eg2 vx h2 (hg1 ▸ hv) with
        ⟨hg2, hvx⟩
      rw [h2] at h
      simp only [except_bind_ok] at h
      have h3 : (Except.ok { eg2 with graph := eg2.graph.addEdgeRaw ux.id vx.id }
          : Except KErr IRGraphEvaluable) = .ok out := h
      cases h3
      show eg2.graph.addEdgeRaw ux.id vx.id = _
      rw [hg2, hg1, hux, hvx]

theorem evalEdgeFoldExactAux :
    ∀ (es : List (NodeId × NodeId)) (l0 : List Instruction)
      (acc out : IRGraphEvaluable),
    (∀ x ∈ l0, x.id ∈ acc.graph.nodeIds) →
    es.foldlM (evalEdgeStep (l0.map (fun r => (r.id, r)))) acc = .ok out →
    out.graph.nodes = acc.graph.nodes ∧
      (∀ e, e ∈ out.graph.edges ↔ e ∈ acc.graph.edges ∨ e ∈ es) := by
  intro es
  induction es with
  | nil =>
    intro l0 acc out _ h
    have h2 : (Except.ok acc : Except KErr IRGraphEvaluable) = .ok out := h
    cases h2
    exact ⟨rfl, fun e => by simp⟩
  | cons e rest ih =>
    intro l0 acc out hmem h
    rw [List.foldlM_cons] at h
    cases hstep : evalEdgeStep (l0.map (fun r => (r.id, r))) acc e with
    | error err =>
      rw [hstep, except_bind_error] at h
      exact Except.noConfusion h
    | ok acc2 =>
      rw [hstep, except_bind_ok] at h
      unfold evalEdgeStep at hstep
      cases hu : (l0.map (fun r => (r.id, r))).lookup e.1 with
      | none => rw [hu] at hstep; exact Except.noConfusion hstep
      | some u =>
        cases hv : (l0.map (fun r => (r.id, r))).lookup e.2 with
        | none => rw [hu, hv] at hstep; exact Except.noConfusion hstep
        | some v =>
          rw [hu, hv] at hstep
          have hacc2 : acc2.graph = acc.graph.addEdgeRaw u.id v.id :=
            evalAddEdge_present acc u v acc2 hstep
              (hmem u (lookup_idMap_sound l0 e.1 u hu).1)
              (hmem v (lookup_idMap_sound l0 e.2 v hv).1)
          have hids : acc2.graph.nodeIds = acc.graph.nodeIds := by
            show acc2.graph.nodes.map (·.id) = _
            rw [hacc2, addEdgeRaw_nodes]
            rfl
          rcases ih l0 acc2 out (fun x hx => hids ▸ hmem x hx) h with ⟨hn, he⟩
          refine ⟨by rw [hn, hacc2, addEdgeRaw_nodes], ?_⟩
          intro e'
          rw [he e', hacc2]
          have huid : u.id = e.1 := (lookup_idMap_sound l0 e.1 u hu).2
          have hvid : v.id = e.2 := (lookup_idMap_sound l0 e.2 v hv).2
          constructor
          · intro hc
            rcases hc with hc | hc
            · rcases addEdgeRaw_edges_sub acc.graph u.id v.id e' hc with
                hc | hc
              · exact Or.inl hc
              · right
                rw [hc, huid, hvid]
                exact List.mem_cons_self _ _
            · exact Or.inr (List.mem_cons_of_mem _ hc)
          · intro hc
            rcases hc with hc | hc
            · exact Or.inl (addEdgeRaw_edges_mono acc.graph u.id v.id e' hc)
            · rcases List.mem_cons.1 hc with hee | hc
              · left
                have hself := addEdgeRaw_self_mem acc.graph u.id v.id
                have hl : e' = (u.id, v.id) := by rw [huid, hvid, hee]
                rw [hl]
                exact hself
              · exact Or.inr hc

theorem interm_data (x : Instruction) (h : x.isIntermediate = true) :
    ∃ nm, x.data = .reference nm := by
  obtain ⟨i, d⟩ := x
  cases d with
  | reference n => exact ⟨n, rfl⟩
  | dataSource a b => simp [Instruction.isIntermediate] at h
  | var a b => simp [Instruction.isIntermediate] at h
  | ret a => simp [Instruction.isIntermediate] at h
  | trans a => simp [Instruction.isIntermediate] at h

theorem refs_content_distinct (refs : List Instruction)
    (hnames : (refs.map (fun r => r.refName?.getD "")).Nodup)
    (hint : ∀ r ∈ refs, r.isIntermediate = true) :
    contentDistinctSingletonsL refs := by
  refine List.Pairwise.imp_of_mem ?_ (List.pairwise_map.1 hnames)
  intro a b ha hb hne
  intro _ hdata
  obtain ⟨nm, hda⟩ := interm_data a (hint a ha)
  apply hne
  rw [refNameD_of_data a nm hda, refNameD_of_data b nm (hdata ▸ hda)]

theorem mem_refs_of_intermediate (sg : IRGraph) (refs : List Instruction)
    (hr : sg.get_references = .ok refs) :
    ∀ x ∈ sg.nodes, x.isIntermediate = true → x ∈ refs := by
  intro x hx hxi
  obtain ⟨nm, hdata⟩ := interm_data x hxi
  have hnm : nm ∈ sg.refNames := by
    unfold IRGraph.refNames
    apply List.mem_dedup.2
    refine List.mem_filterMap.2 ⟨x, hx, ?_⟩
    unfold Instruction.refName?
    rw [hdata]
  have hr2 : sg.refNames.mapM sg.get_reference = .ok refs := hr
  obtain ⟨r, hrr, hok⟩ :=
    mapM_ok_forall sg.get_reference sg.refNames refs hr2 nm hnm
  have hfil := get_reference_ok_filter sg nm r hok
  have hxf : x ∈ sg.nodes.filter (Instruction.isRefNamed nm) := by
    refine List.mem_filter.2 ⟨hx, ?_⟩
    unfold Instruction.isRefNamed
    rw [hdata]
    simp
  rw [hfil] at hxf
  simp at hxf
  rw [hxf]
  exact hrr

theorem refs_nonrefs_distinct (sg : IRGraph) (refs : List Instruction)
    (hr : sg.get_references = .ok refs)
    (hnd : sg.nodupIds)
    (hdist : contentDistinctSingletonsL sg.nodes)
    (hnames : (refs.map (fun r => r.refName?.getD "")).Nodup) :
    contentDistinctSingletonsL
      (refs ++ sg.nodes.filter (fun n => n.id ∉ refs.map (·.id))) := by
  have hrint : ∀ r ∈ refs, r.isIntermediate = true :=
    fun r h0 => (get_references_spec sg refs hr r h0).2
  refine List.pairwise_append.2
    ⟨refs_content_distinct refs hnames hrint,
     hdist.sublist (List.filter_sublist _), ?_⟩
  intro r hrmem n hnmem
  intro _ hdata
  obtain ⟨nm, hda⟩ := interm_data r (hrint r hrmem)
  have hndata : n.data = .reference nm := hdata ▸ hda
  have hnint : n.isIntermediate = true := intermediate_of_data n nm hndata
  have hnmemg : n ∈ sg.nodes := (List.mem_filter.1 hnmem).1
  have hninrefs : n ∈ refs := mem_refs_of_intermediate sg refs hr n hnmemg hnint
  have hpred := (List.mem_filter.1 hnmem).2
  exact absurd (List.mem_map_of_mem (·.id) hninrefs)
    (of_decide_eq_true hpred)

theorem update_empty_spec (sg g' h' : IRGraph)
    (hu : IRGraph.empty.update sg = .ok (g', h'))
    (hnd : sg.nodupIds)
    (hdist : contentDistinctSingletonsL sg.nodes) :
    h' = sg ∧
    (∀ x, x ∈ g'.nodes ↔ x ∈ sg.nodes) ∧
    (∀ e, e ∈ g'.edges ↔ e ∈ sg.edges) ∧
    g'.nodupIds ∧ contentDistinctSingletonsL g'.nodes := by
  rcases update_destruct IRGraph.empty sg g' h' hu with
    ⟨hm, refs, g1, o2nR, g2, o2n, hr0, hf1, hf2, hf3⟩
  have hh' : h' = sg := by
    have h0 := mutated_empty sg
    rw [hm] at h0
    exact Except.ok.inj h0
  rw [hh'] at hr0 hf2 hf3
  have hnames : (refs.map (fun r => r.refName?.getD "")).Nodup := by
    rw [mapM_get_reference_names sg sg.refNames refs hr0]
    unfold IRGraph.refNames
    exact List.nodup_dedup _
  have hrint : ∀ r ∈ refs, r.isIntermediate = true :=
    fun r h0 => (get_references_spec sg refs hr0 r h0).2
  have hrsub : ∀ r ∈ refs, r ∈ sg.nodes :=
    fun r h0 => (get_references_spec sg refs hr0 r h0).1
  have hrnodup : refs.Nodup := List.Nodup.of_map _ hnames
  have hrids := nodup_ids_of_sub refs sg hnd hrnodup hrsub
  have hrdist : contentDistinctSingletonsL refs :=
    refs_content_distinct refs hnames hrint
  have hrfold := insertFoldExact refs
    ((IRGraph.empty, []) : IRGraph × List (NodeId × Instruction))
    (fun r _ hc => by simp [IRGraph.empty, IRGraph.nodeIds] at hc)
    hrids hrdist
    (fun x _ _ n hn => not_var_of_ref n (hrint n hn))
  rw [hf1] at hrfold
  have hp1 := Except.ok.inj hrfold
  have hg1 : g1 = (⟨refs, []⟩ : IRGraph) := congrArg Prod.fst hp1
  have ho2nR : o2nR = refs.map (fun r => (r.id, r)) := congrArg Prod.snd hp1
  subst hg1
  subst ho2nR
  have hnr_fresh : ∀ n ∈ sg.nodes.filter (fun n => n.id ∉ refs.map (·.id)),
      n.id ∉ ((⟨refs, []⟩ : IRGraph) : IRGraph).nodeIds := by
    intro n hn hc
    exact absurd hc (of_decide_eq_true (List.mem_filter.1 hn).2)
  have hnr_ids :
      ((sg.nodes.filter (fun n => n.id ∉ refs.map (·.id))).map (·.id)).Nodup :=
    hnd.sublist ((List.filter_sublist sg.nodes).map _)
  have hnr_dist := refs_nonrefs_distinct sg refs hr0 hnd hdist hnames
  have hnr_novar : ∀ x ∈ sg.nodes.filter (fun n => n.id ∉ refs.map (·.id)),
      x.isIntermediate = true →
      ∀ n ∈ (⟨refs, []⟩ : IRGraph).nodes
          ++ sg.nodes.filter (fun n => n.id ∉ refs.map (·.id)),
        n.isVariable = false := by
    intro x hx hxi
    have hin : x.id ∈ refs.map (·.id) :=
      List.mem_map_of_mem (·.id)
        (mem_refs_of_intermediate sg refs hr0 x (List.mem_filter.1 hx).1 hxi)
    exact absurd hin (of_decide_eq_true (List.mem_filter.1 hx).2)
  have hnfold := insertFoldExact
    (sg.nodes.filter (fun n => n.id ∉ refs.map (·.id)))
    (((⟨refs, []⟩ : IRGraph), refs.map (fun r => (r.id, r)))
      : IRGraph × List (NodeId × Instruction))
    hnr_fresh hnr_ids hnr_dist hnr_novar
  rw [hf2] at hnfold
  have hp2 := Except.ok.inj hnfold
  have hg2 : g2 = (⟨refs ++ sg.nodes.filter (fun n => n.id ∉ refs.map (·.id)),
      []⟩ : IRGraph) := congrArg Prod.fst hp2
  have ho2n : o2n = refs.map (fun r => (r.id, r))
      ++ (sg.nodes.filter (fun n => n.id ∉ refs.map (·.id))).map
        (fun r => (r.id, r)) := congrArg Prod.snd hp2
  subst hg2
  subst ho2n
  rw [← List.map_append] at hf3
  have hmeml0 : ∀ x ∈ refs ++ sg.nodes.filter
      (fun n => n.id ∉ refs.map (·.id)),
      x.id ∈ ((⟨refs ++ sg.nodes.filter (fun n => n.id ∉ refs.map (·.id)),
        []⟩ : IRGraph)).nodeIds :=
    fun x hx => List.mem_map_of_mem (·.id) hx
  rcases edgeFoldExactAux sg.edges
    (refs ++ sg.nodes.filter (fun n => n.id ∉ refs.map (·.id)))
    _ g' hmeml0 hf3 with ⟨hn, he⟩
  have hsetnodes : ∀ x, x ∈ g'.nodes ↔ x ∈ sg.nodes := by
    intro x
    rw [hn]
    show x ∈ refs ++ sg.nodes.filter (fun n => n.id ∉ refs.map (·.id)) ↔ _
    constructor
    · intro hc
      rcases List.mem_append.1 hc with hc | hc
      · exact hrsub x hc
      · exact (List.mem_filter.1 hc).1
    · intro hx
      by_cases hxi : x.id ∈ refs.map (·.id)
      · obtain ⟨r, hrr, hid⟩ := List.mem_map.1 hxi
        have hrx : r = x :=
          mem_id_unique sg.nodes hnd r (hrsub r hrr) x hx hid
        exact List.mem_append_left _ (hrx ▸ hrr)
      · exact List.mem_append_right _
          (List.mem_filter.2 ⟨hx, decide_eq_true hxi⟩)
  refine ⟨hh', hsetnodes, ?_, ?_, ?_⟩
  · intro e
    rw [he e]
    constructor
    · intro hc
      rcases hc with hc | hc
      · exact absurd hc (by simp)
      · exact hc
    · exact fun hc => Or.inr hc
  · show g'.nodeIds.Nodup
    have hq : g'.nodeIds = (refs ++ sg.nodes.filter
        (fun n => n.id ∉ refs.map (·.id))).map (·.id) := by
      show g'.nodes.map (·.id) = _
      rw [hn]
    rw [hq, List.map_append]
    refine List.Nodup.append hrids hnr_ids ?_
    intro i hi hcon
    obtain ⟨n, hnn, hni⟩ := List.mem_map.1 hcon
    have hpred := of_decide_eq_true (List.mem_filter.1 hnn).2
    exact hpred (hni ▸ hi)
  · show contentDistinctSingletonsL g'.nodes
    rw [hn]
    exact hnr_dist

theorem evalUpdate_destruct (eg : IRGraphEvaluable) (h : IRGraph)
    (st : IRGraphEvaluable) (h' : IRGraph)
    (hu : eg.update h = .ok (st, h')) :
    eg.graph.mutated h = .ok h' ∧
    ∃ refs eg1 o2nR eg2 o2n,
      h'.get_references = .ok refs ∧
      refs.foldlM evalO2nStep (eg, ([] : List (NodeId × Instruction)))
        = .ok (eg1, o2nR) ∧
      (h'.nodes.filter (fun n => n.id ∉ refs.map (·.id))).foldlM evalO2nStep
        (eg1, o2nR) = .ok (eg2, o2n) ∧
      h'.edges.foldlM (evalEdgeStep o2n) eg2 = .ok st := by
  unfold IRGraphEvaluable.update at hu
  cases hm : eg.graph.mutated h with
  | error e => rw [hm] at hu; exact Except.noConfusion hu
  | ok hh =>
    simp only [hm, except_bind_ok] at hu
    cases hr : hh.get_references with
    | error e => rw [hr] at hu; exact Except.noConfusion hu
    | ok refs =>
      simp only [hr, except_bind_ok] at hu
      cases hf1 : refs.foldlM evalO2nStep
          (eg, ([] : List (NodeId × Instruction))) with
      | error e => rw [hf1] at hu; exact Except.noConfusion hu
      | ok p1 =>
        obtain ⟨eg1, o2nR⟩ := p1
        simp only [hf1, except_bind_ok] at hu
        cases hf2 : (hh.nodes.filter
            (fun n => n.id ∉ refs.map (·.id))).foldlM evalO2nStep
            (eg1, o2nR) with
        | error e => rw [hf2] at hu; exact Except.noConfusion hu
        | ok p2 =>
          obtain ⟨eg2, o2n⟩ := p2
          simp only [hf2, except_bind_ok] at hu
          cases hf3 : hh.edges.foldlM (evalEdgeStep o2n) eg2 with
          | error e => rw [hf3] at hu; exact Except.noConfusion hu
          | ok eg3 =>
            simp only [hf3, except_bind_ok] at hu
            have h2 : (Except.ok (eg3, hh)
                : Except KErr (IRGraphEvaluable × IRGraph)) = .ok (st, h') :=
              hu
            cases h2
            refine ⟨?_, refs, eg1, o2nR, eg2, o2n, ?_, ?_, ?_, ?_⟩ <;>
              first
                | exact rfl
                | exact hm
                | exact hr
                | exact hf1
                | exact hf2
                | exact hf3

theorem evalRefsFold_nil (refs : List Instruction)
    (hrint : ∀ r ∈ refs, r.isIntermediate = true)
    (acc out : IRGraphEvaluable × List (NodeId × Instruction))
    (hf : refs.foldlM evalO2nStep acc = .ok out) : refs = [] := by
  cases refs with
  | nil => rfl
  | cons r t =>
    exfalso
    rw [List.foldlM_cons] at hf
    have hstep : evalO2nStep acc r = .error .inevaluableInstruction := by
      unfold evalO2nStep
      have hadd : acc.1.add_node_plain r true
          = .error .inevaluableInstruction := by
        unfold IRGraphEvaluable.add_node_plain
        rw [if_pos (hrint r (List.mem_cons_self _ _))]
      rw [hadd, except_bind_error]
    rw [hstep, except_bind_error] at hf
    exact Except.noConfusion hf

theorem evalUpdate_empty_spec (s : IRGraph) (st : IRGraphEvaluable)
    (s' : IRGraph)
    (hu : IRGraphEvaluable.update ⟨IRGraph.empty, none⟩ s = .ok (st, s'))
    (hnd : s.nodupIds)
    (hdist : contentDistinctSingletonsL s.nodes) :
    st.graph.nodes = s.nodes ∧ (∀ e, e ∈ st.graph.edges ↔ e ∈ s.edges) := by
  rcases evalUpdate_destruct ⟨IRGraph.empty, none⟩ s st s' hu with
    ⟨hm, refs, eg1, o2nR, eg2, o2n, hr0, hf1, hf2, hf3⟩
  have hh' : s' = s := by
    have h0 := mutated_empty s
    rw [hm] at h0
    exact Except.ok.inj h0
  rw [hh'] at hr0 hf2 hf3
  have hrint : ∀ r ∈ refs, r.isIntermediate = true :=
    fun r h0 => (get_references_spec s refs hr0 r h0).2
  have hrnil : refs = [] := evalRefsFold_nil refs hrint _ _ hf1
  subst hrnil
  have hp1 := Except.ok.inj
    (show (Except.ok ((⟨IRGraph.empty, none⟩ : IRGraphEvaluable),
        ([] : List (NodeId × Instruction)))
      : Except KErr (IRGraphEvaluable × List (NodeId × Instruction)))
      = .ok (eg1, o2nR) from hf1)
  have heg1 : eg1 = ⟨IRGraph.empty, none⟩ := (congrArg Prod.fst hp1).symm
  have ho2nR : o2nR = [] := (congrArg Prod.snd hp1).symm
  subst heg1
  subst ho2nR
  have hft : s.nodes.filter
      (fun n => n.id ∉ ([] : List Instruction).map (·.id)) = s.nodes :=
    List.filter_eq_self.2 (fun x _ => by simp)
  rw [hft] at hf2
  rcases evalInsertFoldExact s.nodes
    ((⟨IRGraph.empty, none⟩, [])
      : IRGraphEvaluable × List (NodeId × Instruction))
    (eg2, o2n) hf2
    (fun r _ hc => by simp [IRGraph.empty, IRGraph.nodeIds] at hc)
    hnd hdist with ⟨hn2, he2, ho2⟩
  have hn2' : eg2.graph.nodes = s.nodes := hn2
  have he2' : eg2.graph.edges = ([] : List (NodeId × NodeId)) := he2
  have ho2' : o2n = s.nodes.map (fun r => (r.id, r)) := ho2
  subst ho2'
  have hmem : ∀ x ∈ s.nodes, x.id ∈ eg2.graph.nodeIds := by
    intro x hx
    show x.id ∈ eg2.graph.nodes.map (·.id)
    rw [hn2']
    exact List.mem_map_of_mem _ hx
  rcases evalEdgeFoldExactAux s.edges s.nodes eg2 st hmem hf3 with ⟨hn3, he3⟩
  refine ⟨by rw [hn3, hn2'], ?_⟩
  intro e
  rw [he3 e, he2']
  simp

theorem copy_spec (sg g1 : IRGraph) (hc : sg.copy = .ok g1)
    (hnd : sg.nodupIds) (hdist : contentDistinctSingletonsL sg.nodes) :
    (∀ x, x ∈ g1.nodes ↔ x ∈ sg.nodes) ∧
    (∀ e, e ∈ g1.edges ↔ e ∈ sg.edges) ∧
    g1.nodupIds ∧ contentDistinctSingletonsL g1.nodes := by
  unfold IRGraph.copy at hc
  cases hup : IRGraph.empty.update sg with
  | error e => rw [hup] at hc; exact Except.noConfusion hc
  | ok p =>
    obtain ⟨ga, hb⟩ := p
    rw [hup] at hc
    have hc2 : (Except.ok ga : Except KErr IRGraph) = .ok g1 := hc
    have hg := Except.ok.inj hc2
    subst hg
    rcases update_empty_spec sg ga hb hup hnd hdist with
      ⟨_, hn, he, hnd1, hdist1⟩
    exact ⟨hn, he, hnd1, hdist1⟩

theorem induced_nodup (g : IRGraph) (p : NodeId → Bool) (hnd : g.nodupIds) :
    (g.inducedIds p).nodupIds :=
  hnd.sublist ((List.filter_sublist _).map _)

theorem induced_dist (g : IRGraph) (p : NodeId → Bool)
    (hdist : contentDistinctSingletonsL g.nodes) :
    contentDistinctSingletonsL (g.inducedIds p).nodes :=
  hdist.sublist (List.filter_sublist _)

theorem induced_nodes_sub (g : IRGraph) (p : NodeId → Bool) :
    ∀ x ∈ (g.inducedIds p).nodes, x ∈ g.nodes ∧ p x.id = true := by
  intro x hx
  exact ⟨(List.mem_filter.1 hx).1, (List.mem_filter.1 hx).2⟩

theorem induced_nodes_mem (g : IRGraph) (p : NodeId → Bool) :
    ∀ x ∈ g.nodes, p x.id = true → x ∈ (g.inducedIds p).nodes := by
  intro x hx hp
  exact List.mem_filter.2 ⟨hx, hp⟩

theorem induced_edges_sub (g : IRGraph) (p : NodeId → Bool) :
    ∀ e ∈ (g.inducedIds p).edges,
      e ∈ g.edges ∧ p e.1 = true ∧ p e.2 = true := by
  intro e he
  have h2 := (List.mem_filter.1 he).2
  rw [Bool.and_eq_true] at h2
  exact ⟨(List.mem_filter.1 he).1, h2.1, h2.2⟩

theorem induced_closed (g : IRGraph) (p : NodeId → Bool)
    (hcl : g.edgesClosed) : (g.inducedIds p).edgesClosed := by
  intro e he
  rcases induced_edges_sub g p e he with ⟨heg, hp1, hp2⟩
  rcases hcl e heg with ⟨h1, h2⟩
  constructor
  · obtain ⟨n, hn, hni⟩ := List.mem_map.1 h1
    refine List.mem_map.2 ⟨n, induced_nodes_mem g p n hn (by rw [hni]; exact hp1), hni⟩
  · obtain ⟨n, hn, hni⟩ := List.mem_map.1 h2
    refine List.mem_map.2 ⟨n, induced_nodes_mem g p n hn (by rw [hni]; exact hp2), hni⟩

theorem reachesIn_congr (g g2 : IRGraph)
    (hedges : ∀ e, e ∈ g.edges ↔ e ∈ g2.edges) :
    ∀ k u v, reachesIn g k u v = reachesIn g2 k u v := by
  intro k
  induction k with
  | zero => intro u v; rfl
  | succ k ih =>
    intro u v
    show (u == v || g.edges.any (fun e => e.1 == u && reachesIn g k e.2 v))
      = (u == v || g2.edges.any (fun e => e.1 == u && reachesIn g2 k e.2 v))
    refine Bool.eq_iff_iff.2 ?_
    simp only [Bool.or_eq_true, List.any_eq_true, Bool.and_eq_true]
    constructor
    · rintro (h | ⟨e, he, h1, h2⟩)
      · exact Or.inl h
      · exact Or.inr ⟨e, (hedges e).1 he, h1, by rw [← ih e.2 v]; exact h2⟩
    · rintro (h | ⟨e, he, h1, h2⟩)
      · exact Or.inl h
      · exact Or.inr ⟨e, (hedges e).2 he, h1, by rw [ih e.2 v]; exact h2⟩

theorem nodup_set_length_eq (l1 l2 : List Instruction)
    (h1 : l1.Nodup) (h2 : l2.Nodup) (hs : ∀ a, a ∈ l1 ↔ a ∈ l2) :
    l1.length = l2.length :=
  ((List.perm_ext_iff_of_nodup h1 h2).2 hs).length_eq

theorem find_cached_destruct (g : IRGraph) (n : Instruction)
    (C : List NodeId) (g0 : IRGraph)
    (h : g.find_cached_dependent_subgraph_of_node n C = .ok g0) :
    ∃ g1, (g.dependentSubgraphRaw n.id).copy = .ok g1 ∧
      (({ g1 with edges := (g1.edges.filter (fun e => !(decide (e.2 ∈ C) && decide (e.2 ∈ g1.nodeIds)))) } : IRGraph).dependentSubgraphRaw n.id).copy = .ok g0 := by
  unfold IRGraph.find_cached_dependent_subgraph_of_node
    IRGraph.duplicate_dependent_subgraph_of_node at h
  cases h1 : (g.dependentSubgraphRaw n.id).copy with
  | error e => rw [h1, except_bind_error] at h; exact Except.noConfusion h
  | ok g1 =>
    rw [h1] at h
    simp only [except_bind_ok] at h
    exact ⟨g1, rfl, h⟩

theorem mkEvaluable_spec (s : IRGraph) (eg : IRGraphEvaluable)
    (h : mkEvaluable s = .ok eg) (hnd : s.nodupIds)
    (hdist : contentDistinctSingletonsL s.nodes) :
    eg.graph.nodes = s.nodes ∧ (∀ e, e ∈ eg.graph.edges ↔ e ∈ s.edges) := by
  unfold mkEvaluable at h
  cases hup : IRGraphEvaluable.update ⟨IRGraph.empty, none⟩ s with
  | error e => rw [hup, except_bind_error] at h; exact Except.noConfusion h
  | ok p =>
    obtain ⟨st, s'⟩ := p
    rw [hup] at h
    simp only [except_bind_ok] at h
    have h2 : (Except.ok { st with interface := (some (st.interface.getD CACHE_INTERFACE_IDENTIFIER)) }
      : Except KErr IRGraphEvaluable) = .ok eg := h
    cases h2
    rcases evalUpdate_empty_spec s st s' hup hnd hdist with ⟨hn, he⟩
    exact ⟨hn, he⟩

theorem find_dep_destruct (g : IRGraph) (n : Instruction) (C : List NodeId)
    (subs : List IRGraphEvaluable)
    (h : g.find_dependent_subgraphs_of_node n C = .ok subs) :
    ∃ g0, g.find_cached_dependent_subgraph_of_node n C = .ok g0 ∧
      ∀ eg ∈ subs, ∃ ns : List NodeId,
        mkEvaluable (g0.inducedIds (fun i => decide (i ∈ ns))) = .ok eg := by
  unfold IRGraph.find_dependent_subgraphs_of_node at h
  cases h0 : g.find_cached_dependent_subgraph_of_node n C with
  | error e => rw [h0, except_bind_error] at h; exact Except.noConfusion h
  | ok g0 =>
    rw [h0] at h
    simp only [except_bind_ok] at h
    refine ⟨g0, rfl, ?_⟩
    intro eg hin
    rcases mapM_ok_mem _ _ subs h eg hin with ⟨ns, _, hok⟩
    exact ⟨ns, hok⟩

theorem mem_ids_transfer (l1 l2 : List Instruction)
    (hset : ∀ x, x ∈ l1 ↔ x ∈ l2) :
    ∀ i, i ∈ l1.map (·.id) ↔ i ∈ l2.map (·.id) := by
  intro i
  constructor
  · intro h
    obtain ⟨x, hx, hxi⟩ := List.mem_map.1 h
    exact List.mem_map.2 ⟨x, (hset x).1 hx, hxi⟩
  · intro h
    obtain ⟨x, hx, hxi⟩ := List.mem_map.1 h
    exact List.mem_map.2 ⟨x, (hset x).2 hx, hxi⟩

/-- C6: segmenter cache correctness.  For a well-formed graph (distinct node
ids, content-distinct singleton-kind nodes, edges between its own nodes),
every evaluable subgraph emitted by find_dependent_subgraphs_of_node contains
a node whose id is cached only as a boundary with zero incoming edges, and
every node of every emitted subgraph still reaches the target once the
incoming edges of cached nodes are cut inside the dependent subgraph of the
target (so nodes disconnected by the cut are discarded). -/
theorem claim_C6 (g : IRGraph) (n : Instruction) (C : List NodeId)
    (subs : List IRGraphEvaluable)
    (hnd : g.nodupIds) (hdist : g.contentDistinctSingletons)
    (hcl : g.edgesClosed)
    (hu : g.find_dependent_subgraphs_of_node n C = .ok subs) :
    ∀ eg ∈ subs,
      (∀ c ∈ eg.graph.nodes, c.id ∈ C → eg.graph.inDeg c.id = 0) ∧
      (∀ m ∈ eg.graph.nodes, specCutReach g n.id C m.id = true) := by
  obtain ⟨g0, h0, hmk⟩ := find_dep_destruct g n C subs hu
  obtain ⟨g1, hcopy1, hcopy2⟩ := find_cached_destruct g n C g0 h0
  obtain ⟨pr, hpr⟩ : ∃ pr : IRGraph,
      ({ g1 with edges := (g1.edges.filter (fun e => !(decide (e.2 ∈ C) && decide (e.2 ∈ g1.nodeIds)))) } : IRGraph) = pr :=
    ⟨_, rfl⟩
  rw [hpr] at hcopy2
  have hpr_nodes : pr.nodes = g1.nodes := by rw [← hpr]
  have hpr_edges : pr.edges
      = g1.edges.filter
        (fun e => !(decide (e.2 ∈ C) && decide (e.2 ∈ g1.nodeIds))) := by
    rw [← hpr]
  have hd_nd : (g.dependentSubgraphRaw n.id).nodupIds := induced_nodup g _ hnd
  have hd_dist :
      contentDistinctSingletonsL (g.dependentSubgraphRaw n.id).nodes :=
    induced_dist g _ hdist
  rcases copy_spec (g.dependentSubgraphRaw n.id) g1 hcopy1 hd_nd hd_dist with
    ⟨h1n, h1e, h1nd, h1dist⟩
  have hpr_nd : pr.nodupIds := by
    show pr.nodeIds.Nodup
    have : pr.nodeIds = g1.nodeIds := by
      show pr.nodes.map (·.id) = _
      rw [hpr_nodes]
      rfl
    rw [this]
    exact h1nd
  have hpr_dist : contentDistinctSingletonsL pr.nodes := by
    rw [hpr_nodes]
    exact h1dist
  have hd2_nd := induced_nodup pr (pr.depFilter n.id) hpr_nd
  have hd2_dist := induced_dist pr (pr.depFilter n.id) hpr_dist
  rcases copy_spec (pr.dependentSubgraphRaw n.id) g0 hcopy2 hd2_nd hd2_dist
    with ⟨h0n, h0e, h0nd, h0dist⟩
  intro eg hin
  obtain ⟨ns, hok⟩ := hmk eg hin
  have hs_nd := induced_nodup g0 (fun i => decide (i ∈ ns)) h0nd
  have hs_dist := induced_dist g0 (fun i => decide (i ∈ ns)) h0dist
  rcases mkEvaluable_spec _ eg hok hs_nd hs_dist with ⟨hegn, hege⟩
  have hnode_chain : ∀ c ∈ eg.graph.nodes, c ∈ g1.nodes ∧
      pr.depFilter n.id c.id = true := by
    intro c hc
    have hcs : c ∈ (g0.inducedIds (fun i => decide (i ∈ ns))).nodes := by
      rw [← hegn]
      exact hc
    have hc0 : c ∈ g0.nodes := (induced_nodes_sub g0 _ c hcs).1
    have hcd2 := (h0n c).1 hc0
    refine ⟨?_, (induced_nodes_sub pr _ c hcd2).2⟩
    have := (induced_nodes_sub pr _ c hcd2).1
    rw [hpr_nodes] at this
    exact this
  have hedge_chain : ∀ e ∈ eg.graph.edges, e ∈ g1.edges ∧
      (!(decide (e.2 ∈ C) && decide (e.2 ∈ g1.nodeIds))) = true := by
    intro e he
    have hes : e ∈ (g0.inducedIds (fun i => decide (i ∈ ns))).edges :=
      (hege e).1 he
    have he0 : e ∈ g0.edges := (induced_edges_sub g0 _ e hes).1
    have hed2 := (h0e e).1 he0
    have hepr := (induced_edges_sub pr _ e hed2).1
    rw [hpr_edges] at hepr
    exact ⟨(List.mem_filter.1 hepr).1, (List.mem_filter.1 hepr).2⟩
  constructor
  · intro c hc hcC
    show (eg.graph.edges.filter (fun e => e.2 == c.id)).length = 0
    rw [List.length_eq_zero, List.filter_eq_nil_iff]
    intro e he hbe
    have heq : e.2 = c.id := by simpa using hbe
    rcases hedge_chain e he with ⟨_, hb⟩
    have hdc1 : decide (e.2 ∈ C) = true := decide_eq_true (heq ▸ hcC)
    have hdc2 : decide (e.2 ∈ g1.nodeIds) = true := by
      refine decide_eq_true ?_
      rw [heq]
      exact List.mem_map_of_mem (·.id) (hnode_chain c hc).1
    rw [hdc1, hdc2] at hb
    simp at hb
  · intro m hm
    rcases hnode_chain m hm with ⟨hmg1, hfilt⟩
    unfold IRGraph.depFilter at hfilt
    rw [Bool.and_eq_true] at hfilt
    show (⟨(g.dependentSubgraphRaw n.id).nodes,
        (g.dependentSubgraphRaw n.id).edges.filter
          (fun e => decide (e.2 ∉ C))⟩ : IRGraph).depFilter n.id m.id = true
    have hmd : m ∈ (g.dependentSubgraphRaw n.id).nodes := (h1n m).1 hmg1
    have hedset : ∀ e, e ∈ pr.edges ↔
        e ∈ ((g.dependentSubgraphRaw n.id).edges.filter
          (fun e => decide (e.2 ∉ C))) := by
      intro e
      rw [hpr_edges]
      constructor
      · intro hc
        have hed : e ∈ (g.dependentSubgraphRaw n.id).edges :=
          (h1e e).1 (List.mem_filter.1 hc).1
        refine List.mem_filter.2 ⟨hed, decide_eq_true ?_⟩
        intro he2C
        have hb := (List.mem_filter.1 hc).2
        have hdc1 : decide (e.2 ∈ C) = true := decide_eq_true he2C
        have hdc2 : decide (e.2 ∈ g1.nodeIds) = true := by
          refine decide_eq_true ?_
          have hclosed := induced_closed g (g.depFilter n.id) hcl e hed
          exact (mem_ids_transfer _ _ (fun x => (h1n x).symm) e.2).1
            hclosed.2
        rw [hdc1, hdc2] at hb
        simp at hb
      · intro hc
        have hedg1 : e ∈ g1.edges := (h1e e).2 (List.mem_filter.1 hc).1
        refine List.mem_filter.2 ⟨hedg1, ?_⟩
        have hnotC : e.2 ∉ C := of_decide_eq_true (List.mem_filter.1 hc).2
        rw [decide_eq_false hnotC]
        rfl
    have hlen : pr.nodes.length
        = (g.dependentSubgraphRaw n.id).nodes.length := by
      rw [hpr_nodes]
      exact nodup_set_length_eq _ _ (List.Nodup.of_map _ h1nd)
        (List.Nodup.of_map _ hd_nd) h1n
    have hreach := hfilt.2
    rw [reachesIn_congr pr
      (⟨(g.dependentSubgraphRaw n.id).nodes,
        (g.dependentSubgraphRaw n.id).edges.filter
          (fun e => decide (e.2 ∉ C))⟩ : IRGraph)
      hedset _ m.id n.id] at hreach
    unfold IRGraph.depFilter
    rw [Bool.and_eq_true]
    refine ⟨decide_eq_true (List.mem_map_of_mem (·.id) hmd), ?_⟩
    show reachesIn _ (g.dependentSubgraphRaw n.id).nodes.length m.id n.id
      = true
    rw [← hlen]
    exact hreach

theorem claim_C6_witness :
    wSegG.find_dependent_subgraphs_of_node wSegN [3]
      = .ok [⟨⟨[⟨3, .trans "f"⟩, ⟨4, .var "y" 0⟩], [(3, 4)]⟩, some "cache"⟩] ∧
    ∀ eg ∈ ([⟨⟨[⟨3, .trans "f"⟩, ⟨4, .var "y" 0⟩], [(3, 4)]⟩, some "cache"⟩]
        : List IRGraphEvaluable),
      (∀ c ∈ eg.graph.nodes, c.id ∈ [3] → eg.graph.inDeg c.id = 0) ∧
      (∀ m ∈ eg.graph.nodes, specCutReach wSegG wSegN.id [3] m.id = true) :=
  ⟨by decide,
   claim_C6 wSegG wSegN [3]
     [⟨⟨[⟨3, .trans "f"⟩, ⟨4, .var "y" 0⟩], [(3, 4)]⟩, some "cache"⟩]
     (by decide) (by decide) (by decide) (by decide)⟩

section ClaimC7

theorem refName_none (x : Instruction) (h : x.isIntermediate = false) :
    x.refName? = none := by
  obtain ⟨i, d⟩ := x
  cases d <;> first
    | rfl
    | simp [Instruction.isIntermediate] at h

theorem refName_some_data (x : Instruction) (nm : String)
    (h : x.refName? = some nm) : x.data = .reference nm := by
  obtain ⟨i, d⟩ := x
  cases d with
  | reference n =>
    have h2 : some n = some nm := h
    cases h2
    rfl
  | dataSource a b => exact Option.noConfusion h
  | var a b => exact Option.noConfusion h
  | ret a => exact Option.noConfusion h
  | trans a => exact Option.noConfusion h

theorem get_references_nil (g : IRGraph)
    (h : ∀ x ∈ g.nodes, x.isIntermediate = false) :
    g.get_references = .ok [] := by
  unfold IRGraph.get_references IRGraph.refNames
  rw [show g.nodes.filterMap Instruction.refName? = [] from
    List.filterMap_eq_nil_iff.2 (fun x hx => refName_none x (h x hx))]
  rfl

theorem mapM_ok_of_forall {α β : Type _} (F : α → Except KErr β) :
    ∀ l : List α, (∀ a ∈ l, ∃ y, F a = .ok y) →
    ∃ out, l.mapM F = .ok out := by
  intro l
  induction l with
  | nil => exact fun _ => ⟨[], rfl⟩
  | cons a t ih =>
    intro hall
    obtain ⟨y, hy⟩ := hall a (List.mem_cons_self _ _)
    obtain ⟨out, hout⟩ := ih (fun b hb => hall b (List.mem_cons_of_mem _ hb))
    refine ⟨y :: out, ?_⟩
    rw [List.mapM_cons, hy]
    simp only [except_bind_ok]
    rw [hout]
    simp only [except_bind_ok]
    rfl

theorem refname_filter_singleton :
    ∀ l : List Instruction, (l.filterMap Instruction.refName?).Nodup →
    ∀ z ∈ l, z.isIntermediate = true →
    l.filter (Instruction.isRefNamed (z.refName?.getD "")) = [z] := by
  intro l
  induction l with
  | nil =>
    intro _ z hz
    simp at hz
  | cons a t ih =>
    intro hnd z hz hzi
    obtain ⟨nm, hdz⟩ := interm_data z hzi
    have hzn : z.refName? = some nm := by
      unfold Instruction.refName?
      rw [hdz]
    rw [refNameD_of_data z nm hdz]
    rcases List.mem_cons.1 hz with hza | hzt
    · subst hza
      rw [List.filterMap_cons, hzn] at hnd
      have hnm_not : nm ∉ t.filterMap Instruction.refName? :=
        (List.nodup_cons.1 hnd).1
      have hfa : Instruction.isRefNamed nm z = true := by
        unfold Instruction.isRefNamed
        rw [hdz]
        simp
      have hnilf : t.filter (Instruction.isRefNamed nm) = [] := by
        rw [List.filter_eq_nil_iff]
        intro y hy hyr
        have hyd := isRefNamed_data y nm hyr
        refine hnm_not (List.mem_filterMap.2 ⟨y, hy, ?_⟩)
        unfold Instruction.refName?
        rw [hyd]
      rw [List.filter_cons_of_pos hfa, hnilf]
    · have hzm : nm ∈ t.filterMap Instruction.refName? :=
        List.mem_filterMap.2 ⟨z, hzt, hzn⟩
      have htnd : (t.filterMap Instruction.refName?).Nodup := by
        rw [List.filterMap_cons] at hnd
        cases ha : a.refName? with
        | none => rw [ha] at hnd; exact hnd
        | some b => rw [ha] at hnd; exact (List.nodup_cons.1 hnd).2
      have hfa : Instruction.isRefNamed nm a = false := by
        by_contra hcon
        have hfa2 : Instruction.isRefNamed nm a = true :=
          Bool.of_not_eq_false (by simpa using hcon)
        have had := isRefNamed_data a nm hfa2
        have han : a.refName? = some nm := by
          unfold Instruction.refName?
          rw [had]
        rw [List.filterMap_cons, han] at hnd
        exact (List.nodup_cons.1 hnd).1 hzm
      rw [List.filter_cons_of_neg (by rw [hfa]; exact Bool.noConfusion)]
      have := ih htnd z hzt hzi
      rw [refNameD_of_data z nm hdz] at this
      exact this

theorem get_references_ok_of_nodup_names (g : IRGraph)
    (hnd : (g.nodes.filterMap Instruction.refName?).Nodup) :
    ∃ refs, g.get_references = .ok refs := by
  refine mapM_ok_of_forall g.get_reference g.refNames ?_
  intro nm hnm
  have hnm2 : nm ∈ g.nodes.filterMap Instruction.refName? :=
    List.mem_dedup.1 hnm
  obtain ⟨z, hz, hzn⟩ := List.mem_filterMap.1 hnm2
  have hzd := refName_some_data z nm hzn
  have hzi : z.isIntermediate = true := intermediate_of_data z nm hzd
  have hfil := refname_filter_singleton g.nodes hnd z hz hzi
  rw [refNameD_of_data z nm hzd] at hfil
  exact ⟨z, get_reference_eq_one g nm z hfil⟩

theorem lookup_mem {α β : Type _} [BEq α] :
    ∀ (l : List (α × β)) (i : α) (u : β), l.lookup i = some u →
    ∃ p ∈ l, p.2 = u := by
  intro l
  induction l with
  | nil => intro i u h; exact Option.noConfusion h
  | cons a t ih =>
    intro i u h
    rw [List.lookup_cons] at h
    cases hb : i == a.1 with
    | true =>
      rw [hb] at h
      cases h
      exact ⟨a, List.mem_cons_self _ _, rfl⟩
    | false =>
      rw [hb] at h
      obtain ⟨p, hp, hpu⟩ := ih i u h
      exact ⟨p, List.mem_cons_of_mem _ hp, hpu⟩

theorem evalAdd_intf (eg : IRGraphEvaluable) (r : Instruction) (d : Bool)
    (eg1 : IRGraphEvaluable) (x : Instruction)
    (h : eg.add_node_plain r d = .ok (eg1, x)) :
    (r.isSource = true → eg1.interface = some r.interfaceOf) ∧
    (r.isSource = false → eg1.interface = eg.interface) ∧
    (∀ j, eg.interface = some j → eg1.interface = some j) := by
  unfold IRGraphEvaluable.add_node_plain at h
  by_cases hi : r.isIntermediate = true
  · rw [if_pos hi] at h
    exact Except.noConfusion h
  · rw [if_neg hi] at h
    by_cases hs : r.isSource = true
    · rw [if_pos hs] at h
      cases hif : eg.interface with
      | none =>
        simp only [hif, except_bind_ok] at h
        cases hadd : ({ eg with interface := some r.interfaceOf }
            : IRGraphEvaluable).graph.add_node_plain r d with
        | error e =>
          rw [hadd] at h
          simp only [except_bind_error] at h
          exact Except.noConfusion h
        | ok p =>
          obtain ⟨g', x'⟩ := p
          rw [hadd] at h
          simp only [except_bind_ok] at h
          have h2 : (Except.ok
              (({ graph := g', interface := some r.interfaceOf }
                : IRGraphEvaluable), x')
              : Except KErr (IRGraphEvaluable × Instruction))
              = .ok (eg1, x) := h
          cases h2
          refine ⟨fun _ => rfl, fun hns => Bool.noConfusion (hs ▸ hns), ?_⟩
          intro j hj
          exact Option.noConfusion hj
      | some j =>
        simp only [hif] at h
        by_cases hj : r.interfaceOf ≠ j
        · rw [if_pos hj] at h
          simp only [except_bind_error] at h
          exact Except.noConfusion h
        · rw [if_neg hj] at h
          simp only [except_bind_ok] at h
          cases hadd : eg.graph.add_node_plain r d with
          | error e =>
            rw [hadd] at h
            simp only [except_bind_error] at h
            exact Except.noConfusion h
          | ok p =>
            obtain ⟨g', x'⟩ := p
            rw [hadd] at h
            simp only [except_bind_ok] at h
            have h2 : (Except.ok
                (({ graph := g', interface := eg.interface }
                  : IRGraphEvaluable), x')
                : Except KErr (IRGraphEvaluable × Instruction))
                = .ok (eg1, x) := h
            cases h2
            have hjeq : r.interfaceOf = j := of_not_not hj
            refine ⟨fun _ => ?_, fun hns => Bool.noConfusion (hs ▸ hns),
              fun j' hj' => by rw [hif]; exact hj'⟩
            show eg.interface = some r.interfaceOf
            rw [hif, hjeq]
    · rw [if_neg hs] at h
      simp only [except_bind_ok] at h
      cases hadd : eg.graph.add_node_plain r d with
      | error e =>
        rw [hadd] at h
        simp only [except_bind_error] at h
        exact Except.noConfusion h
      | ok p =>
        obtain ⟨g', x'⟩ := p
        rw [hadd] at h
        simp only [except_bind_ok] at h
        have h2 : (Except.ok
            (({ graph := g', interface := eg.interface }
              : IRGraphEvaluable), x')
            : Except KErr (IRGraphEvaluable × Instruction))
            = .ok (eg1, x) := h
        cases h2
        exact ⟨fun hsc => absurd hsc hs, fun _ => rfl,
          fun j hj => hj⟩

end ClaimC7

theorem evalFold_intf :
    ∀ (l : List Instruction)
      (acc out : IRGraphEvaluable × List (NodeId × Instruction)),
    l.foldlM evalO2nStep acc = .ok out →
    (∀ j, acc.1.interface = some j → out.1.interface = some j) ∧
    (∀ x ∈ l, x.isSource = true → out.1.interface = some x.interfaceOf) ∧
    ((∀ x ∈ l, x.isSource = false) → out.1.interface = acc.1.interface) := by
  intro l
  induction l with
  | nil =>
    intro acc out h
    have h2 : (Except.ok acc : Except KErr _) = .ok out := h
    cases h2
    exact ⟨fun j hj => hj, fun x hx => by simp at hx, fun _ => rfl⟩
  | cons r t ih =>
    intro acc out h
    rw [List.foldlM_cons] at h
    cases hstep : evalO2nStep acc r with
    | error err =>
      rw [hstep, except_bind_error] at h
      exact Except.noConfusion h
    | ok acc1 =>
      rw [hstep, except_bind_ok] at h
      unfold evalO2nStep at hstep
      cases hadd : acc.1.add_node_plain r true with
      | error err =>
        rw [hadd, except_bind_error] at hstep
        exact Except.noConfusion hstep
      | ok p =>
        obtain ⟨eg', x⟩ := p
        rw [hadd, except_bind_ok] at hstep
        have h2 : (Except.ok (eg', acc.2 ++ [(r.id, x)])
            : Except KErr _) = .ok acc1 := hstep
        cases h2
        rcases evalAdd_intf acc.1 r true eg' x hadd with ⟨hsrc, hnsrc, hsome⟩
        rcases ih (eg', acc.2 ++ [(r.id, x)]) out h with ⟨iA, iB, iC⟩
        refine ⟨?_, ?_, ?_⟩
        · exact fun j hj => iA j (hsome j hj)
        · intro y hy hys
          rcases List.mem_cons.1 hy with hyr | hyt
          · subst hyr
            exact iA _ (hsrc hys)
          · exact iB y hyt hys
        · intro hall
          rw [iC (fun y hy => hall y (List.mem_cons_of_mem _ hy))]
          exact hnsrc (hall r (List.mem_cons_self _ _))

theorem evalEdgeFold_intf :
    ∀ (es : List (NodeId × NodeId)) (o2n : List (NodeId × Instruction))
      (acc out : IRGraphEvaluable),
    es.foldlM (evalEdgeStep o2n) acc = .ok out →
    (∀ j, acc.interface = some j → out.interface = some j) ∧
    ((∀ p ∈ o2n, p.2.isSource = false) → out.interface = acc.interface) := by
  intro es
  induction es with
  | nil =>
    intro o2n acc out h
    have h2 : (Except.ok acc : Except KErr IRGraphEvaluable) = .ok out := h
    cases h2
    exact ⟨fun j hj => hj, fun _ => rfl⟩
  | cons e rest ih =>
    intro o2n acc out h
    rw [List.foldlM_cons] at h
    cases hstep : evalEdgeStep o2n acc e with
    | error err =>
      rw [hstep, except_bind_error] at h
      exact Except.noConfusion h
    | ok acc2 =>
      rw [hstep, except_bind_ok] at h
      unfold evalEdgeStep at hstep
      cases hu : o2n.lookup e.1 with
      | none => rw [hu] at hstep; exact Except.noConfusion hstep
      | some u =>
        cases hv : o2n.lookup e.2 with
        | none => rw [hu, hv] at hstep; exact Except.noConfusion hstep
        | some v =>
          rw [hu, hv] at hstep
          have hstep2 : acc.add_edge u v false = Except.ok acc2 := hstep
          unfold IRGraphEvaluable.add_edge at hstep2
          cases h1 : acc.add_node_plain u false with
          | error err =>
            rw [h1] at hstep2
            simp only [except_bind_error] at hstep2
            exact Except.noConfusion hstep2
          | ok p1 =>
            obtain ⟨eg1, ux⟩ := p1
            rw [h1] at hstep2
            simp only [except_bind_ok] at hstep2
            cases h2 : eg1.add_node_plain v false with
            | error err =>
              rw [h2] at hstep2
              simp only [except_bind_error] at hstep2
              exact Except.noConfusion hstep2
            | ok p2 =>
              obtain ⟨eg2, vx⟩ := p2
              rw [h2] at hstep2
              simp only [except_bind_ok] at hstep2
              have h3 : (Except.ok
                  { eg2 with graph := eg2.graph.addEdgeRaw ux.id vx.id }
                  : Except KErr IRGraphEvaluable) = .ok acc2 := hstep2
              cases h3
              rcases evalAdd_intf acc u false eg1 ux h1 with ⟨_, hns1, hsome1⟩
              rcases evalAdd_intf eg1 v false eg2 vx h2 with ⟨_, hns2, hsome2⟩
              rcases ih o2n _ out h with ⟨iA, iC⟩
              refine ⟨?_, ?_⟩
              · intro j hj
                exact iA j (hsome2 j (hsome1 j hj))
              · intro hall
                rw [iC hall]
                show eg2.interface = acc.interface
                obtain ⟨pu, hpu, hpu2⟩ := lookup_mem o2n e.1 u hu
                obtain ⟨pv, hpv, hpv2⟩ := lookup_mem o2n e.2 v hv
                rw [hns2 (hpv2 ▸ hall pv hpv), hns1 (hpu2 ▸ hall pu hpu)]

theorem mkEvaluable_intf (s : IRGraph) (eg : IRGraphEvaluable)
    (h : mkEvaluable s = .ok eg) (hnd : s.nodupIds)
    (hdist : contentDistinctSingletonsL s.nodes) :
    ∃ i, eg.interface = some i ∧
      (∀ x ∈ eg.graph.nodes, x.isSource = true → x.interfaceOf = i) ∧
      ((∀ x ∈ eg.graph.nodes, x.isSource = false) →
        i = CACHE_INTERFACE_IDENTIFIER) := by
  unfold mkEvaluable at h
  cases hup : IRGraphEvaluable.update ⟨IRGraph.empty, none⟩ s with
  | error e => rw [hup, except_bind_error] at h; exact Except.noConfusion h
  | ok p =>
    obtain ⟨st, s'⟩ := p
    rw [hup] at h
    simp only [except_bind_ok] at h
    have h2 : (Except.ok { st with interface
        := (some (st.interface.getD CACHE_INTERFACE_IDENTIFIER)) }
      : Except KErr IRGraphEvaluable) = .ok eg := h
    cases h2
    rcases evalUpdate_destruct ⟨IRGraph.empty, none⟩ s st s' hup with
      ⟨hm, refs, eg1, o2nR, eg2, o2n, hr0, hf1, hf2, hf3⟩
    have hh' : s' = s := by
      have h0 := mutated_empty s
      rw [hm] at h0
      exact Except.ok.inj h0
    rw [hh'] at hr0 hf2 hf3
    have hrint : ∀ r ∈ refs, r.isIntermediate = true :=
      fun r h0 => (get_references_spec s refs hr0 r h0).2
    have hrnil : refs = [] := evalRefsFold_nil refs hrint _ _ hf1
    subst hrnil
    have hp1 := Except.ok.inj
      (show (Except.ok ((⟨IRGraph.empty, none⟩ : IRGraphEvaluable),
          ([] : List (NodeId × Instruction)))
        : Except KErr (IRGraphEvaluable × List (NodeId × Instruction)))
        = .ok (eg1, o2nR) from hf1)
    have heg1 : eg1 = ⟨IRGraph.empty, none⟩ := (congrArg Prod.fst hp1).symm
    have ho2nR : o2nR = [] := (congrArg Prod.snd hp1).symm
    subst heg1
    subst ho2nR
    have hft : s.nodes.filter
        (fun n => n.id ∉ ([] : List Instruction).map (·.id)) = s.nodes :=
      List.filter_eq_self.2 (fun x _ => by simp)
    rw [hft] at hf2
    rcases evalInsertFoldExact s.nodes
      ((⟨IRGraph.empty, none⟩, [])
        : IRGraphEvaluable × List (NodeId × Instruction))
      (eg2, o2n) hf2
      (fun r _ hc => by simp [IRGraph.empty, IRGraph.nodeIds] at hc)
      hnd hdist with ⟨hn2, he2, ho2⟩
    have hn2' : eg2.graph.nodes = s.nodes := hn2
    have ho2' : o2n = s.nodes.map (fun r => (r.id, r)) := ho2
    subst ho2'
    rcases evalFold_intf s.nodes
      ((⟨IRGraph.empty, none⟩, [])
        : IRGraphEvaluable × List (NodeId × Instruction))
      (eg2, s.nodes.map (fun r => (r.id, r))) hf2 with ⟨_, iB, iC⟩
    rcases evalEdgeFold_intf s.edges (s.nodes.map (fun r => (r.id, r)))
      eg2 st hf3 with ⟨eA, eC⟩
    have hmem : ∀ x ∈ s.nodes, x.id ∈ eg2.graph.nodeIds := by
      intro x hx
      show x.id ∈ eg2.graph.nodes.map (·.id)
      rw [hn2']
      exact List.mem_map_of_mem _ hx
    rcases evalEdgeFoldExactAux s.edges s.nodes eg2 st hmem hf3 with
      ⟨hn3, _⟩
    have hegnodes : ∀ x, x ∈ st.graph.nodes ↔ x ∈ s.nodes := by
      intro x
      rw [hn3, hn2']
    refine ⟨st.interface.getD CACHE_INTERFACE_IDENTIFIER, rfl, ?_, ?_⟩
    · intro x hx hxs
      have hxin : x ∈ s.nodes := (hegnodes x).1 hx
      have hB : eg2.interface = some x.interfaceOf := iB x hxin hxs
      have hA : st.interface = some x.interfaceOf := eA _ hB
      rw [hA]
      rfl
    · intro hall
      have halls : ∀ x ∈ s.nodes, x.isSource = false := by
        intro x hx
        exact hall x ((hegnodes x).2 hx)
      have hC2 : eg2.interface = none := iC halls
      have hC3 : st.interface = eg2.interface := by
        refine eC ?_
        intro p hp
        obtain ⟨z, hz, hzp⟩ := List.mem_map.1 hp
        rw [← hzp]
        exact halls z hz
      rw [hC3, hC2]
      rfl

theorem evalInsertFold_err :
    ∀ (l : List Instruction)
      (acc : IRGraphEvaluable × List (NodeId × Instruction)) (e : KErr),
    l.foldlM evalO2nStep acc = .error e →
    (∀ r ∈ l, r.id ∉ acc.1.graph.nodeIds) →
    (l.map (·.id)).Nodup →
    contentDistinctSingletonsL (acc.1.graph.nodes ++ l) →
    (∀ r ∈ l, r.isIntermediate = false) →
    e = .multiInterfacesInGraph := by
  intro l
  induction l with
  | nil =>
    intro acc e h _ _ _ _
    exact Except.noConfusion (show (Except.ok acc : Except KErr _)
      = .error e from h)
  | cons r t ih =>
    intro acc e h hfresh hnd hdist hnoint
    have hrni : ¬ r.isIntermediate = true := by
      rw [hnoint r (List.mem_cons_self _ _)]
      simp
    have hins := add_node_plain_any_insert acc.1.graph r true
      (hfresh r (List.mem_cons_self _ _))
      (contentDistinct_head_none acc.1.graph.nodes r t hdist)
      (fun hi' => absurd hi' hrni)
    rw [List.foldlM_cons] at h
    cases hstep : evalO2nStep acc r with
    | error e2 =>
      rw [hstep, except_bind_error] at h
      have he2 : e2 = e := Except.error.inj h
      subst he2
      unfold evalO2nStep at hstep
      cases hadd : acc.1.add_node_plain r true with
      | ok p =>
        rw [hadd, except_bind_ok] at hstep
        exact Except.noConfusion hstep
      | error e3 =>
        rw [hadd, except_bind_error] at hstep
        have he3 : e3 = e2 := Except.error.inj hstep
        subst he3
        unfold IRGraphEvaluable.add_node_plain at hadd
        rw [if_neg hrni] at hadd
        by_cases hs : r.isSource = true
        · rw [if_pos hs] at hadd
          cases hif : acc.1.interface with
          | none =>
            simp only [hif, except_bind_ok] at hadd
            rw [hins] at hadd
            simp only [except_bind_ok] at hadd
            exact Except.noConfusion hadd
          | some j =>
            simp only [hif] at hadd
            by_cases hj : r.interfaceOf ≠ j
            · rw [if_pos hj] at hadd
              simp only [except_bind_error] at hadd
              exact (Except.error.inj hadd).symm
            · rw [if_neg hj] at hadd
              simp only [except_bind_ok] at hadd
              rw [hins] at hadd
              simp only [except_bind_ok] at hadd
              exact Except.noConfusion hadd
        · rw [if_neg hs] at hadd
          simp only [except_bind_ok] at hadd
          rw [hins] at hadd
          simp only [except_bind_ok] at hadd
          exact Except.noConfusion hadd
    | ok acc1 =>
      rw [hstep, except_bind_ok] at h
      unfold evalO2nStep at hstep
      cases hadd : acc.1.add_node_plain r true with
      | error e2 =>
        rw [hadd, except_bind_error] at hstep
        exact Except.noConfusion hstep
      | ok p =>
        obtain ⟨eg', x⟩ := p
        rw [hadd, except_bind_ok] at hstep
        have h2 : (Except.ok (eg', acc.2 ++ [(r.id, x)])
            : Except KErr _) = .ok acc1 := hstep
        cases h2
        rcases evalAdd_insert acc.1 r eg' x hadd
          (hfresh r (List.mem_cons_self _ _))
          (contentDistinct_head_none acc.1.graph.nodes r t hdist) with
          ⟨hgn, hge, hx⟩
        rw [hx] at h
        rw [List.map_cons, List.nodup_cons] at hnd
        have hfr2 : ∀ r' ∈ t, r'.id ∉ eg'.graph.nodeIds := by
          intro r' hr' hc
          have hq : eg'.graph.nodeIds = acc.1.graph.nodeIds ++ [r.id] := by
            show eg'.graph.nodes.map (·.id) = _
            rw [hgn, List.map_append]
            rfl
          rw [hq] at hc
          rcases List.mem_append.1 hc with hc2 | hc2
          · exact hfresh r' (List.mem_cons_of_mem _ hr') hc2
          · simp at hc2
            exact hnd.1 (hc2 ▸ List.mem_map_of_mem (·.id) hr')
        have hdist2 : contentDistinctSingletonsL (eg'.graph.nodes ++ t) := by
          rw [hgn, List.append_assoc]
          exact hdist
        exact ih (eg', acc.2 ++ [(r.id, r)]) e h hfr2 hnd.2 hdist2
          (fun r' hr' => hnoint r' (List.mem_cons_of_mem _ hr'))

/-- C7: interface purity of evaluable graphs.  Every evaluable subgraph
emitted by the segmenter on a well-formed graph carries exactly one declared
interface: all its SourceInstruction nodes share it, and when it has no
SourceInstruction the interface is the reserved CACHE identifier.
Constructing an IRGraphEvaluable from a well-formed intermediate-free graph
whose sources carry two distinct interfaces fails with MultiInterfacesInGraph,
and constructing one from a graph holding any IntermediateInstruction (with
reference names distinct, so that reference collection itself succeeds) fails
with InevaluableInstruction. -/
theorem claim_C7 :
    (∀ (g : IRGraph) (n : Instruction) (C : List NodeId)
       (subs : List IRGraphEvaluable) (eg : IRGraphEvaluable),
      g.nodupIds → g.contentDistinctSingletons →
      g.find_dependent_subgraphs_of_node n C = .ok subs → eg ∈ subs →
      ∃ i, eg.interface = some i ∧
        (∀ x ∈ eg.graph.nodes, x.isSource = true → x.interfaceOf = i) ∧
        ((∀ x ∈ eg.graph.nodes, x.isSource = false) →
          i = CACHE_INTERFACE_IDENTIFIER)) ∧
    (∀ (g : IRGraph) (s1 s2 : Instruction),
      g.nodupIds → g.contentDistinctSingletons →
      (∀ x ∈ g.nodes, x.isIntermediate = false) →
      s1 ∈ g.nodes → s2 ∈ g.nodes → s1.isSource = true →
      s2.isSource = true → s1.interfaceOf ≠ s2.interfaceOf →
      mkEvaluable g = .error .multiInterfacesInGraph) ∧
    (∀ (g : IRGraph) (x : Instruction),
      (g.nodes.filterMap Instruction.refName?).Nodup →
      x ∈ g.nodes → x.isIntermediate = true →
      mkEvaluable g = .error .inevaluableInstruction) := by
  refine ⟨?_, ?_, ?_⟩
  · intro g n C subs eg hnd hdist hu hin
    obtain ⟨g0, h0, hmk⟩ := find_dep_destruct g n C subs hu
    obtain ⟨g1, hcopy1, hcopy2⟩ := find_cached_destruct g n C g0 h0
    obtain ⟨pr, hpr⟩ : ∃ pr : IRGraph,
        ({ g1 with edges := (g1.edges.filter (fun e => !(decide (e.2 ∈ C) && decide (e.2 ∈ g1.nodeIds)))) } : IRGraph) = pr :=
      ⟨_, rfl⟩
    rw [hpr] at hcopy2
    have hpr_nodes : pr.nodes = g1.nodes := by rw [← hpr]
    have hd_nd : (g.dependentSubgraphRaw n.id).nodupIds :=
      induced_nodup g _ hnd
    have hd_dist :
        contentDistinctSingletonsL (g.dependentSubgraphRaw n.id).nodes :=
      induced_dist g _ hdist
    rcases copy_spec (g.dependentSubgraphRaw n.id) g1 hcopy1 hd_nd hd_dist
      with ⟨h1n, h1e, h1nd, h1dist⟩
    have hpr_nd : pr.nodupIds := by
      show pr.nodeIds.Nodup
      have hq : pr.nodeIds = g1.nodeIds := by
        show pr.nodes.map (·.id) = _
        rw [hpr_nodes]
        rfl
      rw [hq]
      exact h1nd
    have hpr_dist : contentDistinctSingletonsL pr.nodes := by
      rw [hpr_nodes]
      exact h1dist
    have hd2_nd := induced_nodup pr (pr.depFilter n.id) hpr_nd
    have hd2_dist := induced_dist pr (pr.depFilter n.id) hpr_dist
    rcases copy_spec (pr.dependentSubgraphRaw n.id) g0 hcopy2 hd2_nd hd2_dist
      with ⟨h0n, h0e, h0nd, h0dist⟩
    obtain ⟨ns, hok⟩ := hmk eg hin
    exact mkEvaluable_intf _ eg hok
      (induced_nodup g0 (fun i => decide (i ∈ ns)) h0nd)
      (induced_dist g0 (fun i => decide (i ∈ ns)) h0dist)
  · intro g s1 s2 hnd hdist hnoint hs1 hs2 hs1s hs2s hne
    have hrefs := get_references_nil g hnoint
    have hft : g.nodes.filter
        (fun n => n.id ∉ ([] : List Instruction).map (·.id)) = g.nodes :=
      List.filter_eq_self.2 (fun x _ => by simp)
    cases hres : g.nodes.foldlM evalO2nStep
        ((⟨IRGraph.empty, none⟩ : IRGraphEvaluable),
          ([] : List (NodeId × Instruction))) with
    | ok out =>
      exfalso
      rcases evalFold_intf g.nodes _ out hres with ⟨_, iB, _⟩
      have h1 := iB s1 hs1 hs1s
      have h2 := iB s2 hs2 hs2s
      rw [h1] at h2
      exact hne (Option.some.inj h2)
    | error e =>
      have he := evalInsertFold_err g.nodes _ e hres
        (fun r _ hc => by simp [IRGraph.empty, IRGraph.nodeIds] at hc)
        hnd hdist hnoint
      subst he
      have hupd : IRGraphEvaluable.update ⟨IRGraph.empty, none⟩ g
          = .error .multiInterfacesInGraph := by
        unfold IRGraphEvaluable.update
        rw [show (⟨IRGraph.empty, none⟩ : IRGraphEvaluable).graph.mutated g
          = Except.ok g from mutated_empty g]
        simp only [except_bind_ok]
        rw [hrefs]
        simp only [except_bind_ok]
        rw [show (([] : List Instruction).foldlM evalO2nStep
            ((⟨IRGraph.empty, none⟩ : IRGraphEvaluable),
              ([] : List (NodeId × Instruction))))
          = Except.ok ((⟨IRGraph.empty, none⟩ : IRGraphEvaluable),
              ([] : List (NodeId × Instruction))) from rfl]
        simp only [except_bind_ok]
        rw [hft, hres]
        rfl
      unfold mkEvaluable
      rw [hupd]
      rfl
  · intro g x hnames hx hxi
    obtain ⟨refs, hrefs⟩ := get_references_ok_of_nodup_names g hnames
    obtain ⟨nm, hdx⟩ := interm_data x hxi
    have hnm : nm ∈ g.refNames := by
      unfold IRGraph.refNames
      apply List.mem_dedup.2
      refine List.mem_filterMap.2 ⟨x, hx, ?_⟩
      unfold Instruction.refName?
      rw [hdx]
    have hrefs2 : g.refNames.mapM g.get_reference = .ok refs := hrefs
    obtain ⟨r, hrr, _⟩ :=
      mapM_ok_forall g.get_reference g.refNames refs hrefs2 nm hnm
    cases refs with
    | nil => exact absurd hrr (by simp)
    | cons r0 t =>
      have hupd : IRGraphEvaluable.update ⟨IRGraph.empty, none⟩ g
          = .error .inevaluableInstruction := by
        unfold IRGraphEvaluable.update
        rw [show (⟨IRGraph.empty, none⟩ : IRGraphEvaluable).graph.mutated g
          = Except.ok g from mutated_empty g]
        simp only [except_bind_ok]
        rw [hrefs]
        simp only [except_bind_ok]
        rw [List.foldlM_cons]
        have hstep : evalO2nStep
            ((⟨IRGraph.empty, none⟩ : IRGraphEvaluable),
              ([] : List (NodeId × Instruction))) r0
            = .error .inevaluableInstruction := by
          unfold evalO2nStep
          have haddm : (⟨IRGraph.empty, none⟩
              : IRGraphEvaluable).add_node_plain r0 true
              = .error .inevaluableInstruction := by
            unfold IRGraphEvaluable.add_node_plain
            rw [if_pos (get_references_spec g (r0 :: t) hrefs r0
              (List.mem_cons_self _ _)).2]
          rw [haddm, except_bind_error]
        rw [hstep, except_bind_error]
        simp only [except_bind_error]
      unfold mkEvaluable
      rw [hupd]
      rfl

theorem claim_C7_witness :
    (∃ i, (⟨⟨[⟨3, .trans "f"⟩, ⟨4, .var "y" 0⟩], [(3, 4)]⟩, some "cache"⟩
        : IRGraphEvaluable).interface = some i ∧
      (∀ x ∈ (⟨⟨[⟨3, .trans "f"⟩, ⟨4, .var "y" 0⟩], [(3, 4)]⟩, some "cache"⟩
          : IRGraphEvaluable).graph.nodes,
        x.isSource = true → x.interfaceOf = i) ∧
      ((∀ x ∈ (⟨⟨[⟨3, .trans "f"⟩, ⟨4, .var "y" 0⟩], [(3, 4)]⟩, some "cache"⟩
          : IRGraphEvaluable).graph.nodes, x.isSource = false) →
        i = CACHE_INTERFACE_IDENTIFIER)) ∧
    mkEvaluable wMultiG = .error .multiInterfacesInGraph ∧
    mkEvaluable wRefGraph = .error .inevaluableInstruction :=
  ⟨claim_C7.1 wSegG wSegN [3]
     [⟨⟨[⟨3, .trans "f"⟩, ⟨4, .var "y" 0⟩], [(3, 4)]⟩, some "cache"⟩]
     ⟨⟨[⟨3, .trans "f"⟩, ⟨4, .var "y" 0⟩], [(3, 4)]⟩, some "cache"⟩
     (by decide) (by decide) (by decide) (by decide),
   claim_C7.2.1 wMultiG ⟨1, .dataSource "A" "t"⟩ ⟨2, .dataSource "B" "t"⟩
     (by decide) (by decide) (by decide) (by decide) (by decide) (by decide)
     (by decide) (by decide),
   claim_C7.2.2 wRefGraph ⟨1, .reference "x"⟩ (by decide) (by decide)
     (by decide)⟩

section ClaimC8

/-- C8 counterexample: union is NOT node-set commutative by content.  With g
holding only Reference x and h holding only Variable x version 0,
union(g, h) keeps both nodes, while union(h, g) dereferences g's Reference
against h's live Variable and drops it: the content Reference x is in the
first result and in neither node of the second. -/
theorem claim_C8_counterexample :
    ∃ u1 u2 : IRGraph, union wRefGraph wVarGraph = .ok u1 ∧
      union wVarGraph wRefGraph = .ok u2 ∧
      ¬ (∀ d : InstrData, (∃ x ∈ u1.nodes, x.data = d) ↔
          (∃ y ∈ u2.nodes, y.data = d)) := by
  refine ⟨⟨[⟨1, .reference "x"⟩, ⟨2, .var "x" 0⟩], []⟩,
    ⟨[⟨2, .var "x" 0⟩], []⟩, by decide, by decide, ?_⟩
  intro hall
  have h1 := (hall (.reference "x")).1
    ⟨⟨1, .reference "x"⟩, List.mem_cons_self _ _, rfl⟩
  rcases h1 with ⟨y, hy, hyd⟩
  have hy2 : y = (⟨2, .var "x" 0⟩ : Instruction) := by
    rcases List.mem_cons.1 hy with h | h
    · exact h
    · simp at h
  rw [hy2] at hyd
  exact InstrData.noConfusion hyd

theorem isVarNamed_data (x : Instruction) (nm : String)
    (h : x.isVarNamed nm = true) : ∃ v, x.data = .var nm v := by
  obtain ⟨i, d⟩ := x
  cases d with
  | var n v =>
    simp only [Instruction.isVarNamed, beq_iff_eq] at h
    exact ⟨v, by rw [show (⟨i, InstrData.var n v⟩ : Instruction).data
      = InstrData.var n v from rfl, h]⟩
  | dataSource a b => simp [Instruction.isVarNamed] at h
  | reference a => simp [Instruction.isVarNamed] at h
  | ret a => simp [Instruction.isVarNamed] at h
  | trans a => simp [Instruction.isVarNamed] at h

theorem varName_some_data (x : Instruction) (nm : String)
    (h : x.varName? = some nm) : ∃ v, x.data = .var nm v := by
  obtain ⟨i, d⟩ := x
  cases d with
  | var n v =>
    have h2 : some n = some nm := h
    cases h2
    exact ⟨v, rfl⟩
  | dataSource a b => exact Option.noConfusion h
  | reference a => exact Option.noConfusion h
  | ret a => exact Option.noConfusion h
  | trans a => exact Option.noConfusion h

theorem var_mem_iff (l : List Instruction) (nm : String) (v : Nat) :
    (∃ x ∈ l, x.data = .var nm v) ↔
    v ∈ (l.filter (Instruction.isVarNamed nm)).map Instruction.versionOf := by
  constructor
  · rintro ⟨x, hx, hxd⟩
    refine List.mem_map.2 ⟨x, List.mem_filter.2 ⟨hx, ?_⟩, ?_⟩
    · unfold Instruction.isVarNamed
      rw [hxd]
      simp
    · unfold Instruction.versionOf
      rw [hxd]
  · intro h
    obtain ⟨x, hxf, hxv⟩ := List.mem_map.1 h
    obtain ⟨hx, hxn⟩ := List.mem_filter.1 hxf
    obtain ⟨v', hv'⟩ := isVarNamed_data x nm hxn
    refine ⟨x, hx, ?_⟩
    rw [hv']
    have : x.versionOf = v' := by
      unfold Instruction.versionOf
      rw [hv']
    rw [← hxv, this]

theorem ret_mem_iff (l : List Instruction) (s : Nat) :
    (∃ x ∈ l, x.data = .ret s) ↔
    s ∈ (l.filter Instruction.isReturn).map Instruction.seqOf := by
  constructor
  · rintro ⟨x, hx, hxd⟩
    refine List.mem_map.2 ⟨x, List.mem_filter.2 ⟨hx, ?_⟩, ?_⟩
    · unfold Instruction.isReturn
      rw [hxd]
    · unfold Instruction.seqOf
      rw [hxd]
  · intro h
    obtain ⟨x, hxf, hxv⟩ := List.mem_map.1 h
    obtain ⟨hx, hxn⟩ := List.mem_filter.1 hxf
    obtain ⟨i, d⟩ := x
    cases d with
    | ret sq =>
      refine ⟨⟨i, .ret sq⟩, hx, ?_⟩
      have : sq = s := hxv
      rw [this]
    | dataSource a b => simp [Instruction.isReturn] at hxn
    | var a b => simp [Instruction.isReturn] at hxn
    | reference a => simp [Instruction.isReturn] at hxn
    | trans a => simp [Instruction.isReturn] at hxn

theorem perm_range_mem (vs : List Nat)
    (h : vs.Perm (List.range vs.length)) (v : Nat) : v ∈ vs ↔ v < vs.length := by
  rw [h.mem_iff, List.mem_range]

theorem varVersions_nil_of_not_mem (g : IRGraph) (nm : String)
    (h : nm ∉ g.varNames) : g.varVersions nm = [] := by
  unfold IRGraph.varVersions IRGraph.varList
  rw [List.map_eq_nil_iff, List.filter_eq_nil_iff]
  intro x hx hxn
  obtain ⟨v, hv⟩ := isVarNamed_data x nm hxn
  refine h ?_
  unfold IRGraph.varNames
  apply List.mem_dedup.2
  refine List.mem_filterMap.2 ⟨x, hx, ?_⟩
  unfold Instruction.varName?
  rw [hv]

theorem ssaG_all (g : IRGraph) (hssa : ssaG g) :
    ∀ nm, (g.varVersions nm).Perm
      (List.range (g.varVersions nm).length) := by
  intro nm
  by_cases hnm : nm ∈ g.varNames
  · exact hssa nm hnm
  · rw [varVersions_nil_of_not_mem g nm hnm]
    exact List.Perm.refl _

theorem add_node_contents (g : IRGraph) (r : Instruction) (b : Bool)
    (g' : IRGraph) (x : Instruction)
    (h : g.add_node_plain r b = .ok (g', x))
    (hm : r.id ∉ g.nodeIds) (hni : r.isIntermediate = false) :
    ∀ d, (∃ z ∈ g'.nodes, z.data = d) ↔
      (∃ z ∈ g.nodes, z.data = d) ∨ d = r.data := by
  have happ : ∀ d, (∃ z ∈ g.nodes ++ [r], z.data = d) ↔
      (∃ z ∈ g.nodes, z.data = d) ∨ d = r.data := by
    intro d
    constructor
    · rintro ⟨z, hz, hzd⟩
      rcases List.mem_append.1 hz with hz | hz
      · exact Or.inl ⟨z, hz, hzd⟩
      · simp at hz
        right
        rw [← hzd, hz]
    · rintro (⟨z, hz, hzd⟩ | rfl)
      · exact ⟨z, List.mem_append_left _ hz, hzd⟩
      · exact ⟨r, List.mem_append_right _ (by simp), rfl⟩
  unfold IRGraph.add_node_plain at h
  rw [if_neg hm, if_neg (by rw [hni]; simp)] at h
  by_cases hs : r.isSource = true
  · rw [if_pos hs] at h
    cases hf : g.nodes.filter
        (fun z => z.data == r.data && g.inDeg z.id == 0) with
    | nil =>
      rw [add_singleton_eq_nil g r hf] at h
      cases h
      exact happ
    | cons z0 rest =>
      cases rest with
      | nil =>
        rw [add_singleton_eq_one g r z0 hf] at h
        cases h
        have hz0 : x ∈ g.nodes.filter
            (fun z => z.data == r.data && g.inDeg z.id == 0) := by
          rw [hf]
          exact List.mem_cons_self _ _
        have hz0m := (List.mem_filter.1 hz0).1
        have hz0d : x.data = r.data := by
          have h2 := (List.mem_filter.1 hz0).2
          rw [Bool.and_eq_true] at h2
          exact beq_iff_eq.1 h2.1
        intro d
        constructor
        · exact fun hc => Or.inl hc
        · rintro (hc | rfl)
          · exact hc
          · exact ⟨x, hz0m, hz0d⟩
      | cons z1 rest2 =>
        rw [add_singleton_eq_many g r z0 z1 rest2 hf] at h
        exact Except.noConfusion h
  · rw [if_neg hs] at h
    cases h
    exact happ

theorem shiftNode_data (tbl : List (String × Nat)) (R : Nat)
    (x : Instruction) :
    (shiftNode tbl R x).data = specShiftData tbl R x.data := by
  obtain ⟨i, d⟩ := x
  cases d with
  | var nm v =>
    cases htl : tbl.lookup nm with
    | none =>
      simp only [shiftNode, shiftAmt, specShiftData, htl]
      rw [Nat.add_zero]
    | some lv =>
      simp only [shiftNode, shiftAmt, specShiftData, htl]
      rw [Nat.add_assoc]
  | ret s => rfl
  | dataSource a b => rfl
  | reference a => rfl
  | trans a => rfl

theorem map_shift_contents (l : List Instruction)
    (tbl : List (String × Nat)) (R : Nat) (d : InstrData) :
    (∃ y ∈ l.map (shiftNode tbl R), y.data = d) ↔
    (∃ x ∈ l, specShiftData tbl R x.data = d) := by
  constructor
  · rintro ⟨y, hy, hyd⟩
    obtain ⟨x, hx, hxy⟩ := List.mem_map.1 hy
    exact ⟨x, hx, by rw [← shiftNode_data, hxy]; exact hyd⟩
  · rintro ⟨x, hx, hxd⟩
    exact ⟨shiftNode tbl R x, List.mem_map_of_mem _ hx,
      by rw [shiftNode_data]; exact hxd⟩

theorem specShiftData_eq_var (tbl : List (String × Nat)) (R : Nat)
    (dd : InstrData) (nm : String) (v : Nat) :
    specShiftData tbl R dd = .var nm v ↔
    ∃ v', dd = .var nm v' ∧ v = v' + shiftAmt tbl nm := by
  cases dd with
  | var nm' v' =>
    constructor
    · intro h
      cases h
      exact ⟨v', rfl, rfl⟩
    · rintro ⟨v2, hv2, hv⟩
      cases hv2
      subst hv
      rfl
  | ret s =>
    exact ⟨fun h => InstrData.noConfusion h,
      fun ⟨v', hv', _⟩ => InstrData.noConfusion hv'⟩
  | dataSource a b =>
    exact ⟨fun h => InstrData.noConfusion h,
      fun ⟨v', hv', _⟩ => InstrData.noConfusion hv'⟩
  | reference a =>
    exact ⟨fun h => InstrData.noConfusion h,
      fun ⟨v', hv', _⟩ => InstrData.noConfusion hv'⟩
  | trans a =>
    exact ⟨fun h => InstrData.noConfusion h,
      fun ⟨v', hv', _⟩ => InstrData.noConfusion hv'⟩

theorem specShiftData_eq_ret (tbl : List (String × Nat)) (R : Nat)
    (dd : InstrData) (s : Nat) :
    specShiftData tbl R dd = .ret s ↔
    ∃ s', dd = .ret s' ∧ s = s' + R := by
  cases dd with
  | ret s' =>
    constructor
    · intro h
      cases h
      exact ⟨s', rfl, rfl⟩
    · rintro ⟨s2, hs2, hs⟩
      cases hs2
      subst hs
      rfl
  | var nm v =>
    exact ⟨fun h => InstrData.noConfusion h,
      fun ⟨s', hs', _⟩ => InstrData.noConfusion hs'⟩
  | dataSource a b =>
    exact ⟨fun h => InstrData.noConfusion h,
      fun ⟨s', hs', _⟩ => InstrData.noConfusion hs'⟩
  | reference a =>
    exact ⟨fun h => InstrData.noConfusion h,
      fun ⟨s', hs', _⟩ => InstrData.noConfusion hs'⟩
  | trans a =>
    exact ⟨fun h => InstrData.noConfusion h,
      fun ⟨s', hs', _⟩ => InstrData.noConfusion hs'⟩

theorem specShiftData_eq_ds (tbl : List (String × Nat)) (R : Nat)
    (dd : InstrData) (a b : String) :
    specShiftData tbl R dd = .dataSource a b ↔ dd = .dataSource a b := by
  cases dd with
  | dataSource a' b' => exact ⟨fun h => h, fun h => h⟩
  | var nm v => exact ⟨fun h => InstrData.noConfusion h,
      fun h => InstrData.noConfusion h⟩
  | ret s => exact ⟨fun h => InstrData.noConfusion h,
      fun h => InstrData.noConfusion h⟩
  | reference n => exact ⟨fun h => h, fun h => h⟩
  | trans o => exact ⟨fun h => h, fun h => h⟩

theorem specShiftData_eq_trans (tbl : List (String × Nat)) (R : Nat)
    (dd : InstrData) (o : String) :
    specShiftData tbl R dd = .trans o ↔ dd = .trans o := by
  cases dd with
  | dataSource a' b' => exact ⟨fun h => h, fun h => h⟩
  | var nm v => exact ⟨fun h => InstrData.noConfusion h,
      fun h => InstrData.noConfusion h⟩
  | ret s => exact ⟨fun h => InstrData.noConfusion h,
      fun h => InstrData.noConfusion h⟩
  | reference n => exact ⟨fun h => h, fun h => h⟩
  | trans o' => exact ⟨fun h => h, fun h => h⟩

theorem specShiftData_eq_ref (tbl : List (String × Nat)) (R : Nat)
    (dd : InstrData) (n : String) :
    specShiftData tbl R dd = .reference n ↔ dd = .reference n := by
  cases dd with
  | dataSource a' b' => exact ⟨fun h => h, fun h => h⟩
  | var nm v => exact ⟨fun h => InstrData.noConfusion h,
      fun h => InstrData.noConfusion h⟩
  | ret s => exact ⟨fun h => InstrData.noConfusion h,
      fun h => InstrData.noConfusion h⟩
  | reference n' => exact ⟨fun h => h, fun h => h⟩
  | trans o => exact ⟨fun h => h, fun h => h⟩

theorem get_variable_name (g : IRGraph) (nm : String) (v : Instruction)
    (h : g.get_variable nm = .ok v) : v.varName?.getD "" = nm := by
  have hv := (get_variable_ok_spec g nm v h).1
  have hnamed := (List.mem_filter.1 hv).2
  obtain ⟨v', hv'⟩ := isVarNamed_data v nm hnamed
  unfold Instruction.varName?
  rw [hv']
  rfl

theorem varTable_lookup_some (g : IRGraph) :
    ∀ (names : List String) (vars : List Instruction),
    names.mapM g.get_variable = .ok vars → names.Nodup →
    ∀ nm ∈ names, ∃ v, g.get_variable nm = .ok v ∧
      (vars.map (fun v => (v.varName?.getD "", v.versionOf))).lookup nm
        = some v.versionOf := by
  intro names
  induction names with
  | nil =>
    intro vars _ _ nm hnm
    simp at hnm
  | cons nm0 t ih =>
    intro vars h hnd nm hnm
    rw [List.mapM_cons] at h
    cases ha : g.get_variable nm0 with
    | error e => rw [ha] at h; exact Except.noConfusion h
    | ok v0 =>
      rw [ha] at h
      have h2 : (t.mapM g.get_variable >>= fun bs => pure (v0 :: bs))
          = .ok vars := h
      cases ht : t.mapM g.get_variable with
      | error e => rw [ht] at h2; exact Except.noConfusion h2
      | ok bs =>
        rw [ht] at h2
        have h3 : (Except.ok (v0 :: bs) : Except KErr (List Instruction))
            = .ok vars := h2
        cases h3
        rw [List.nodup_cons] at hnd
        rw [List.map_cons, List.lookup_cons]
        rcases List.mem_cons.1 hnm with hnm0 | hnmt
        · subst hnm0
          refine ⟨v0, ha, ?_⟩
          rw [show (nm == v0.varName?.getD "") = true from
            beq_iff_eq.2 (get_variable_name g nm v0 ha).symm]
        · have hne : nm ≠ nm0 := fun hc => hnd.1 (hc ▸ hnmt)
          obtain ⟨v, hv, hlk⟩ := ih bs ht hnd.2 nm hnmt
          refine ⟨v, hv, ?_⟩
          rw [show (nm == v0.varName?.getD "") = false from
            beq_eq_false_iff_ne.2 (by
              rw [get_variable_name g nm0 v0 ha]
              exact hne)]
          exact hlk

theorem varTable_key_absent (g : IRGraph) :
    ∀ (names : List String) (vars : List Instruction),
    names.mapM g.get_variable = .ok vars →
    ∀ nm, nm ∉ names →
      (vars.map (fun v => (v.varName?.getD "", v.versionOf))).lookup nm
        = none := by
  intro names
  induction names with
  | nil =>
    intro vars h nm _
    have h2 : (Except.ok [] : Except KErr (List Instruction)) = .ok vars := h
    cases h2
    rfl
  | cons nm0 t ih =>
    intro vars h nm hnm
    rw [List.mapM_cons] at h
    cases ha : g.get_variable nm0 with
    | error e => rw [ha] at h; exact Except.noConfusion h
    | ok v0 =>
      rw [ha] at h
      have h2 : (t.mapM g.get_variable >>= fun bs => pure (v0 :: bs))
          = .ok vars := h
      cases ht : t.mapM g.get_variable with
      | error e => rw [ht] at h2; exact Except.noConfusion h2
      | ok bs =>
        rw [ht] at h2
        have h3 : (Except.ok (v0 :: bs) : Except KErr (List Instruction))
            = .ok vars := h2
        cases h3
        rw [List.map_cons, List.lookup_cons]
        rw [show (nm == v0.varName?.getD "") = false from
          beq_eq_false_iff_ne.2 (by
            rw [get_variable_name g nm0 v0 ha]
            exact fun hc => hnm (hc ▸ List.mem_cons_self _ _))]
        exact ih bs ht nm (fun hc => hnm (List.mem_cons_of_mem _ hc))

theorem varNames_filter_ne_nil (g : IRGraph) (nm : String)
    (hnm : nm ∈ g.varNames) :
    g.nodes.filter (Instruction.isVarNamed nm) ≠ [] := by
  unfold IRGraph.varNames at hnm
  have hnm2 := List.mem_dedup.1 hnm
  obtain ⟨x, hx, hxn⟩ := List.mem_filterMap.1 hnm2
  obtain ⟨v, hv⟩ := varName_some_data x nm hxn
  intro hc
  rw [List.filter_eq_nil_iff] at hc
  refine hc x hx ?_
  unfold Instruction.isVarNamed
  rw [hv]
  simp

theorem varTable_ssa (g : IRGraph) (hssa : ssaG g) :
    ∃ tbl, g.varTable = .ok tbl ∧
      ∀ nm, shiftAmt tbl nm = (g.varVersions nm).length := by
  have hok : ∀ nm ∈ g.varNames, ∃ v, g.get_variable nm = .ok v := by
    intro nm hnm
    exact get_variable_ok_of_nodup g nm (varNames_filter_ne_nil g nm hnm)
      ((hssa nm hnm).nodup_iff.2 (List.nodup_range _))
  obtain ⟨vars, hvars⟩ := mapM_ok_of_forall g.get_variable g.varNames hok
  refine ⟨vars.map (fun v => (v.varName?.getD "", v.versionOf)), ?_, ?_⟩
  · unfold IRGraph.varTable
    rw [show g.get_variables = .ok vars from hvars]
    rfl
  · intro nm
    by_cases hnm : nm ∈ g.varNames
    · obtain ⟨v, hv, hlk⟩ := varTable_lookup_some g g.varNames vars hvars
        (by unfold IRGraph.varNames; exact List.nodup_dedup _) nm hnm
      have hk : 0 < (g.varVersions nm).length := by
        cases hq : g.varVersions nm with
        | nil =>
          exfalso
          refine varNames_filter_ne_nil g nm hnm ?_
          have := hq
          unfold IRGraph.varVersions IRGraph.varList at this
          exact List.map_eq_nil_iff.1 this
        | cons a t => simp
      have hperm := ssaG_all g hssa nm
      have hvmem : v.versionOf ∈ g.varVersions nm := by
        unfold IRGraph.varVersions
        exact List.mem_map_of_mem _ (get_variable_ok_spec g nm v hv).1
      have hvlt : v.versionOf < (g.varVersions nm).length :=
        (perm_range_mem _ hperm _).1 hvmem
      have hmax : (g.varVersions nm).length - 1 ≤ v.versionOf := by
        have hmem2 : (g.varVersions nm).length - 1 ∈ g.varVersions nm := by
          refine (perm_range_mem _ hperm _).2 ?_
          omega
        obtain ⟨y, hy, hyv⟩ := List.mem_map.1 hmem2
        have := (get_variable_ok_spec g nm v hv).2 y hy
        omega
      unfold shiftAmt
      rw [hlk]
      show v.versionOf + 1 = (g.varVersions nm).length
      omega
    · unfold shiftAmt
      rw [varTable_key_absent g g.varNames vars hvars nm hnm]
      rw [varVersions_nil_of_not_mem g nm hnm]
      rfl

theorem max_ret_fold_eq :
    ∀ (l : List Instruction) (m : Int),
    l.foldl (fun m x => match x.data with
      | .ret s => max m (s : Int) | _ => m) m
      = ((l.filter Instruction.isReturn).map Instruction.seqOf).foldl
          (fun (m : Int) (s : Nat) => max m (s : Int)) m := by
  intro l
  induction l with
  | nil => intro m; rfl
  | cons a t ih =>
    intro m
    obtain ⟨i, d⟩ := a
    cases d with
    | ret s =>
      rw [List.foldl_cons,
        List.filter_cons_of_pos (show Instruction.isReturn ⟨i, .ret s⟩
          = true from rfl),
        List.map_cons, List.foldl_cons]
      exact ih (max m (s : Int))
    | dataSource x y =>
      rw [List.foldl_cons,
        List.filter_cons_of_neg (by simp [Instruction.isReturn])]
      exact ih m
    | var x y =>
      rw [List.foldl_cons,
        List.filter_cons_of_neg (by simp [Instruction.isReturn])]
      exact ih m
    | reference x =>
      rw [List.foldl_cons,
        List.filter_cons_of_neg (by simp [Instruction.isReturn])]
      exact ih m
    | trans x =>
      rw [List.foldl_cons,
        List.filter_cons_of_neg (by simp [Instruction.isReturn])]
      exact ih m

theorem foldl_max_bound :
    ∀ (l : List Nat) (m : Int),
    (∀ s ∈ l, (s : Int) ≤ l.foldl (fun (m : Int) (s : Nat) => max m (s : Int)) m) ∧
    m ≤ l.foldl (fun (m : Int) (s : Nat) => max m (s : Int)) m ∧
    (l.foldl (fun (m : Int) (s : Nat) => max m (s : Int)) m = m ∨
      ∃ s ∈ l, l.foldl (fun (m : Int) (s : Nat) => max m (s : Int)) m = (s : Int)) := by
  intro l
  induction l with
  | nil =>
    intro m
    exact ⟨fun s hs => by simp at hs, le_refl _, Or.inl rfl⟩
  | cons a t ih =>
    intro m
    rcases ih (max m (a : Int)) with ⟨i1, i2, i3⟩
    rw [List.foldl_cons]
    refine ⟨?_, ?_, ?_⟩
    · intro s hs
      rcases List.mem_cons.1 hs with hs | hs
      · subst hs
        exact le_trans (le_max_right m (s : Int)) i2
      · exact i1 s hs
    · exact le_trans (le_max_left m (a : Int)) i2
    · rcases i3 with h | ⟨s, hs, hfs⟩
      · rcases max_choice m (a : Int) with hm | hm
        · exact Or.inl (h.trans hm)
        · exact Or.inr ⟨a, List.mem_cons_self _ _, h.trans hm⟩
      · exact Or.inr ⟨s, List.mem_cons_of_mem _ hs, hfs⟩

theorem maxret_of_contig (g : IRGraph) (hret : retContig g) :
    (g.max_return_sequence + 1).toNat = g.retSeqs.length := by
  have heq : g.max_return_sequence
      = g.retSeqs.foldl (fun (m : Int) (s : Nat) => max m (s : Int)) (-1) :=
    max_ret_fold_eq g.nodes (-1)
  rcases foldl_max_bound g.retSeqs (-1) with ⟨b1, _, b3⟩
  cases hr : g.retSeqs with
  | nil =>
    rw [heq, hr]
    rfl
  | cons a t =>
    have hmem : ∀ s ∈ g.retSeqs, s < g.retSeqs.length :=
      fun s hs => (perm_range_mem _ hret s).1 hs
    have hlast : g.retSeqs.length - 1 ∈ g.retSeqs := by
      refine (perm_range_mem _ hret _).2 ?_
      rw [hr]
      simp
    rcases b3 with hF | ⟨s, hs, hFs⟩
    · exfalso
      have ha := b1 a (by rw [hr]; exact List.mem_cons_self _ _)
      rw [hF] at ha
      omega
    · have h1 := b1 (g.retSeqs.length - 1) hlast
      have h2 := hmem s hs
      have h3 : 0 < g.retSeqs.length := by rw [hr]; simp
      have hlen : g.retSeqs.length = (a :: t).length := by rw [hr]
      rw [heq, hFs]
      rw [hFs] at h1
      omega

theorem o2nFold_values :
    ∀ (l : List Instruction)
      (acc out : IRGraph × List (NodeId × Instruction)),
    l.foldlM o2nStep acc = .ok out →
    (∀ p ∈ acc.2, p.2.id ∈ acc.1.nodeIds) →
    ∀ p ∈ out.2, p.2.id ∈ out.1.nodeIds := by
  intro l
  induction l with
  | nil =>
    intro acc out h hv
    have h2 : (Except.ok acc : Except KErr _) = .ok out := h
    cases h2
    exact hv
  | cons r t ih =>
    intro acc out h hv
    rw [List.foldlM_cons] at h
    cases hstep : o2nStep acc r with
    | error e =>
      rw [hstep, except_bind_error] at h
      exact Except.noConfusion h
    | ok acc1 =>
      rw [hstep, except_bind_ok] at h
      rcases o2nStep_spec acc r acc1 hstep with ⟨x, hadd, h2⟩
      refine ih acc1 out h ?_
      intro p hp
      rw [h2] at hp
      rcases List.mem_append.1 hp with hp | hp
      · have := hv p hp
        obtain ⟨n, hn, hni⟩ := List.mem_map.1 this
        exact List.mem_map.2
          ⟨n, add_node_plain_nodes_mono acc.1 r true acc1.1 x hadd n hn, hni⟩
      · simp at hp
        rw [hp]
        exact (add_node_plain_spec acc.1 r true acc1.1 x hadd).2

theorem o2nFold_contents :
    ∀ (l : List Instruction)
      (acc out : IRGraph × List (NodeId × Instruction)),
    l.foldlM o2nStep acc = .ok out →
    (∀ r ∈ l, r.id ∉ acc.1.nodeIds) →
    (l.map (·.id)).Nodup →
    (∀ r ∈ l, r.isIntermediate = false) →
    ∀ d, (∃ x ∈ out.1.nodes, x.data = d) ↔
      (∃ x ∈ acc.1.nodes, x.data = d) ∨ (∃ r ∈ l, r.data = d) := by
  intro l
  induction l with
  | nil =>
    intro acc out h _ _ _ d
    have h2 : (Except.ok acc : Except KErr _) = .ok out := h
    cases h2
    simp
  | cons r t ih =>
    intro acc out h hfresh hnd hni d
    rw [List.foldlM_cons] at h
    cases hstep : o2nStep acc r with
    | error e =>
      rw [hstep, except_bind_error] at h
      exact Except.noConfusion h
    | ok acc1 =>
      rw [hstep, except_bind_ok] at h
      rcases o2nStep_spec acc r acc1 hstep with ⟨x, hadd, h2⟩
      rw [List.map_cons, List.nodup_cons] at hnd
      have hstepc := add_node_contents acc.1 r true acc1.1 x hadd
        (hfresh r (List.mem_cons_self _ _)) (hni r (List.mem_cons_self _ _))
      have hfresh2 : ∀ r' ∈ t, r'.id ∉ acc1.1.nodeIds := by
        intro r' hr' hc
        rcases add_node_plain_ids_sub acc.1 r true acc1.1 x hadd r'.id hc
          with hc2 | hc2
        · exact hfresh r' (List.mem_cons_of_mem _ hr') hc2
        · exact hnd.1 (hc2 ▸ List.mem_map_of_mem (·.id) hr')
      have hrec := ih acc1 out h hfresh2 hnd.2
        (fun r' hr' => hni r' (List.mem_cons_of_mem _ hr')) d
      rw [hrec, hstepc d]
      constructor
      · rintro ((hc | hc) | hc)
        · exact Or.inl hc
        · exact Or.inr ⟨r, List.mem_cons_self _ _, hc.symm⟩
        · rcases hc with ⟨r', hr', hrd⟩
          exact Or.inr ⟨r', List.mem_cons_of_mem _ hr', hrd⟩
      · rintro (hc | ⟨r', hr', hrd⟩)
        · exact Or.inl (Or.inl hc)
        · rcases List.mem_cons.1 hr' with hq | hq
          · subst hq
            exact Or.inl (Or.inr hrd.symm)
          · exact Or.inr ⟨r', hq, hrd⟩

theorem edgeFold_nodes_const :
    ∀ (es : List (NodeId × NodeId)) (o2n : List (NodeId × Instruction))
      (acc out : IRGraph),
    es.foldlM (edgeStep o2n) acc = .ok out →
    (∀ p ∈ o2n, p.2.id ∈ acc.nodeIds) →
    out.nodes = acc.nodes := by
  intro es
  induction es with
  | nil =>
    intro o2n acc out h _
    have h2 : (Except.ok acc : Except KErr IRGraph) = .ok out := h
    cases h2
    rfl
  | cons e rest ih =>
    intro o2n acc out h hv
    rw [List.foldlM_cons] at h
    cases hstep : edgeStep o2n acc e with
    | error err =>
      rw [hstep, except_bind_error] at h
      exact Except.noConfusion h
    | ok acc2 =>
      rw [hstep, except_bind_ok] at h
      unfold edgeStep at hstep
      cases hu : o2n.lookup e.1 with
      | none => rw [hu] at hstep; exact Except.noConfusion hstep
      | some u =>
        cases hv2 : o2n.lookup e.2 with
        | none => rw [hu, hv2] at hstep; exact Except.noConfusion hstep
        | some v =>
          rw [hu, hv2] at hstep
          have hstep2 : acc.add_edge u v false = Except.ok acc2 := hstep
          obtain ⟨pu, hpu, hpuv⟩ := lookup_mem o2n e.1 u hu
          obtain ⟨pv, hpv, hpvv⟩ := lookup_mem o2n e.2 v hv2
          rw [add_edge_of_mem acc u v false (hpuv ▸ hv pu hpu)
            (hpvv ▸ hv pv hpv)] at hstep2
          cases hstep2
          have hids : (acc.addEdgeRaw u.id v.id).nodeIds = acc.nodeIds := by
            show (acc.addEdgeRaw u.id v.id).nodes.map (·.id) = _
            rw [addEdgeRaw_nodes]
            rfl
          rw [ih o2n (acc.addEdgeRaw u.id v.id) out h
            (fun p hp => hids ▸ hv p hp)]
          exact addEdgeRaw_nodes acc u.id v.id

theorem map_shift_ids (l : List Instruction) (tbl : List (String × Nat))
    (R : Nat) : (l.map (shiftNode tbl R)).map (·.id) = l.map (·.id) := by
  rw [List.map_map]
  exact List.map_congr_left (fun x _ => shiftNode_id tbl R x)

theorem shift_not_intermediate (tbl : List (String × Nat)) (R : Nat)
    (y : Instruction) (hy : y.isIntermediate = false) :
    (shiftNode tbl R y).isIntermediate = false := by
  by_contra hc
  have hc2 : (shiftNode tbl R y).isIntermediate = true :=
    Bool.of_not_eq_false (by simpa using hc)
  obtain ⟨nm, hnm⟩ := interm_data _ hc2
  rw [shiftNode_data] at hnm
  have hyd : y.data = .reference nm := (specShiftData_eq_ref tbl R _ nm).1 hnm
  rw [intermediate_of_data y nm hyd] at hy
  exact Bool.noConfusion hy

theorem update_contents (g h g' h' : IRGraph)
    (hu : g.update h = .ok (g', h'))
    (hhnd : h.nodupIds)
    (hdisj : ∀ i ∈ h.nodeIds, i ∉ g.nodeIds)
    (hhni : ∀ x ∈ h.nodes, x.isIntermediate = false) :
    ∃ tbl, g.varTable = .ok tbl ∧
      ∀ d, (∃ x ∈ g'.nodes, x.data = d) ↔
        (∃ x ∈ g.nodes, x.data = d) ∨
        (∃ x ∈ h.nodes,
          specShiftData tbl (g.max_return_sequence + 1).toNat x.data = d) := by
  rcases update_destruct g h g' h' hu with
    ⟨hm, refs, g1, o2nR, g2, o2n, hr0, hf1, hf2, hf3⟩
  rcases mutated_destruct g h h' hm with ⟨tbl, htbl, hh'⟩
  refine ⟨tbl, htbl, ?_⟩
  subst hh'
  have hni' : ∀ x ∈ h.nodes.map
      (shiftNode tbl (g.max_return_sequence + 1).toNat),
      x.isIntermediate = false := by
    intro x hx
    obtain ⟨y, hy, hyx⟩ := List.mem_map.1 hx
    rw [← hyx]
    exact shift_not_intermediate _ _ y (hhni y hy)
  have hrnil : refs = [] := by
    cases hq : refs with
    | nil => rfl
    | cons r0 t =>
      exfalso
      have hr0m := get_references_spec _ refs hr0 r0
        (by rw [hq]; exact List.mem_cons_self _ _)
      have := hni' r0 hr0m.1
      rw [hr0m.2] at this
      exact Bool.noConfusion this
  subst hrnil
  have hp1 := Except.ok.inj
    (show (Except.ok (g, ([] : List (NodeId × Instruction)))
      : Except KErr (IRGraph × List (NodeId × Instruction)))
      = .ok (g1, o2nR) from hf1)
  have hg1 : g1 = g := (congrArg Prod.fst hp1).symm
  have ho2nR : o2nR = [] := (congrArg Prod.snd hp1).symm
  rw [hg1, ho2nR] at hf2
  have hft : (h.nodes.map
      (shiftNode tbl (g.max_return_sequence + 1).toNat)).filter
      (fun n => n.id ∉ ([] : List Instruction).map (·.id))
      = h.nodes.map (shiftNode tbl (g.max_return_sequence + 1).toNat) :=
    List.filter_eq_self.2 (fun x _ => by simp)
  rw [hft] at hf2
  have hfreshm : ∀ r ∈ h.nodes.map
      (shiftNode tbl (g.max_return_sequence + 1).toNat),
      r.id ∉ g.nodeIds := by
    intro r hr
    refine hdisj r.id ?_
    have : r.id ∈ (h.nodes.map
        (shiftNode tbl (g.max_return_sequence + 1).toNat)).map (·.id) :=
      List.mem_map_of_mem _ hr
    rw [map_shift_ids] at this
    exact this
  have hndm : ((h.nodes.map
      (shiftNode tbl (g.max_return_sequence + 1).toNat)).map (·.id)).Nodup := by
    rw [map_shift_ids]
    exact hhnd
  have hcont := o2nFold_contents
    (h.nodes.map (shiftNode tbl (g.max_return_sequence + 1).toNat))
    (g, []) (g2, o2n) hf2 hfreshm hndm hni'
  have hvals := o2nFold_values
    (h.nodes.map (shiftNode tbl (g.max_return_sequence + 1).toNat))
    (g, []) (g2, o2n) hf2 (fun p hp => by simp at hp)
  have hnodes := edgeFold_nodes_const h.edges o2n g2 g' hf3 hvals
  intro d
  have hc1 := hcont d
  rw [show g'.nodes = g2.nodes from hnodes, hc1]
  constructor
  · rintro (hc | hc)
    · exact Or.inl hc
    · exact Or.inr ((map_shift_contents h.nodes tbl _ d).1 hc)
  · rintro (hc | hc)
    · exact Or.inl hc
    · exact Or.inr ((map_shift_contents h.nodes tbl _ d).2 hc)

theorem shifted_union_iff (a b v : Nat) :
    (v < a ∨ ∃ v', v' < b ∧ v = v' + a) ↔ v < a + b := by
  constructor
  · rintro (h | ⟨v', h1, h2⟩) <;> omega
  · intro h
    by_cases hv : v < a
    · exact Or.inl hv
    · exact Or.inr ⟨v - a, by omega, by omega⟩

theorem shifted_var_contents (l : List Instruction)
    (tbl : List (String × Nat)) (R : Nat) (nm : String) (v : Nat) :
    (∃ x ∈ l, specShiftData tbl R x.data = .var nm v) ↔
    ∃ v', (∃ x ∈ l, x.data = .var nm v') ∧ v = v' + shiftAmt tbl nm := by
  constructor
  · rintro ⟨x, hx, hxd⟩
    obtain ⟨v', hv', hsum⟩ := (specShiftData_eq_var tbl R x.data nm v).1 hxd
    exact ⟨v', ⟨x, hx, hv'⟩, hsum⟩
  · rintro ⟨v', ⟨x, hx, hxd⟩, hsum⟩
    exact ⟨x, hx, (specShiftData_eq_var tbl R x.data nm v).2 ⟨v', hxd, hsum⟩⟩

theorem shifted_ret_contents (l : List Instruction)
    (tbl : List (String × Nat)) (R : Nat) (s : Nat) :
    (∃ x ∈ l, specShiftData tbl R x.data = .ret s) ↔
    ∃ s', (∃ x ∈ l, x.data = .ret s') ∧ s = s' + R := by
  constructor
  · rintro ⟨x, hx, hxd⟩
    obtain ⟨s', hs', hsum⟩ := (specShiftData_eq_ret tbl R x.data s).1 hxd
    exact ⟨s', ⟨x, hx, hs'⟩, hsum⟩
  · rintro ⟨s', ⟨x, hx, hxd⟩, hsum⟩
    exact ⟨x, hx, (specShiftData_eq_ret tbl R x.data s).2 ⟨s', hxd, hsum⟩⟩

theorem var_count_iff (g : IRGraph) (hssa : ssaG g) (nm : String) (v : Nat) :
    (∃ x ∈ g.nodes, x.data = .var nm v) ↔ v < (g.varVersions nm).length := by
  rw [var_mem_iff g.nodes nm v]
  exact perm_range_mem (g.varVersions nm) (ssaG_all g hssa nm) v

theorem ret_count_iff (g : IRGraph) (hret : retContig g) (s : Nat) :
    (∃ x ∈ g.nodes, x.data = .ret s) ↔ s < g.retSeqs.length := by
  rw [ret_mem_iff g.nodes s]
  exact perm_range_mem g.retSeqs hret s

/-- C8 (amended): union is node-set commutative by content on well-formed
reference-free graphs.  For graphs with distinct and disjoint node ids, no
Reference nodes, SSA-shaped variable versions and contiguous return
sequences, union(g, h) and union(h, g) hold exactly the same node contents:
sources and transforms are exchanged symmetrically, and the variable
versions (respectively return sequences) of each name form the same
contiguous range 0..k_g+k_h-1 in both orders, with the second argument's
versions shifted above the first argument's - the order-dependence the spec
concedes.  The unrestricted claim is refuted by claim_C8_counterexample:
dereferencing drops a Reference in one order but not the other. -/
theorem claim_C8 (g h u1 u2 : IRGraph)
    (hgnd : g.nodupIds) (hhnd : h.nodupIds)
    (hdisj : ∀ i ∈ h.nodeIds, i ∉ g.nodeIds)
    (hgni : ∀ x ∈ g.nodes, x.isIntermediate = false)
    (hhni : ∀ x ∈ h.nodes, x.isIntermediate = false)
    (hgssa : ssaG g) (hhssa : ssaG h)
    (hgret : retContig g) (hhret : retContig h)
    (h1 : union g h = .ok u1) (h2 : union h g = .ok u2) :
    ∀ d : InstrData,
      (∃ x ∈ u1.nodes, x.data = d) ↔ (∃ y ∈ u2.nodes, y.data = d) := by
  have hdisj2 : ∀ i ∈ g.nodeIds, i ∉ h.nodeIds :=
    fun i hi hc => hdisj i hc hi
  unfold union at h1 h2
  cases hu1 : g.update h with
  | error e => rw [hu1] at h1; exact Except.noConfusion h1
  | ok p1 =>
    obtain ⟨ga, ha⟩ := p1
    rw [hu1] at h1
    have hga : ga = u1 := Except.ok.inj h1
    subst hga
    cases hu2 : h.update g with
    | error e => rw [hu2] at h2; exact Except.noConfusion h2
    | ok p2 =>
      obtain ⟨hb, gb⟩ := p2
      rw [hu2] at h2
      have hhb : hb = u2 := Except.ok.inj h2
      subst hhb
      obtain ⟨tblg, htblg, hcg⟩ := update_contents g h ga ha hu1 hhnd hdisj hhni
      obtain ⟨tblh, htblh, hch⟩ := update_contents h g hb gb hu2 hgnd hdisj2 hgni
      obtain ⟨tblg2, htblg2, hamtg⟩ := varTable_ssa g hgssa
      obtain ⟨tblh2, htblh2, hamth⟩ := varTable_ssa h hhssa
      have htg : tblg = tblg2 := by
        rw [htblg] at htblg2
        exact Except.ok.inj htblg2
      have hth : tblh = tblh2 := by
        rw [htblh] at htblh2
        exact Except.ok.inj htblh2
      subst htg
      subst hth
      have hRg := maxret_of_contig g hgret
      have hRh := maxret_of_contig h hhret
      intro d
      rw [hcg d, hch d]
      cases d with
      | dataSource a b =>
        have e1 : (∃ x ∈ h.nodes, specShiftData tblg
            (g.max_return_sequence + 1).toNat x.data = .dataSource a b)
            ↔ (∃ x ∈ h.nodes, x.data = .dataSource a b) :=
          exists_congr fun x => and_congr_right fun _ =>
            specShiftData_eq_ds tblg _ x.data a b
        have e2 : (∃ x ∈ g.nodes, specShiftData tblh
            (h.max_return_sequence + 1).toNat x.data = .dataSource a b)
            ↔ (∃ x ∈ g.nodes, x.data = .dataSource a b) :=
          exists_congr fun x => and_congr_right fun _ =>
            specShiftData_eq_ds tblh _ x.data a b
        rw [e1, e2]
        exact or_comm
      | trans o =>
        have e1 : (∃ x ∈ h.nodes, specShiftData tblg
            (g.max_return_sequence + 1).toNat x.data = .trans o)
            ↔ (∃ x ∈ h.nodes, x.data = .trans o) :=
          exists_congr fun x => and_congr_right fun _ =>
            specShiftData_eq_trans tblg _ x.data o
        have e2 : (∃ x ∈ g.nodes, specShiftData tblh
            (h.max_return_sequence + 1).toNat x.data = .trans o)
            ↔ (∃ x ∈ g.nodes, x.data = .trans o) :=
          exists_congr fun x => and_congr_right fun _ =>
            specShiftData_eq_trans tblh _ x.data o
        rw [e1, e2]
        exact or_comm
      | reference n =>
        have hnog : ¬ ∃ x ∈ g.nodes, x.data = .reference n := by
          rintro ⟨x, hx, hxd⟩
          have := hgni x hx
          rw [intermediate_of_data x n hxd] at this
          exact Bool.noConfusion this
        have hnoh : ¬ ∃ x ∈ h.nodes, x.data = .reference n := by
          rintro ⟨x, hx, hxd⟩
          have := hhni x hx
          rw [intermediate_of_data x n hxd] at this
          exact Bool.noConfusion this
        constructor
        · rintro (hc | hc)
          · exact absurd hc hnog
          · exfalso
            refine hnoh ?_
            rcases hc with ⟨x, hx, hxd⟩
            exact ⟨x, hx, (specShiftData_eq_ref tblg _ x.data n).1 hxd⟩
        · rintro (hc | hc)
          · exact absurd hc hnoh
          · exfalso
            refine hnog ?_
            rcases hc with ⟨x, hx, hxd⟩
            exact ⟨x, hx, (specShiftData_eq_ref tblh _ x.data n).1 hxd⟩
      | var nm v =>
        rw [shifted_var_contents, shifted_var_contents, hamtg nm, hamth nm]
        simp only [var_count_iff g hgssa nm, var_count_iff h hhssa nm]
        rw [shifted_union_iff, shifted_union_iff, Nat.add_comm]
      | ret s =>
        rw [shifted_ret_contents, shifted_ret_contents, hRg, hRh]
        simp only [ret_count_iff g hgret, ret_count_iff h hhret]
        rw [shifted_union_iff, shifted_union_iff, Nat.add_comm]

theorem claim_C8_witness :
    (∃ x ∈ (⟨[⟨1, .dataSource "A" "t"⟩, ⟨2, .var "x" 0⟩, ⟨3, .ret 0⟩,
        ⟨6, .trans "f"⟩, ⟨4, .var "x" 1⟩, ⟨5, .ret 1⟩],
        [(1, 2), (2, 3), (6, 4)]⟩ : IRGraph).nodes,
        x.data = InstrData.var "x" 1) ↔
    (∃ y ∈ (⟨[⟨6, .trans "f"⟩, ⟨4, .var "x" 0⟩, ⟨5, .ret 0⟩,
        ⟨7, .dataSource "A" "t"⟩, ⟨2, .var "x" 1⟩, ⟨3, .ret 1⟩],
        [(6, 4), (7, 2), (2, 3)]⟩ : IRGraph).nodes,
        y.data = InstrData.var "x" 1) :=
  claim_C8 wC8g wC8h
    ⟨[⟨1, .dataSource "A" "t"⟩, ⟨2, .var "x" 0⟩, ⟨3, .ret 0⟩,
      ⟨6, .trans "f"⟩, ⟨4, .var "x" 1⟩, ⟨5, .ret 1⟩],
      [(1, 2), (2, 3), (6, 4)]⟩
    ⟨[⟨6, .trans "f"⟩, ⟨4, .var "x" 0⟩, ⟨5, .ret 0⟩,
      ⟨7, .dataSource "A" "t"⟩, ⟨2, .var "x" 1⟩, ⟨3, .ret 1⟩],
      [(6, 4), (7, 2), (2, 3)]⟩
    (by decide) (by decide) (by decide) (by decide) (by decide)
    (by decide) (by decide) (by decide) (by decide) (by decide) (by decide)
    (InstrData.var "x" 1)
